import Mathlib

/-!
# Order matching engine: shallow embedding of the modular engine

Source files embedded here: `order.h` (Order, Trade), `MatchingEngine.cpp`
(matchBuyOrder, matchSellOrder), `orderbook.cpp` (constructor, placeOrder,
processTrades, cancelOrder, showBook), `Persistence.cpp` (loadOrders,
exportActiveOrders), `engine.cpp` (the monolithic placeOrder, cancelOrder, matchBuy,
matchSell, removeOrderFromQueue) and `random_order_generator.cpp` (randomPrice).

Modelling conventions.
* C++ `int` and `time_t` are `Int`.  Three sums of the code can leave the 32-bit
  range: `nextOrderId++` in `placeOrder`, `tradeId++` in the two matchers, and
  `o.id + 1` in the constructor.  Signed overflow is undefined behaviour in C++;
  `wrapInt` gives the two's-complement result the compiled code leaves behind.
  The engine is embedded twice.  `placeOrder`, `matchBuyOrder` and `matchSellOrder`
  keep the two counters as mathematical integers; they carry the properties that
  do not depend on the values of the counters.  `I32.placeOrder`,
  `I32.matchBuyOrder` and `I32.matchSellOrder` are the same code with each
  increment reduced by `wrapInt`; every statement about the value of a counter is
  made on them.  `i32_step`, `i32_runFrom` and `i32_runFrom_eq` relate the two:
  they agree, up to the trade ids, while fewer than 2^31 - 1 orders have been
  accepted, and exactly while fewer than 2^31 - 1 trades have been emitted as
  well.  The constructor reduces `o.id + 1` by `wrapInt` in `indexQueue`.
* `std::queue<Order>` is a `List Order`, front of the queue first.
* `std::map<int, std::queue<Order>, Cmp>` is the list of its (key, queue) pairs in
  iteration order (`begin()` first): ascending keys for `sellOrders`, descending
  keys for `buyOrders`.
* `std::unordered_map<int, Order>` is an association list with at most one entry
  per key; the code never iterates over it.
* A C++ reference into a container is a read followed by a write-back.
* The clock is an oracle: `now` is the reading taken by `placeOrder`, and `clk k`
  is the reading taken for the trade pushed when `trades` already holds `k`
  elements of the current call.
* Logger output, console output and the files written by the persistence layer
  are not part of the state; the trades handed to `logTrade` are returned.
* The two active-order files are texts (`List Char`); a missing file is `none`.
  `exportActiveOrders` returns the two texts it writes and the constructor takes
  the two texts it reads.  `std::stoi` and `std::stol` are modelled by `strtoRange`
  with the ranges of a 32-bit `int` and a 64-bit `long`.
-/

namespace OME

/-! ## order.h -/

inductive OrderType where
  | BUY
  | SELL
deriving DecidableEq, Repr

structure Order where
  id : Int
  type : OrderType
  price : Int
  quantity : Int
  filled_quantity : Int
  timestamp : Int
deriving DecidableEq, Repr

/-- Source: `int remaining() const { return quantity - filled_quantity; }`. -/
def Order.remaining (o : Order) : Int := o.quantity - o.filled_quantity

/-- Source: `bool is_filled() const { return remaining() == 0; }`. -/
def Order.is_filled (o : Order) : Bool := o.remaining == 0

structure Trade where
  tradeId : Int
  buyOrderId : Int
  sellOrderId : Int
  price : Int
  quantity : Int
  timestamp : Int
deriving DecidableEq, Repr

/-! ## Machine integers -/

/-- The value a 32-bit `int` holds after an arithmetic result `x`: `x` itself when
it lies in `-2^31 .. 2^31 - 1`, and otherwise the value of that range congruent to
`x` modulo 2^32, which is what the two's-complement addition of the compiled code
leaves in the variable (the C++ standard leaves the overflow undefined). -/
def wrapInt (x : Int) : Int := (x + 2147483648) % 4294967296 - 2147483648

/-- The value `x` is the value of a 32-bit `int`. -/
@[reducible] def InInt (x : Int) : Prop := -2147483648 ≤ x ∧ x ≤ 2147483647

/-! ## Containers -/

/-- One entry of a price-keyed `std::map`: the key and the queue stored under it. -/
abbrev Level := Int × List Order

/-- A `std::map<int, std::queue<Order>, Cmp>` as its entries in iteration order. -/
abbrev PriceMap := List Level

/-- The `std::unordered_map<int, Order>` named `allOrders`. -/
abbrev OrderIndex := List (Int × Order)

/-- Source: `m.count(price)` of a `std::map`. -/
def PriceMap.count (m : PriceMap) (price : Int) : Bool :=
  m.any (fun l => l.1 == price)

/-- Source: `m[price]` read on a key that is present (empty queue otherwise). -/
def PriceMap.get : PriceMap → Int → List Order
  | [], _ => []
  | (k, q) :: rest, price => if k = price then q else PriceMap.get rest price

/-- Source: assignment through the reference `m[price]` on a key that is present. -/
def PriceMap.setAt : PriceMap → Int → List Order → PriceMap
  | [], _, _ => []
  | (k, q) :: rest, price, newQ =>
    if k = price then (k, newQ) :: rest else (k, q) :: PriceMap.setAt rest price newQ

/-- Source: `m.erase(price)` of a `std::map`. -/
def PriceMap.erase (m : PriceMap) (price : Int) : PriceMap :=
  m.filter (fun l => !(l.1 == price))

/-- Source: `m[price].push(o)`: `operator[]` creates the level at its place in the
iteration order when the key is absent; `before a b` is the comparator `Cmp(a, b)`. -/
def PriceMap.pushAt (before : Int → Int → Bool) : PriceMap → Int → Order → PriceMap
  | [], price, o => [(price, [o])]
  | (k, q) :: rest, price, o =>
    if k = price then (k, q ++ [o]) :: rest
    else if before price k then (price, [o]) :: (k, q) :: rest
    else (k, q) :: PriceMap.pushAt before rest price o

/-- The comparator `std::less<int>` of `sellOrders`. -/
def sellBefore (a b : Int) : Bool := decide (a < b)

/-- The comparator `std::greater<int>` of `buyOrders`. -/
def buyBefore (a b : Int) : Bool := decide (a > b)

/-- Source: `allOrders.find(id)` / `allOrders.at(id)`; `none` is `end()` / `out_of_range`. -/
def OrderIndex.find : OrderIndex → Int → Option Order
  | [], _ => none
  | (k, o) :: rest, id => if k = id then some o else OrderIndex.find rest id

/-- Source: `allOrders[id] = o`. -/
def OrderIndex.assign : OrderIndex → Int → Order → OrderIndex
  | [], id, o => [(id, o)]
  | (k, v) :: rest, id, o =>
    if k = id then (k, o) :: rest else (k, v) :: OrderIndex.assign rest id o

/-- Source: `allOrders.erase(id)`. -/
def OrderIndex.erase (m : OrderIndex) (id : Int) : OrderIndex :=
  m.filter (fun e => !(e.1 == id))

/-! ## MatchingEngine.cpp -/

/-- The variables live in the inner `while` loop of the matcher. -/
structure LevelState where
  order : Order
  queue : List Order
  tradeId : Int
  trades : List Trade
deriving DecidableEq, Repr

/-- The variables live in the outer `for` loop of the matcher. -/
structure MatchState where
  order : Order
  book : PriceMap
  tradeId : Int
  trades : List Trade
deriving DecidableEq, Repr

/-- Source: `matchBuyOrder`, the loop `while (!q.empty() && !buy.is_filled())`.
One unit of fuel is spent per iteration; with no fuel left the loop variables are
returned as they stand (`matchBuyLevel_loop` shows that `q.length` units always
reach the exit of the loop).  The counter `tradeId` is kept as a mathematical
integer here; `I32.matchBuyLevelLoop` is the loop with `tradeId++` on 32 bits. -/
def matchBuyLevelLoop (clk : Nat → Int) : Nat → LevelState → LevelState
  | 0, st => st
  | fuel + 1, st =>
    match st.queue with
    | [] => st
    | sell :: rest =>
      if st.order.is_filled then st
      else
        let buy := st.order
        let tradedQty := min buy.remaining sell.remaining
        let trades := st.trades ++
          [⟨st.tradeId, buy.id, sell.id, sell.price, tradedQty, clk st.trades.length⟩]
        let buy1 := { buy with filled_quantity := buy.filled_quantity + tradedQty }
        let sell1 := { sell with filled_quantity := sell.filled_quantity + tradedQty }
        if sell1.is_filled then
          matchBuyLevelLoop clk fuel ⟨buy1, rest, st.tradeId + 1, trades⟩
        else
          matchBuyLevelLoop clk fuel ⟨buy1, sell1 :: rest, st.tradeId + 1, trades⟩

/-- The inner loop of `matchBuyOrder` run on one level. -/
def matchBuyLevel (clk : Nat → Int) (st : LevelState) : LevelState :=
  matchBuyLevelLoop clk st.queue.length st

/-- Source: `matchBuyOrder`, the loop
`for (it = sellOrders.begin(); it != sellOrders.end() && !buy.is_filled();)`,
started at the level `it` points to; the result lists the levels from `it` on. -/
def matchBuyLevels (clk : Nat → Int) (buy : Order) (tradeId : Int) (trades : List Trade) :
    PriceMap → MatchState
  | [] => ⟨buy, [], tradeId, trades⟩
  | (price, q) :: rest =>
    if buy.is_filled then ⟨buy, (price, q) :: rest, tradeId, trades⟩
    else if buy.price < price then ⟨buy, (price, q) :: rest, tradeId, trades⟩
    else
      let r := matchBuyLevel clk ⟨buy, q, tradeId, trades⟩
      if r.queue.isEmpty then
        matchBuyLevels clk r.order r.tradeId r.trades rest
      else
        let m := matchBuyLevels clk r.order r.tradeId r.trades rest
        { m with book := (price, r.queue) :: m.book }

/-- Source: `MatchingEngine::matchBuyOrder(Order& buy, sellOrders, int& tradeId)`;
the result holds the returned `trades` and the final values of the three
arguments passed by reference. -/
def matchBuyOrder (clk : Nat → Int) (buy : Order) (sellOrders : PriceMap) (tradeId : Int) :
    MatchState :=
  matchBuyLevels clk buy tradeId [] sellOrders

/-- Source: `matchSellOrder`, the loop `while (!q.empty() && !sell.is_filled())`.
The counter `tradeId` is kept as a mathematical integer here;
`I32.matchSellLevelLoop` is the loop with `tradeId++` on 32 bits. -/
def matchSellLevelLoop (clk : Nat → Int) : Nat → LevelState → LevelState
  | 0, st => st
  | fuel + 1, st =>
    match st.queue with
    | [] => st
    | buy :: rest =>
      if st.order.is_filled then st
      else
        let sell := st.order
        let tradedQty := min sell.remaining buy.remaining
        let trades := st.trades ++
          [⟨st.tradeId, buy.id, sell.id, buy.price, tradedQty, clk st.trades.length⟩]
        let sell1 := { sell with filled_quantity := sell.filled_quantity + tradedQty }
        let buy1 := { buy with filled_quantity := buy.filled_quantity + tradedQty }
        if buy1.is_filled then
          matchSellLevelLoop clk fuel ⟨sell1, rest, st.tradeId + 1, trades⟩
        else
          matchSellLevelLoop clk fuel ⟨sell1, buy1 :: rest, st.tradeId + 1, trades⟩

/-- The inner loop of `matchSellOrder` run on one level. -/
def matchSellLevel (clk : Nat → Int) (st : LevelState) : LevelState :=
  matchSellLevelLoop clk st.queue.length st

/-- Source: `matchSellOrder`, the loop
`for (it = buyOrders.begin(); it != buyOrders.end() && !sell.is_filled();)`. -/
def matchSellLevels (clk : Nat → Int) (sell : Order) (tradeId : Int) (trades : List Trade) :
    PriceMap → MatchState
  | [] => ⟨sell, [], tradeId, trades⟩
  | (price, q) :: rest =>
    if sell.is_filled then ⟨sell, (price, q) :: rest, tradeId, trades⟩
    else if sell.price > price then ⟨sell, (price, q) :: rest, tradeId, trades⟩
    else
      let r := matchSellLevel clk ⟨sell, q, tradeId, trades⟩
      if r.queue.isEmpty then
        matchSellLevels clk r.order r.tradeId r.trades rest
      else
        let m := matchSellLevels clk r.order r.tradeId r.trades rest
        { m with book := (price, r.queue) :: m.book }

/-- Source: `MatchingEngine::matchSellOrder(Order& sell, buyOrders, int& tradeId)`. -/
def matchSellOrder (clk : Nat → Int) (sell : Order) (buyOrders : PriceMap) (tradeId : Int) :
    MatchState :=
  matchSellLevels clk sell tradeId [] buyOrders

/-! ## orderbook.cpp -/

/-- The data members of `OrderBook` that the operations read and write. -/
structure OrderBook where
  nextOrderId : Int
  nextTradeId : Int
  buyOrders : PriceMap
  sellOrders : PriceMap
  allOrders : OrderIndex
deriving DecidableEq, Repr

/-- The exceptions that leave `placeOrder` and `cancelOrder`. -/
inductive Error where
  | invalid_argument
  | not_found
  | already_filled
  | not_in_book
  | out_of_range
deriving DecidableEq, Repr

/-- What a call leaves behind: the engine state, the trades handed to the trade
log during the call, and the exception that left the call, if any. -/
structure Outcome where
  state : OrderBook
  trades : List Trade
  error : Option Error
deriving DecidableEq, Repr

/-- A freshly constructed engine with no order files to load. -/
def fresh : OrderBook := ⟨1, 1, [], [], []⟩

/-- Source: `OrderBook::processTrades`, second loop: the two `allOrders.at` lookups
per trade; `true` when none of them throws. -/
def processTrades (allOrders : OrderIndex) (trades : List Trade) : Bool :=
  trades.all (fun t =>
    (allOrders.find t.buyOrderId).isSome && (allOrders.find t.sellOrderId).isSome)

/-- Source: `OrderBook::placeOrder(OrderType type, int price, int quantity)`.  The
counter `nextOrderId` is kept as a mathematical integer here; `I32.placeOrder` is
the call with `nextOrderId++` on 32 bits. -/
def placeOrder (s : OrderBook) (type : OrderType) (price quantity : Int)
    (now : Int) (clk : Nat → Int) : Outcome :=
  if price ≤ 0 ∨ quantity ≤ 0 then ⟨s, [], some .invalid_argument⟩
  else
    let order : Order := ⟨s.nextOrderId, type, price, quantity, 0, now⟩
    let all1 := s.allOrders.assign order.id order
    match all1.find order.id with
    | none => ⟨{ s with nextOrderId := s.nextOrderId + 1, allOrders := all1 }, [],
        some .out_of_range⟩
    | some incoming =>
      let s2 : OrderBook :=
        match type with
        | .BUY =>
          let m := matchBuyOrder clk incoming s.sellOrders s.nextTradeId
          ⟨s.nextOrderId + 1, m.tradeId, s.buyOrders, m.book, all1.assign order.id m.order⟩
        | .SELL =>
          let m := matchSellOrder clk incoming s.buyOrders s.nextTradeId
          ⟨s.nextOrderId + 1, m.tradeId, m.book, s.sellOrders, all1.assign order.id m.order⟩
      let trades : List Trade :=
        match type with
        | .BUY => (matchBuyOrder clk incoming s.sellOrders s.nextTradeId).trades
        | .SELL => (matchSellOrder clk incoming s.buyOrders s.nextTradeId).trades
      if processTrades s2.allOrders trades then
        match s2.allOrders.find order.id with
        | none => ⟨s2, trades, some .out_of_range⟩
        | some o =>
          if !o.is_filled then
            match order.type with
            | .BUY =>
              ⟨{ s2 with buyOrders := s2.buyOrders.pushAt buyBefore order.price o }, trades, none⟩
            | .SELL =>
              ⟨{ s2 with sellOrders := s2.sellOrders.pushAt sellBefore order.price o }, trades,
                none⟩
          else ⟨s2, trades, none⟩
      else ⟨s2, trades, some .out_of_range⟩

/-- Source: the lambda `removeFromQueue` of `cancelOrder`: the rebuilt queue and
whether `removed` was set. -/
def removeFromQueue (id : Int) (q : List Order) : List Order × Bool :=
  (q.filter (fun o => !(o.id == id)), q.any (fun o => o.id == id))

/-- Source: `cancelOrder`, the block run on the map of the order's side. -/
def cancelInSide (m : PriceMap) (price id : Int) : PriceMap × Bool :=
  if m.count price then
    let r := removeFromQueue id (m.get price)
    let m1 := m.setAt price r.1
    if (m1.get price).isEmpty then (m1.erase price, r.2) else (m1, r.2)
  else (m, false)

/-- Source: `OrderBook::cancelOrder(int id)`. -/
def cancelOrder (s : OrderBook) (id : Int) : Outcome :=
  match s.allOrders.find id with
  | none => ⟨s, [], some .not_found⟩
  | some order_to_cancel =>
    if order_to_cancel.is_filled then ⟨s, [], some .already_filled⟩
    else
      let s1 : OrderBook × Bool :=
        match order_to_cancel.type with
        | .BUY =>
          let r := cancelInSide s.buyOrders order_to_cancel.price id
          ({ s with buyOrders := r.1 }, r.2)
        | .SELL =>
          let r := cancelInSide s.sellOrders order_to_cancel.price id
          ({ s with sellOrders := r.1 }, r.2)
      if s1.2 then ⟨{ s1.1 with allOrders := s1.1.allOrders.erase id }, [], none⟩
      else ⟨s1.1, [], some .not_in_book⟩

/-! ## Runs of the engine -/

/-- A call of one of the two public operations, with the clock readings it takes. -/
inductive Command where
  | place (type : OrderType) (price quantity : Int) (now : Int) (clk : Nat → Int)
  | cancel (id : Int)

/-- The outcome of one command. -/
def step (s : OrderBook) : Command → Outcome
  | .place type price quantity now clk => placeOrder s type price quantity now clk
  | .cancel id => cancelOrder s id

/-- The engine and the whole trade log after a sequence of commands; a command
that throws leaves the state its call left behind and the run goes on, as the
console loop of `main.cpp` does. -/
def runFrom (s : OrderBook) (log : List Trade) : List Command → OrderBook × List Trade
  | [] => (s, log)
  | c :: cs => runFrom (step s c).state (log ++ (step s c).trades) cs

/-- A run from a fresh engine. -/
def run (cs : List Command) : OrderBook × List Trade := runFrom fresh [] cs

/-- A clock that always reads zero. -/
def clock0 : Nat → Int := fun _ => 0

/-! ## A side-generic view of the matcher

`matchBuyOrder` and `matchSellOrder` differ only in the field of the trade that
receives each id and in the comparison that ends the walk.  `levelsRun` states
both once, by recursion on the queue and on the levels; `matchBuyLevels_eq` and
`matchSellLevels_eq` show that the two source loops compute exactly it. -/

/-- The order `o` after `qty` more units have been filled. -/
def fill (o : Order) (qty : Int) : Order :=
  { o with filled_quantity := o.filled_quantity + qty }

/-- The trade record pushed by the matcher of an incoming order of type `side`. -/
def mkTrade (side : OrderType) (tradeId : Int) (incoming resting : Order) (qty ts : Int) :
    Trade :=
  match side with
  | .BUY => ⟨tradeId, incoming.id, resting.id, resting.price, qty, ts⟩
  | .SELL => ⟨tradeId, resting.id, incoming.id, resting.price, qty, ts⟩

/-- The test that breaks out of the walk over the levels. -/
def priceStops (side : OrderType) (incomingPrice levelPrice : Int) : Bool :=
  match side with
  | .BUY => decide (incomingPrice < levelPrice)
  | .SELL => decide (incomingPrice > levelPrice)

/-- The inner loop of the matcher, by recursion on the queue. -/
def levelRun (side : OrderType) (clk : Nat → Int) :
    Order → Int → List Trade → List Order → LevelState
  | inc, tid, trades, [] => ⟨inc, [], tid, trades⟩
  | inc, tid, trades, r :: rest =>
    if inc.is_filled then ⟨inc, r :: rest, tid, trades⟩
    else
      let qty := min inc.remaining r.remaining
      let trades1 := trades ++ [mkTrade side tid inc r qty (clk trades.length)]
      if (fill r qty).is_filled then levelRun side clk (fill inc qty) (tid + 1) trades1 rest
      else ⟨fill inc qty, fill r qty :: rest, tid + 1, trades1⟩

/-- The outer loop of the matcher, by recursion on the levels. -/
def levelsRun (side : OrderType) (clk : Nat → Int) :
    Order → Int → List Trade → PriceMap → MatchState
  | inc, tid, trades, [] => ⟨inc, [], tid, trades⟩
  | inc, tid, trades, (price, q) :: rest =>
    if inc.is_filled then ⟨inc, (price, q) :: rest, tid, trades⟩
    else if priceStops side inc.price price then ⟨inc, (price, q) :: rest, tid, trades⟩
    else
      let r := levelRun side clk inc tid trades q
      if r.queue.isEmpty then levelsRun side clk r.order r.tradeId r.trades rest
      else
        let m := levelsRun side clk r.order r.tradeId r.trades rest
        { m with book := (price, r.queue) :: m.book }

/-- The matcher of an incoming order of type `side` against the opposite side. -/
def matchOrder (side : OrderType) (clk : Nat → Int) (inc : Order) (book : PriceMap)
    (tid : Int) : MatchState :=
  levelsRun side clk inc tid [] book

/-! ### The source loops compute the generic view -/

theorem fill_min_filled (inc r : Order)
    (h : (fill r (min inc.remaining r.remaining)).is_filled = false) :
    (fill inc (min inc.remaining r.remaining)).is_filled = true := by
  simp only [Order.is_filled, fill, Order.remaining, beq_eq_false_iff_ne, ne_eq,
    beq_iff_eq] at *
  rcases le_total (inc.quantity - inc.filled_quantity) (r.quantity - r.filled_quantity) with h1 | h1
  · rw [min_eq_left h1]; ring
  · rw [min_eq_right h1] at h; exact absurd (by ring) h

theorem matchBuyLevelLoop_filled (clk : Nat → Int) (fuel : Nat) (st : LevelState)
    (h : st.order.is_filled = true) : matchBuyLevelLoop clk fuel st = st := by
  cases fuel with
  | zero => rfl
  | succ n =>
    unfold matchBuyLevelLoop
    split
    · rfl
    · simp [h]

theorem matchSellLevelLoop_filled (clk : Nat → Int) (fuel : Nat) (st : LevelState)
    (h : st.order.is_filled = true) : matchSellLevelLoop clk fuel st = st := by
  cases fuel with
  | zero => rfl
  | succ n =>
    unfold matchSellLevelLoop
    split
    · rfl
    · simp [h]

theorem matchBuyLevelLoop_eq (clk : Nat → Int) (fuel : Nat) (q : List Order) :
    ∀ (inc : Order) (tid : Int) (trades : List Trade), q.length ≤ fuel →
      matchBuyLevelLoop clk fuel ⟨inc, q, tid, trades⟩ = levelRun .BUY clk inc tid trades q := by
  induction fuel generalizing q with
  | zero =>
    intro inc tid trades h
    have : q = [] := List.length_eq_zero.mp (Nat.le_zero.mp h)
    subst this
    rfl
  | succ n ih =>
    intro inc tid trades h
    cases q with
    | nil => rfl
    | cons r rest =>
      simp only [matchBuyLevelLoop, levelRun, fill, mkTrade]
      have hlen : rest.length ≤ n := by simpa using h
      split_ifs with hf hr
      · rfl
      · exact ih rest _ _ _ hlen
      · rw [matchBuyLevelLoop_filled]
        exact fill_min_filled inc r (by simpa [fill] using hr)

theorem matchSellLevelLoop_eq (clk : Nat → Int) (fuel : Nat) (q : List Order) :
    ∀ (inc : Order) (tid : Int) (trades : List Trade), q.length ≤ fuel →
      matchSellLevelLoop clk fuel ⟨inc, q, tid, trades⟩ = levelRun .SELL clk inc tid trades q := by
  induction fuel generalizing q with
  | zero =>
    intro inc tid trades h
    have : q = [] := List.length_eq_zero.mp (Nat.le_zero.mp h)
    subst this
    rfl
  | succ n ih =>
    intro inc tid trades h
    cases q with
    | nil => rfl
    | cons r rest =>
      simp only [matchSellLevelLoop, levelRun, fill, mkTrade]
      have hlen : rest.length ≤ n := by simpa using h
      split_ifs with hf hr
      · rfl
      · exact ih rest _ _ _ hlen
      · rw [matchSellLevelLoop_filled]
        exact fill_min_filled inc r (by simpa [fill] using hr)

/-- The fuel given to the inner loop of `matchBuyOrder` is never exhausted before
the loop condition fails: any larger amount gives the same result. -/
theorem matchBuyLevel_loop (clk : Nat → Int) (st : LevelState) (extra : Nat) :
    matchBuyLevelLoop clk (st.queue.length + extra) st = matchBuyLevel clk st := by
  unfold matchBuyLevel
  rw [matchBuyLevelLoop_eq clk _ st.queue st.order st.tradeId st.trades (Nat.le_add_right _ _),
    matchBuyLevelLoop_eq clk _ st.queue st.order st.tradeId st.trades (Nat.le_refl _)]

/-- The fuel given to the inner loop of `matchSellOrder` is never exhausted before
the loop condition fails. -/
theorem matchSellLevel_loop (clk : Nat → Int) (st : LevelState) (extra : Nat) :
    matchSellLevelLoop clk (st.queue.length + extra) st = matchSellLevel clk st := by
  unfold matchSellLevel
  rw [matchSellLevelLoop_eq clk _ st.queue st.order st.tradeId st.trades (Nat.le_add_right _ _),
    matchSellLevelLoop_eq clk _ st.queue st.order st.tradeId st.trades (Nat.le_refl _)]

theorem matchBuyLevels_eq (clk : Nat → Int) (book : PriceMap) :
    ∀ (inc : Order) (tid : Int) (trades : List Trade),
      matchBuyLevels clk inc tid trades book = levelsRun .BUY clk inc tid trades book := by
  induction book with
  | nil => intros; rfl
  | cons l rest ih =>
    intro inc tid trades
    obtain ⟨price, q⟩ := l
    simp only [matchBuyLevels, levelsRun, priceStops, matchBuyLevel,
      matchBuyLevelLoop_eq clk _ q inc tid trades (Nat.le_refl _), ih, decide_eq_true_eq]

theorem matchSellLevels_eq (clk : Nat → Int) (book : PriceMap) :
    ∀ (inc : Order) (tid : Int) (trades : List Trade),
      matchSellLevels clk inc tid trades book = levelsRun .SELL clk inc tid trades book := by
  induction book with
  | nil => intros; rfl
  | cons l rest ih =>
    intro inc tid trades
    obtain ⟨price, q⟩ := l
    simp only [matchSellLevels, levelsRun, priceStops, matchSellLevel,
      matchSellLevelLoop_eq clk _ q inc tid trades (Nat.le_refl _), ih, decide_eq_true_eq]

theorem matchBuyOrder_eq (clk : Nat → Int) (inc : Order) (book : PriceMap) (tid : Int) :
    matchBuyOrder clk inc book tid = matchOrder .BUY clk inc book tid :=
  matchBuyLevels_eq clk book inc tid []

theorem matchSellOrder_eq (clk : Nat → Int) (inc : Order) (book : PriceMap) (tid : Int) :
    matchSellOrder clk inc book tid = matchOrder .SELL clk inc book tid :=
  matchSellLevels_eq clk book inc tid []

/-! ### Container lemmas -/

theorem OrderIndex.find_assign_self (m : OrderIndex) (id : Int) (o : Order) :
    (m.assign id o).find id = some o := by
  induction m with
  | nil => simp [OrderIndex.assign, OrderIndex.find]
  | cons e rest ih =>
    obtain ⟨k, v⟩ := e
    by_cases h : k = id
    · simp [OrderIndex.assign, OrderIndex.find, h]
    · simp [OrderIndex.assign, OrderIndex.find, h, ih]

theorem OrderIndex.find_assign_ne (m : OrderIndex) (id j : Int) (o : Order) (h : j ≠ id) :
    (m.assign id o).find j = m.find j := by
  induction m with
  | nil => simp [OrderIndex.assign, OrderIndex.find, Ne.symm h]
  | cons e rest ih =>
    obtain ⟨k, v⟩ := e
    by_cases hk : k = id
    · subst hk
      simp [OrderIndex.assign, OrderIndex.find, Ne.symm h]
    · by_cases hj : k = j
      · subst hj
        simp [OrderIndex.assign, OrderIndex.find, hk]
      · simp [OrderIndex.assign, OrderIndex.find, hk, hj, ih]

theorem OrderIndex.assign_assign (m : OrderIndex) (id : Int) (o o1 : Order) :
    (m.assign id o).assign id o1 = m.assign id o1 := by
  induction m with
  | nil => simp [OrderIndex.assign]
  | cons e rest ih =>
    obtain ⟨k, v⟩ := e
    by_cases hk : k = id
    · simp [OrderIndex.assign, hk]
    · simp [OrderIndex.assign, hk, ih]

theorem OrderIndex.find_erase_self (m : OrderIndex) (id : Int) :
    (m.erase id).find id = none := by
  induction m with
  | nil => rfl
  | cons e rest ih =>
    obtain ⟨k, v⟩ := e
    by_cases hk : k = id
    · simpa [OrderIndex.erase, List.filter, hk] using ih
    · have : (OrderIndex.erase ((k, v) :: rest) id) = (k, v) :: OrderIndex.erase rest id := by
        simp [OrderIndex.erase, List.filter_cons, hk]
      rw [this]
      simp [OrderIndex.find, hk, ih]

theorem OrderIndex.find_erase_ne (m : OrderIndex) (id j : Int) (h : j ≠ id) :
    (m.erase id).find j = m.find j := by
  induction m with
  | nil => rfl
  | cons e rest ih =>
    obtain ⟨k, v⟩ := e
    by_cases hk : k = id
    · have : (OrderIndex.erase ((k, v) :: rest) id) = OrderIndex.erase rest id := by
        simp [OrderIndex.erase, List.filter_cons, hk]
      rw [this, ih]
      have hkj : ¬ k = j := by rw [hk]; exact Ne.symm h
      simp [OrderIndex.find, hkj]
    · have : (OrderIndex.erase ((k, v) :: rest) id) = (k, v) :: OrderIndex.erase rest id := by
        simp [OrderIndex.erase, List.filter_cons, hk]
      rw [this]
      by_cases hj : k = j
      · simp [OrderIndex.find, hj]
      · simp [OrderIndex.find, hj, ih]

theorem PriceMap.setAt_keys (m : PriceMap) (price : Int) (q : List Order) :
    (m.setAt price q).map Prod.fst = m.map Prod.fst := by
  induction m with
  | nil => rfl
  | cons l rest ih =>
    obtain ⟨k, v⟩ := l
    by_cases hk : k = price
    · simp [PriceMap.setAt, hk]
    · simp [PriceMap.setAt, hk, ih]

theorem PriceMap.erase_keys_sublist (m : PriceMap) (price : Int) :
    ((m.erase price).map Prod.fst).Sublist (m.map Prod.fst) :=
  (List.filter_sublist m).map Prod.fst

theorem PriceMap.pushAt_keys_mem (before : Int → Int → Bool) (m : PriceMap) (price : Int)
    (o : Order) (k : Int) :
    k ∈ (m.pushAt before price o).map Prod.fst ↔ k = price ∨ k ∈ m.map Prod.fst := by
  induction m with
  | nil => simp [PriceMap.pushAt]
  | cons l rest ih =>
    obtain ⟨k1, q1⟩ := l
    by_cases h1 : k1 = price
    · subst h1
      simp [PriceMap.pushAt]
    · by_cases h2 : before price k1 = true
      · simp [PriceMap.pushAt, h1, h2]
      · simp only [PriceMap.pushAt, h1, h2, ↓reduceIte, List.map_cons, List.mem_cons, ih,
          Bool.false_eq_true]
        tauto

theorem PriceMap.pushAt_sorted_sell (m : PriceMap) (price : Int) (o : Order)
    (h : (m.map Prod.fst).Pairwise (· < ·)) :
    ((m.pushAt sellBefore price o).map Prod.fst).Pairwise (· < ·) := by
  induction m with
  | nil => simp [PriceMap.pushAt]
  | cons l rest ih =>
    obtain ⟨k1, q1⟩ := l
    simp only [List.map_cons, List.pairwise_cons] at h
    by_cases h1 : k1 = price
    · simpa [PriceMap.pushAt, h1] using h
    · by_cases h2 : price < k1
      · simp only [PriceMap.pushAt, h1, sellBefore, h2, decide_True, ↓reduceIte, List.map_cons,
          List.pairwise_cons, List.mem_cons, forall_eq_or_imp, true_and]
        exact ⟨fun a ha => lt_trans h2 (h.1 a ha), h⟩
      · simp only [PriceMap.pushAt, h1, sellBefore, h2, decide_False, ↓reduceIte, List.map_cons,
          List.pairwise_cons, Bool.false_eq_true]
        refine ⟨fun a ha => ?_, ih h.2⟩
        rcases (PriceMap.pushAt_keys_mem _ rest price o a).mp ha with ha | ha
        · omega
        · exact h.1 a ha

theorem PriceMap.pushAt_sorted_buy (m : PriceMap) (price : Int) (o : Order)
    (h : (m.map Prod.fst).Pairwise (· > ·)) :
    ((m.pushAt buyBefore price o).map Prod.fst).Pairwise (· > ·) := by
  induction m with
  | nil => simp [PriceMap.pushAt]
  | cons l rest ih =>
    obtain ⟨k1, q1⟩ := l
    simp only [List.map_cons, List.pairwise_cons] at h
    by_cases h1 : k1 = price
    · simpa [PriceMap.pushAt, h1] using h
    · by_cases h2 : price > k1
      · simp only [PriceMap.pushAt, h1, buyBefore, h2, decide_True, ↓reduceIte, List.map_cons,
          List.pairwise_cons, List.mem_cons, forall_eq_or_imp, true_and]
        exact ⟨fun a ha => lt_trans (h.1 a ha) h2, h⟩
      · simp only [PriceMap.pushAt, h1, buyBefore, h2, decide_False, ↓reduceIte, List.map_cons,
          List.pairwise_cons, Bool.false_eq_true]
        refine ⟨fun a ha => ?_, ih h.2⟩
        rcases (PriceMap.pushAt_keys_mem _ rest price o a).mp ha with ha | ha
        · omega
        · exact h.1 a ha

theorem cancelInSide_keys_sublist (m : PriceMap) (price id : Int) :
    ((cancelInSide m price id).1.map Prod.fst).Sublist (m.map Prod.fst) := by
  simp only [cancelInSide]
  split_ifs with h1 h2
  · have := PriceMap.erase_keys_sublist (m.setAt price (removeFromQueue id (m.get price)).1) price
    rwa [PriceMap.setAt_keys] at this
  · simp [PriceMap.setAt_keys]
  · exact List.Sublist.refl _

/-! ### Basic facts about the matcher -/

/-- The fields of an order that matching never writes. -/
def Order.static (o : Order) : Order := { o with filled_quantity := 0 }

@[simp] theorem static_fill (o : Order) (qty : Int) : (fill o qty).static = o.static := rfl

theorem static_price {a b : Order} (h : a.static = b.static) : a.price = b.price :=
  show a.static.price = b.static.price from congrArg Order.price h

theorem static_id {a b : Order} (h : a.static = b.static) : a.id = b.id :=
  show a.static.id = b.static.id from congrArg Order.id h

theorem static_type {a b : Order} (h : a.static = b.static) : a.type = b.type :=
  show a.static.type = b.static.type from congrArg Order.type h

theorem static_quantity {a b : Order} (h : a.static = b.static) : a.quantity = b.quantity :=
  show a.static.quantity = b.static.quantity from congrArg Order.quantity h

theorem levelRun_order_static (side : OrderType) (clk : Nat → Int) (q : List Order) :
    ∀ (inc : Order) (tid : Int) (trades : List Trade),
      (levelRun side clk inc tid trades q).order.static = inc.static := by
  induction q with
  | nil => intros; rfl
  | cons r rest ih =>
    intro inc tid trades
    simp only [levelRun]
    split_ifs
    · rfl
    · rw [ih]; rfl
    · rfl

theorem levelRun_queue_filled (side : OrderType) (clk : Nat → Int) (q : List Order) :
    ∀ (inc : Order) (tid : Int) (trades : List Trade),
      (levelRun side clk inc tid trades q).queue ≠ [] →
      (levelRun side clk inc tid trades q).order.is_filled = true := by
  induction q with
  | nil => intro inc tid trades h; simp [levelRun] at h
  | cons r rest ih =>
    intro inc tid trades
    simp only [levelRun]
    split_ifs with hf hr
    · intro _; exact hf
    · exact ih _ _ _
    · intro _; exact fill_min_filled inc r (by simpa using hr)

theorem levelsRun_of_filled (side : OrderType) (clk : Nat → Int) (inc : Order) (tid : Int)
    (trades : List Trade) (book : PriceMap) (h : inc.is_filled = true) :
    levelsRun side clk inc tid trades book = ⟨inc, book, tid, trades⟩ := by
  cases book with
  | nil => rfl
  | cons l rest =>
    obtain ⟨p, q⟩ := l
    simp [levelsRun, h]

theorem levelsRun_order_static (side : OrderType) (clk : Nat → Int) (book : PriceMap) :
    ∀ (inc : Order) (tid : Int) (trades : List Trade),
      (levelsRun side clk inc tid trades book).order.static = inc.static := by
  induction book with
  | nil => intros; rfl
  | cons l rest ih =>
    intro inc tid trades
    obtain ⟨p, q⟩ := l
    simp only [levelsRun]
    split_ifs
    · rfl
    · rfl
    · rw [ih, levelRun_order_static]
    · simp only [ih, levelRun_order_static]

theorem levelsRun_keys_sublist (side : OrderType) (clk : Nat → Int) (book : PriceMap) :
    ∀ (inc : Order) (tid : Int) (trades : List Trade),
      ((levelsRun side clk inc tid trades book).book.map Prod.fst).Sublist
        (book.map Prod.fst) := by
  induction book with
  | nil => intros; exact List.Sublist.refl _
  | cons l rest ih =>
    intro inc tid trades
    obtain ⟨p, q⟩ := l
    simp only [levelsRun]
    split_ifs
    · exact List.Sublist.refl _
    · exact List.Sublist.refl _
    · exact (ih _ _ _).cons _
    · simpa using ih _ _ _

/-- The iteration order of the book that faces an incoming order of type `side`:
ascending prices for the asks a BUY walks, descending for the bids a SELL walks. -/
def oppBefore (side : OrderType) (a b : Int) : Prop :=
  match side with
  | .BUY => a < b
  | .SELL => a > b

theorem priceStops_iff (side : OrderType) (a b : Int) :
    priceStops side a b = true ↔ oppBefore side a b := by
  cases side <;> simp [priceStops, oppBefore]

theorem oppBefore_trans (side : OrderType) {a b c : Int} (h1 : oppBefore side a b)
    (h2 : oppBefore side b c) : oppBefore side a c := by
  cases side <;> simp only [oppBefore] at * <;> omega

/-- When the walk ends with the incoming order unfilled, every level left on the
opposite side is beyond the limit price. -/
theorem levelsRun_stop (side : OrderType) (clk : Nat → Int) (book : PriceMap) :
    ∀ (inc : Order) (tid : Int) (trades : List Trade),
      (book.map Prod.fst).Pairwise (oppBefore side) →
      (levelsRun side clk inc tid trades book).order.is_filled = false →
      ∀ l ∈ (levelsRun side clk inc tid trades book).book, oppBefore side inc.price l.1 := by
  induction book with
  | nil => intro inc tid trades _ _ l hl; simp [levelsRun] at hl
  | cons l0 rest ih =>
    intro inc tid trades hs
    obtain ⟨p, q⟩ := l0
    simp only [List.map_cons, List.pairwise_cons] at hs
    simp only [levelsRun]
    split_ifs with hf hp hq
    · intro h; simp [hf] at h
    · intro _ l hl
      have hp1 : oppBefore side inc.price p := (priceStops_iff _ _ _).mp hp
      rcases List.mem_cons.mp hl with rfl | hl
      · exact hp1
      · exact oppBefore_trans side hp1 (hs.1 l.1 (List.mem_map_of_mem _ hl))
    · intro h l hl
      have := ih _ _ _ hs.2 h l hl
      rwa [static_price (levelRun_order_static side clk q inc tid trades)] at this
    · intro h
      have hq1 : (levelRun side clk inc tid trades q).queue ≠ [] := by
        simpa [List.isEmpty_iff] using hq
      have hfill := levelRun_queue_filled side clk q inc tid trades hq1
      rw [levelsRun_of_filled _ _ _ _ _ _ hfill] at h
      simp [hfill] at h

/-! ### `placeOrder` in terms of the generic matcher -/

/-- The side of the book an incoming order of type `side` is matched against. -/
def oppSide (s : OrderBook) : OrderType → PriceMap
  | .BUY => s.sellOrders
  | .SELL => s.buyOrders

/-- The side of the book an order of type `side` rests on. -/
def ownSide (s : OrderBook) : OrderType → PriceMap
  | .BUY => s.buyOrders
  | .SELL => s.sellOrders

/-- The engine after the matcher returned `m` for a new order of type `side`. -/
def afterMatch (s : OrderBook) (side : OrderType) (m : MatchState) : OrderBook :=
  match side with
  | .BUY =>
    ⟨s.nextOrderId + 1, m.tradeId, s.buyOrders, m.book, s.allOrders.assign s.nextOrderId m.order⟩
  | .SELL =>
    ⟨s.nextOrderId + 1, m.tradeId, m.book, s.sellOrders, s.allOrders.assign s.nextOrderId m.order⟩

/-- The engine after the residual `o` has been pushed on its own side. -/
def restOrder (s : OrderBook) (side : OrderType) (price : Int) (o : Order) : OrderBook :=
  match side with
  | .BUY => { s with buyOrders := s.buyOrders.pushAt buyBefore price o }
  | .SELL => { s with sellOrders := s.sellOrders.pushAt sellBefore price o }

/-- The order record built by `placeOrder`. -/
def newOrder (s : OrderBook) (side : OrderType) (price quantity now : Int) : Order :=
  ⟨s.nextOrderId, side, price, quantity, 0, now⟩

theorem placeOrder_invalid (s : OrderBook) (side : OrderType) (price quantity now : Int)
    (clk : Nat → Int) (h : price ≤ 0 ∨ quantity ≤ 0) :
    placeOrder s side price quantity now clk = ⟨s, [], some .invalid_argument⟩ := by
  simp [placeOrder, h]

theorem placeOrder_valid (s : OrderBook) (side : OrderType) (price quantity now : Int)
    (clk : Nat → Int) (h : ¬ (price ≤ 0 ∨ quantity ≤ 0)) :
    placeOrder s side price quantity now clk =
      (let m := matchOrder side clk (newOrder s side price quantity now) (oppSide s side)
          s.nextTradeId
       if processTrades (afterMatch s side m).allOrders m.trades then
         if m.order.is_filled then ⟨afterMatch s side m, m.trades, none⟩
         else ⟨restOrder (afterMatch s side m) side price m.order, m.trades, none⟩
       else ⟨afterMatch s side m, m.trades, some .out_of_range⟩) := by
  cases side <;>
    simp only [placeOrder, h, ↓reduceIte, OrderIndex.find_assign_self,
      OrderIndex.assign_assign, matchBuyOrder_eq, matchSellOrder_eq, afterMatch, restOrder,
      newOrder, oppSide] <;>
    split_ifs <;> simp_all

/-! ### Ordered, uncrossed books -/

/-- Both maps are in the iteration order of their comparator and every bid level
is strictly below every ask level. -/
structure BookOrdered (s : OrderBook) : Prop where
  sells : (s.sellOrders.map Prod.fst).Pairwise (· < ·)
  buys : (s.buyOrders.map Prod.fst).Pairwise (· > ·)
  nocross : ∀ b ∈ s.buyOrders.map Prod.fst, ∀ a ∈ s.sellOrders.map Prod.fst, b < a

theorem bookOrdered_fresh : BookOrdered fresh :=
  ⟨List.Pairwise.nil, List.Pairwise.nil, fun _ hb => by simp [fresh] at hb⟩

theorem bookOrdered_afterMatch (s : OrderBook) (side : OrderType) (clk : Nat → Int)
    (inc : Order) (tid : Int) (h : BookOrdered s) :
    BookOrdered (afterMatch s side (matchOrder side clk inc (oppSide s side) tid)) := by
  cases side
  · have hsub := levelsRun_keys_sublist .BUY clk s.sellOrders inc tid []
    exact ⟨h.sells.sublist hsub, h.buys, fun b hb a ha => h.nocross b hb a (hsub.subset ha)⟩
  · have hsub := levelsRun_keys_sublist .SELL clk s.buyOrders inc tid []
    exact ⟨h.sells, h.buys.sublist hsub, fun b hb a ha => h.nocross b (hsub.subset hb) a ha⟩

theorem bookOrdered_restOrder (s : OrderBook) (side : OrderType) (clk : Nat → Int)
    (inc : Order) (tid : Int) (h : BookOrdered s)
    (hu : (matchOrder side clk inc (oppSide s side) tid).order.is_filled = false) :
    BookOrdered (restOrder (afterMatch s side (matchOrder side clk inc (oppSide s side) tid))
      side inc.price (matchOrder side clk inc (oppSide s side) tid).order) := by
  have h1 := bookOrdered_afterMatch s side clk inc tid h
  cases side
  · have hstop := levelsRun_stop .BUY clk s.sellOrders inc tid [] h.sells hu
    refine ⟨h1.sells, PriceMap.pushAt_sorted_buy _ _ _ h1.buys, fun b hb a ha => ?_⟩
    rcases (PriceMap.pushAt_keys_mem _ _ _ _ _).mp hb with hb | hb
    · obtain ⟨l, hl, rfl⟩ := List.mem_map.mp ha
      rw [hb]
      exact hstop l hl
    · exact h1.nocross b hb a ha
  · have hstop := levelsRun_stop .SELL clk s.buyOrders inc tid [] h.buys hu
    refine ⟨PriceMap.pushAt_sorted_sell _ _ _ h1.sells, h1.buys, fun b hb a ha => ?_⟩
    rcases (PriceMap.pushAt_keys_mem _ _ _ _ _).mp ha with ha | ha
    · obtain ⟨l, hl, rfl⟩ := List.mem_map.mp hb
      rw [ha]
      exact hstop l hl
    · exact h1.nocross b hb a ha

theorem bookOrdered_placeOrder (s : OrderBook) (side : OrderType) (price quantity now : Int)
    (clk : Nat → Int) (h : BookOrdered s) :
    BookOrdered (placeOrder s side price quantity now clk).state := by
  by_cases hv : price ≤ 0 ∨ quantity ≤ 0
  · rw [placeOrder_invalid _ _ _ _ _ _ hv]; exact h
  · rw [placeOrder_valid _ _ _ _ _ _ hv]
    simp only []
    split_ifs with h1 h2
    · exact bookOrdered_afterMatch s side clk _ _ h
    · exact bookOrdered_restOrder s side clk (newOrder s side price quantity now) _ h
        (by simpa using h2)
    · exact bookOrdered_afterMatch s side clk _ _ h

theorem bookOrdered_cancelOrder (s : OrderBook) (id : Int) (h : BookOrdered s) :
    BookOrdered (cancelOrder s id).state := by
  unfold cancelOrder
  split
  · exact h
  · rename_i o _
    split_ifs with hf
    · exact h
    · cases ht : o.type
      · have hsub := cancelInSide_keys_sublist s.buyOrders o.price id
        have hb : BookOrdered { s with buyOrders := (cancelInSide s.buyOrders o.price id).1 } :=
          ⟨h.sells, h.buys.sublist hsub, fun b hb a ha => h.nocross b (hsub.subset hb) a ha⟩
        simp only []
        split_ifs
        · exact ⟨hb.sells, hb.buys, hb.nocross⟩
        · exact hb
      · have hsub := cancelInSide_keys_sublist s.sellOrders o.price id
        have hb : BookOrdered { s with sellOrders := (cancelInSide s.sellOrders o.price id).1 } :=
          ⟨h.sells.sublist hsub, h.buys, fun b hb a ha => h.nocross b hb a (hsub.subset ha)⟩
        simp only []
        split_ifs
        · exact ⟨hb.sells, hb.buys, hb.nocross⟩
        · exact hb

theorem bookOrdered_step (s : OrderBook) (c : Command) (h : BookOrdered s) :
    BookOrdered (step s c).state := by
  cases c with
  | place side price quantity now clk => exact bookOrdered_placeOrder s side _ _ _ _ h
  | cancel id => exact bookOrdered_cancelOrder s id h

theorem bookOrdered_runFrom (cs : List Command) :
    ∀ (s : OrderBook) (log : List Trade), BookOrdered s → BookOrdered (runFrom s log cs).1 := by
  induction cs with
  | nil => intro s log h; exact h
  | cons c cs ih => intro s log h; exact ih _ _ (bookOrdered_step s c h)

/-- Claim C1 (no cross). In the state reached from a fresh engine by any sequence of
`placeOrder` and `cancelOrder` calls, failing calls included, every price level of
`buyOrders` is strictly below every price level of `sellOrders`; in particular the
highest bid is strictly below the lowest ask when both sides are non-empty. -/
theorem no_cross (cs : List Command) (bid ask : Level)
    (hb : bid ∈ (run cs).1.buyOrders) (ha : ask ∈ (run cs).1.sellOrders) :
    bid.1 < ask.1 :=
  (bookOrdered_runFrom cs fresh [] bookOrdered_fresh).nocross bid.1
    (List.mem_map_of_mem _ hb) ask.1 (List.mem_map_of_mem _ ha)

/-- Scenario S1: BID(100, 10) then ASK(105, 10) rest on both sides, uncrossed. -/
theorem no_cross_witness :
    (100, [(⟨1, .BUY, 100, 10, 0, 0⟩ : Order)]) ∈
        (run [.place .BUY 100 10 0 clock0, .place .SELL 105 10 0 clock0]).1.buyOrders ∧
      (105, [(⟨2, .SELL, 105, 10, 0, 0⟩ : Order)]) ∈
        (run [.place .BUY 100 10 0 clock0, .place .SELL 105 10 0 clock0]).1.sellOrders ∧
      (100 : Int) < 105 :=
  ⟨by decide, by decide,
    no_cross [.place .BUY 100 10 0 clock0, .place .SELL 105 10 0 clock0]
      (100, [⟨1, .BUY, 100, 10, 0, 0⟩]) (105, [⟨2, .SELL, 105, 10, 0, 0⟩])
      (by decide) (by decide)⟩

/-! ### Where the trades of one call come from -/

/-- The id a trade of an incoming order of type `side` records for the resting order. -/
def restingId (side : OrderType) (t : Trade) : Int :=
  match side with
  | .BUY => t.sellOrderId
  | .SELL => t.buyOrderId

/-- The id a trade of an incoming order of type `side` records for the incoming order. -/
def incomingId (side : OrderType) (t : Trade) : Int :=
  match side with
  | .BUY => t.buyOrderId
  | .SELL => t.sellOrderId

@[simp] theorem restingId_mkTrade (side : OrderType) (tid : Int) (inc r : Order) (qty ts : Int) :
    restingId side (mkTrade side tid inc r qty ts) = r.id := by
  cases side <;> rfl

@[simp] theorem incomingId_mkTrade (side : OrderType) (tid : Int) (inc r : Order)
    (qty ts : Int) : incomingId side (mkTrade side tid inc r qty ts) = inc.id := by
  cases side <;> rfl

@[simp] theorem price_mkTrade (side : OrderType) (tid : Int) (inc r : Order) (qty ts : Int) :
    (mkTrade side tid inc r qty ts).price = r.price := by
  cases side <;> rfl

@[simp] theorem quantity_mkTrade (side : OrderType) (tid : Int) (inc r : Order) (qty ts : Int) :
    (mkTrade side tid inc r qty ts).quantity = qty := by
  cases side <;> rfl

@[simp] theorem tradeId_mkTrade (side : OrderType) (tid : Int) (inc r : Order) (qty ts : Int) :
    (mkTrade side tid inc r qty ts).tradeId = tid := by
  cases side <;> rfl

theorem levelRun_trade_origin (side : OrderType) (clk : Nat → Int) (q : List Order) :
    ∀ (inc : Order) (tid : Int) (trades : List Trade),
      ∀ t ∈ (levelRun side clk inc tid trades q).trades, t ∈ trades ∨
        ∃ o ∈ q, restingId side t = o.id ∧ t.price = o.price ∧ incomingId side t = inc.id := by
  induction q with
  | nil => intro inc tid trades t ht; exact Or.inl ht
  | cons r rest ih =>
    intro inc tid trades t
    simp only [levelRun]
    split_ifs with hf hr
    · intro ht; exact Or.inl ht
    · intro ht
      rcases ih _ _ _ t ht with h | ⟨o, ho, h1, h2, h3⟩
      · rcases List.mem_append.mp h with h | h
        · exact Or.inl h
        · rw [List.mem_singleton] at h
          subst h
          exact Or.inr ⟨r, List.mem_cons_self _ _, by simp⟩
      · exact Or.inr ⟨o, List.mem_cons_of_mem _ ho, h1, h2, h3⟩
    · intro ht
      rcases List.mem_append.mp ht with h | h
      · exact Or.inl h
      · rw [List.mem_singleton] at h
        subst h
        exact Or.inr ⟨r, List.mem_cons_self _ _, by simp⟩

theorem levelsRun_trade_origin (side : OrderType) (clk : Nat → Int) (book : PriceMap) :
    ∀ (inc : Order) (tid : Int) (trades : List Trade),
      ∀ t ∈ (levelsRun side clk inc tid trades book).trades, t ∈ trades ∨
        ∃ l ∈ book, priceStops side inc.price l.1 = false ∧ ∃ o ∈ l.2,
          restingId side t = o.id ∧ t.price = o.price ∧ incomingId side t = inc.id := by
  induction book with
  | nil => intro inc tid trades t ht; exact Or.inl ht
  | cons l0 rest ih =>
    intro inc tid trades t
    obtain ⟨p, q⟩ := l0
    have hstat := levelRun_order_static side clk q inc tid trades
    have key : t ∈ (levelsRun side clk (levelRun side clk inc tid trades q).order
          (levelRun side clk inc tid trades q).tradeId
          (levelRun side clk inc tid trades q).trades rest).trades →
        priceStops side inc.price p = false → t ∈ trades ∨
        ∃ l ∈ (p, q) :: rest, priceStops side inc.price l.1 = false ∧ ∃ o ∈ l.2,
          restingId side t = o.id ∧ t.price = o.price ∧ incomingId side t = inc.id := by
      intro ht hp
      rcases ih _ _ _ t ht with h | ⟨l, hl, h0, o, ho, h1, h2, h3⟩
      · rcases levelRun_trade_origin side clk q inc tid trades t h with h | ⟨o, ho, h1⟩
        · exact Or.inl h
        · exact Or.inr ⟨(p, q), List.mem_cons_self _ _, hp, o, ho, h1⟩
      · rw [static_price hstat] at h0
        rw [static_id hstat] at h3
        exact Or.inr ⟨l, List.mem_cons_of_mem _ hl, h0, o, ho, h1, h2, h3⟩
    simp only [levelsRun]
    split_ifs with hf hp hq
    · intro ht; exact Or.inl ht
    · intro ht; exact Or.inl ht
    · intro ht; exact key ht (by simpa using hp)
    · intro ht; exact key ht (by simpa using hp)

/-- Claim C2 (trade price rule). For every book whose resting orders sit in the level
keyed by their own price, every trade returned by `matchBuyOrder` names the
incoming order as buyer and a resting sell order whose price is the trade price,
and that price is at most the limit of the incoming buy; symmetrically every trade
returned by `matchSellOrder` carries the price of the resting buy order it names,
which is at least the limit of the incoming sell. -/
theorem trade_price_rule (clk : Nat → Int) (inc : Order) (book : PriceMap) (tid : Int)
    (hkey : ∀ l ∈ book, ∀ o ∈ l.2, o.price = l.1) :
    (∀ t ∈ (matchBuyOrder clk inc book tid).trades,
      (∃ l ∈ book, ∃ o ∈ l.2, o.id = t.sellOrderId ∧ t.price = o.price) ∧
        t.buyOrderId = inc.id ∧ t.price ≤ inc.price) ∧
    (∀ t ∈ (matchSellOrder clk inc book tid).trades,
      (∃ l ∈ book, ∃ o ∈ l.2, o.id = t.buyOrderId ∧ t.price = o.price) ∧
        t.sellOrderId = inc.id ∧ inc.price ≤ t.price) := by
  constructor
  · intro t ht
    rw [matchBuyOrder_eq] at ht
    rcases levelsRun_trade_origin .BUY clk book inc tid [] t ht with h | ⟨l, hl, h0, o, ho, h1, h2, h3⟩
    · simp at h
    · refine ⟨⟨l, hl, o, ho, h1.symm, h2⟩, h3, ?_⟩
      rw [h2, hkey l hl o ho]
      simpa [priceStops] using h0
  · intro t ht
    rw [matchSellOrder_eq] at ht
    rcases levelsRun_trade_origin .SELL clk book inc tid [] t ht with h | ⟨l, hl, h0, o, ho, h1, h2, h3⟩
    · simp at h
    · refine ⟨⟨l, hl, o, ho, h1.symm, h2⟩, h3, ?_⟩
      rw [h2, hkey l hl o ho]
      simpa [priceStops] using h0

/-- Scenario S4: ASK(95, 4) rests, BID(100, 4) arrives; the single trade is struck
at 95, the price of the resting order. -/
theorem trade_price_rule_witness :
    (matchBuyOrder clock0 ⟨2, .BUY, 100, 4, 0, 0⟩ [(95, [⟨1, .SELL, 95, 4, 0, 0⟩])] 1).trades =
        [⟨1, 2, 1, 95, 4, 0⟩] ∧
      ((∃ l ∈ [((95 : Int), [(⟨1, .SELL, 95, 4, 0, 0⟩ : Order)])], ∃ o ∈ l.2,
          o.id = (1 : Int) ∧ (95 : Int) = o.price) ∧ (2 : Int) = 2 ∧ (95 : Int) ≤ 100) :=
  ⟨by decide,
    (trade_price_rule clock0 ⟨2, .BUY, 100, 4, 0, 0⟩ [(95, [⟨1, .SELL, 95, 4, 0, 0⟩])] 1
      (by decide)).1 ⟨1, 2, 1, 95, 4, 0⟩ (by decide)⟩

/-! ### The order in which resting orders are traded against -/

/-- The resting orders of one side in priority order: levels in iteration order of
the map, and the queue of each level from its front. -/
def restingOrders : PriceMap → List Order
  | [] => []
  | (_, q) :: rest => q ++ restingOrders rest

/-- The trade `t` of an incoming order of type `side` is struck against `o`. -/
def Names (side : OrderType) (t : Trade) (o : Order) : Prop :=
  restingId side t = o.id ∧ t.price = o.price

/-- The trade `t` is struck against `o` for all that remains of `o`. -/
def FillsUp (side : OrderType) (t : Trade) (o : Order) : Prop :=
  Names side t o ∧ t.quantity = o.remaining

/-- The relation `Consumes side ts os`: the trades `ts` are struck, one each and in this order,
against the first orders of `os`, and each trade that is followed by another one
takes all that remains of its order. -/
inductive Consumes (side : OrderType) : List Trade → List Order → Prop where
  | stop (os : List Order) : Consumes side [] os
  | last (t : Trade) (o : Order) (os : List Order) :
      Names side t o → Consumes side [t] (o :: os)
  | full (t : Trade) (o : Order) (ts : List Trade) (os : List Order) :
      FillsUp side t o → Consumes side ts os → Consumes side (t :: ts) (o :: os)

theorem consumes_append_full (side : OrderType) {ts1 : List Trade} {q : List Order}
    (h1 : List.Forall₂ (FillsUp side) ts1 q) {ts2 : List Trade} {os : List Order}
    (h2 : Consumes side ts2 os) : Consumes side (ts1 ++ ts2) (q ++ os) := by
  induction h1 with
  | nil => simpa using h2
  | cons hto _ ih => exact Consumes.full _ _ _ _ hto ih

theorem consumes_extend (side : OrderType) {ts : List Trade} {q : List Order}
    (h : Consumes side ts q) (os : List Order) : Consumes side ts (q ++ os) := by
  induction h with
  | stop q => exact Consumes.stop _
  | last t o q hn => exact Consumes.last t o _ hn
  | full t o ts q hf _ ih => exact Consumes.full t o ts _ hf ih

theorem consumes_of_full (side : OrderType) {ts : List Trade} {q : List Order}
    (h : List.Forall₂ (FillsUp side) ts q) : Consumes side ts q := by
  have hnil : Consumes side [] [] := Consumes.stop []
  have := consumes_append_full side h hnil
  simpa using this

theorem consumes_ids (side : OrderType) {ts : List Trade} {os : List Order}
    (h : Consumes side ts os) : ts.map (restingId side) <+: os.map Order.id := by
  induction h with
  | stop os => exact List.nil_prefix
  | last t o os hn =>
    simp only [List.map_cons, List.map_nil, hn.1]
    exact (List.prefix_cons_inj _).mpr List.nil_prefix
  | full t o ts os hf _ ih =>
    simp only [List.map_cons, hf.1.1]
    exact (List.prefix_cons_inj _).mpr ih

theorem consumes_earlier_full (side : OrderType) {ts : List Trade} {os : List Order}
    (h : Consumes side ts os) :
    ∀ i j : Nat, i < j → j < ts.length →
      ∃ t o, ts[i]? = some t ∧ os[i]? = some o ∧ FillsUp side t o := by
  induction h with
  | stop os => intro i j _ hj; simp at hj
  | last t o os hn => intro i j hij hj; simp at hj; omega
  | full t o ts os hf _ ih =>
    intro i j hij hj
    cases i with
    | zero => exact ⟨t, o, by simp, by simp, hf⟩
    | succ i =>
      cases j with
      | zero => omega
      | succ j =>
        simp only [List.length_cons, Nat.add_lt_add_iff_right] at hj
        simpa using ih i j (by omega) hj

theorem levelRun_consumes (side : OrderType) (clk : Nat → Int) (q : List Order) :
    ∀ (inc : Order) (tid : Int) (trades : List Trade),
      ∃ new, (levelRun side clk inc tid trades q).trades = trades ++ new ∧
        Consumes side new q ∧
        ((levelRun side clk inc tid trades q).queue = [] →
          List.Forall₂ (FillsUp side) new q) := by
  induction q with
  | nil => intro inc tid trades; exact ⟨[], by simp [levelRun], Consumes.stop _, fun _ => .nil⟩
  | cons r rest ih =>
    intro inc tid trades
    simp only [levelRun]
    split_ifs with hf hr
    · exact ⟨[], by simp, Consumes.stop _, fun h => by simp at h⟩
    · obtain ⟨new, h1, h2, h3⟩ := ih (fill inc (min inc.remaining r.remaining)) (tid + 1)
        (trades ++ [mkTrade side tid inc r (min inc.remaining r.remaining) (clk trades.length)])
      have hfull : FillsUp side
          (mkTrade side tid inc r (min inc.remaining r.remaining) (clk trades.length)) r := by
        refine ⟨⟨by simp, by simp⟩, ?_⟩
        simp only [Order.is_filled, fill, Order.remaining, beq_iff_eq] at hr
        simp only [quantity_mkTrade, Order.remaining]
        omega
      exact ⟨_ :: new, by rw [h1]; simp, Consumes.full _ _ _ _ hfull h2,
        fun h => .cons hfull (h3 h)⟩
    · exact ⟨[_], rfl, Consumes.last _ _ _ ⟨by simp, by simp⟩, fun h => by simp at h⟩

theorem levelsRun_consumes (side : OrderType) (clk : Nat → Int) (book : PriceMap) :
    ∀ (inc : Order) (tid : Int) (trades : List Trade),
      ∃ new, (levelsRun side clk inc tid trades book).trades = trades ++ new ∧
        Consumes side new (restingOrders book) := by
  induction book with
  | nil => intro inc tid trades; exact ⟨[], by simp [levelsRun], Consumes.stop _⟩
  | cons l0 rest ih =>
    intro inc tid trades
    obtain ⟨p, q⟩ := l0
    obtain ⟨new1, h1, h2, h3⟩ := levelRun_consumes side clk q inc tid trades
    simp only [levelsRun, restingOrders]
    split_ifs with hf hp hq
    · exact ⟨[], by simp, Consumes.stop _⟩
    · exact ⟨[], by simp, Consumes.stop _⟩
    · obtain ⟨new2, h4, h5⟩ := ih (levelRun side clk inc tid trades q).order
        (levelRun side clk inc tid trades q).tradeId (levelRun side clk inc tid trades q).trades
      refine ⟨new1 ++ new2, by rw [h4, h1, List.append_assoc], ?_⟩
      exact consumes_append_full side (h3 (by simpa [List.isEmpty_iff] using hq)) h5
    · have hq1 : (levelRun side clk inc tid trades q).queue ≠ [] := by
        simpa [List.isEmpty_iff] using hq
      rw [levelsRun_of_filled _ _ _ _ _ _ (levelRun_queue_filled side clk q inc tid trades hq1)]
      exact ⟨new1, h1, consumes_extend side h2 _⟩

theorem matchOrder_consumes (side : OrderType) (clk : Nat → Int) (inc : Order)
    (book : PriceMap) (tid : Int) :
    Consumes side (matchOrder side clk inc book tid).trades (restingOrders book) := by
  obtain ⟨new, h1, h2⟩ := levelsRun_consumes side clk book inc tid []
  unfold matchOrder
  rw [h1]
  simpa using h2

/-- Claim C3 (price-time priority). For every book and every incoming order, the
resting-order ids named by the trades of `matchBuyOrder` (resp. `matchSellOrder`),
in output order, are a leading segment of the opposite side read in iteration order
of the map and from the front of each queue; and whenever a trade is followed by
another one, it was struck against the resting order at the same position for all
that remained of it, so an order is traded against only after every order ahead of
it has been completely filled. -/
theorem price_time_priority (clk : Nat → Int) (inc : Order) (book : PriceMap) (tid : Int) :
    ((matchBuyOrder clk inc book tid).trades.map Trade.sellOrderId <+:
        (restingOrders book).map Order.id) ∧
    ((matchSellOrder clk inc book tid).trades.map Trade.buyOrderId <+:
        (restingOrders book).map Order.id) ∧
    (∀ i j : Nat, i < j → j < (matchBuyOrder clk inc book tid).trades.length →
      ∃ t o, (matchBuyOrder clk inc book tid).trades[i]? = some t ∧
        (restingOrders book)[i]? = some o ∧ t.sellOrderId = o.id ∧
        t.quantity = o.remaining) ∧
    (∀ i j : Nat, i < j → j < (matchSellOrder clk inc book tid).trades.length →
      ∃ t o, (matchSellOrder clk inc book tid).trades[i]? = some t ∧
        (restingOrders book)[i]? = some o ∧ t.buyOrderId = o.id ∧
        t.quantity = o.remaining) := by
  rw [matchBuyOrder_eq, matchSellOrder_eq]
  refine ⟨consumes_ids .BUY (matchOrder_consumes .BUY clk inc book tid),
    consumes_ids .SELL (matchOrder_consumes .SELL clk inc book tid), ?_, ?_⟩
  · intro i j hij hj
    obtain ⟨t, o, h1, h2, h3⟩ :=
      consumes_earlier_full .BUY (matchOrder_consumes .BUY clk inc book tid) i j hij hj
    exact ⟨t, o, h1, h2, h3.1.1, h3.2⟩
  · intro i j hij hj
    obtain ⟨t, o, h1, h2, h3⟩ :=
      consumes_earlier_full .SELL (matchOrder_consumes .SELL clk inc book tid) i j hij hj
    exact ⟨t, o, h1, h2, h3.1.1, h3.2⟩

/-- Scenario S3: ASK(100, 5) and ASK(100, 7) rest in that order, BID(100, 9) arrives:
the trades are against id 1 for 5, then against id 2 for 4. -/
theorem price_time_priority_witness :
    (matchBuyOrder clock0 ⟨3, .BUY, 100, 9, 0, 0⟩
        [(100, [⟨1, .SELL, 100, 5, 0, 0⟩, ⟨2, .SELL, 100, 7, 0, 0⟩])] 1).trades =
      [⟨1, 3, 1, 100, 5, 0⟩, ⟨2, 3, 2, 100, 4, 0⟩] ∧
    ∃ t o, (matchBuyOrder clock0 ⟨3, .BUY, 100, 9, 0, 0⟩
        [(100, [⟨1, .SELL, 100, 5, 0, 0⟩, ⟨2, .SELL, 100, 7, 0, 0⟩])] 1).trades[0]? = some t ∧
      (restingOrders [(100, [⟨1, .SELL, 100, 5, 0, 0⟩, ⟨2, .SELL, 100, 7, 0, 0⟩])])[0]? = some o ∧
      t.sellOrderId = o.id ∧ t.quantity = o.remaining :=
  ⟨by decide,
    (price_time_priority clock0 ⟨3, .BUY, 100, 9, 0, 0⟩
      [(100, [⟨1, .SELL, 100, 5, 0, 0⟩, ⟨2, .SELL, 100, 7, 0, 0⟩])] 1).2.2.1 0 1
      (by decide) (by decide)⟩

/-! ### Where matching stops -/

theorem matchOrder_stop (side : OrderType) (clk : Nat → Int) (inc : Order) (book : PriceMap)
    (tid : Int) (hs : (book.map Prod.fst).Pairwise (oppBefore side)) :
    (matchOrder side clk inc book tid).order.is_filled = true ∨
      (matchOrder side clk inc book tid).book = [] ∨
      ∀ l ∈ (matchOrder side clk inc book tid).book, oppBefore side inc.price l.1 := by
  by_cases h : (matchOrder side clk inc book tid).order.is_filled = true
  · exact Or.inl h
  · exact Or.inr (Or.inr (levelsRun_stop side clk book inc tid [] hs (by simpa using h)))

theorem matchOrder_no_reach (side : OrderType) (clk : Nat → Int) (inc : Order) (l : Level)
    (rest : PriceMap) (tid : Int) (h : oppBefore side inc.price l.1) :
    matchOrder side clk inc (l :: rest) tid = ⟨inc, l :: rest, tid, []⟩ := by
  obtain ⟨p, q⟩ := l
  have hp : priceStops side inc.price p = true := (priceStops_iff _ _ _).mpr h
  simp only [matchOrder, levelsRun, hp, ↓reduceIte]
  split_ifs <;> rfl

/-- Claim C4 (stop conditions). In every state reached from a fresh engine, when
`matchBuyOrder` returns from a walk over `sellOrders` the incoming buy is completely
filled, or no ask level is left, or every ask level left (so the lowest one too) is
strictly above the limit price of the buy; symmetrically for `matchSellOrder` over
`buyOrders` with every bid level left strictly below the limit of the sell.  And if
the limit price does not reach the best opposite level at entry, no trade is made
and the opposite side, the incoming order and the trade-id counter are unchanged. -/
theorem stop_conditions (cs : List Command) (clk : Nat → Int) (inc : Order) (tid : Int) :
    ((matchBuyOrder clk inc (run cs).1.sellOrders tid).order.is_filled = true ∨
      (matchBuyOrder clk inc (run cs).1.sellOrders tid).book = [] ∨
      ∀ l ∈ (matchBuyOrder clk inc (run cs).1.sellOrders tid).book, inc.price < l.1) ∧
    ((matchSellOrder clk inc (run cs).1.buyOrders tid).order.is_filled = true ∨
      (matchSellOrder clk inc (run cs).1.buyOrders tid).book = [] ∨
      ∀ l ∈ (matchSellOrder clk inc (run cs).1.buyOrders tid).book, l.1 < inc.price) ∧
    (∀ (l : Level) (rest : PriceMap), (run cs).1.sellOrders = l :: rest → inc.price < l.1 →
      matchBuyOrder clk inc (run cs).1.sellOrders tid = ⟨inc, (run cs).1.sellOrders, tid, []⟩) ∧
    (∀ (l : Level) (rest : PriceMap), (run cs).1.buyOrders = l :: rest → l.1 < inc.price →
      matchSellOrder clk inc (run cs).1.buyOrders tid = ⟨inc, (run cs).1.buyOrders, tid, []⟩) := by
  have hord := bookOrdered_runFrom cs fresh [] bookOrdered_fresh
  rw [matchBuyOrder_eq, matchSellOrder_eq]
  refine ⟨matchOrder_stop .BUY clk inc _ tid hord.sells,
    matchOrder_stop .SELL clk inc _ tid hord.buys, ?_, ?_⟩
  · intro l rest hl hp
    rw [hl]
    exact matchOrder_no_reach .BUY clk inc l rest tid hp
  · intro l rest hl hp
    rw [hl]
    exact matchOrder_no_reach .SELL clk inc l rest tid hp

/-- Scenario S1: with BID(100, 10) resting, an incoming ASK at 105 does not reach the
best bid: no trade, bid side untouched. -/
theorem stop_conditions_witness :
    (run [.place .BUY 100 10 0 clock0]).1.buyOrders = [(100, [⟨1, .BUY, 100, 10, 0, 0⟩])] ∧
      ((100, [⟨1, .BUY, 100, 10, 0, 0⟩]) : Level).1 < (⟨2, .SELL, 105, 10, 0, 0⟩ : Order).price ∧
      matchSellOrder clock0 ⟨2, .SELL, 105, 10, 0, 0⟩
          (run [.place .BUY 100 10 0 clock0]).1.buyOrders 1 =
        ⟨⟨2, .SELL, 105, 10, 0, 0⟩, (run [.place .BUY 100 10 0 clock0]).1.buyOrders, 1, []⟩ :=
  ⟨by decide, by decide,
    (stop_conditions [.place .BUY 100 10 0 clock0] clock0 ⟨2, .SELL, 105, 10, 0, 0⟩ 1).2.2.2
      (100, [⟨1, .BUY, 100, 10, 0, 0⟩]) [] (by decide) (by decide)⟩

/-! ### What matching leaves on the opposite side -/

theorem mem_restingOrders {book : PriceMap} {o : Order} :
    o ∈ restingOrders book ↔ ∃ l ∈ book, o ∈ l.2 := by
  induction book with
  | nil => simp [restingOrders]
  | cons l rest ih =>
    obtain ⟨p, q⟩ := l
    simp only [restingOrders, List.mem_append, ih, List.mem_cons, exists_eq_or_imp]

theorem levelRun_queue_static (side : OrderType) (clk : Nat → Int) (q : List Order) :
    ∀ (inc : Order) (tid : Int) (trades : List Trade),
      ((levelRun side clk inc tid trades q).queue.map Order.static).Sublist
        (q.map Order.static) := by
  induction q with
  | nil => intros; simp [levelRun]
  | cons r rest ih =>
    intro inc tid trades
    simp only [levelRun]
    split_ifs
    · exact List.Sublist.refl _
    · exact (ih _ _ _).cons _
    · simp

theorem levelsRun_level_nonempty (side : OrderType) (clk : Nat → Int) (book : PriceMap) :
    ∀ (inc : Order) (tid : Int) (trades : List Trade),
      ∀ l1 ∈ (levelsRun side clk inc tid trades book).book,
        l1.2 ≠ [] ∨ l1 ∈ book := by
  induction book with
  | nil => intro inc tid trades l1 h; simp [levelsRun] at h
  | cons l0 rest ih =>
    intro inc tid trades l1
    obtain ⟨p, q⟩ := l0
    simp only [levelsRun]
    split_ifs with hf hp hq
    · intro h; exact Or.inr h
    · intro h; exact Or.inr h
    · intro h
      exact (ih _ _ _ l1 h).imp id (List.mem_cons_of_mem _)
    · intro h
      rcases List.mem_cons.mp h with rfl | h
      · exact Or.inl (by simpa [List.isEmpty_iff] using hq)
      · exact (ih _ _ _ l1 h).imp id (List.mem_cons_of_mem _)

theorem levelsRun_level_origin (side : OrderType) (clk : Nat → Int) (book : PriceMap) :
    ∀ (inc : Order) (tid : Int) (trades : List Trade),
      ∀ l1 ∈ (levelsRun side clk inc tid trades book).book,
        ∃ l ∈ book, l1.1 = l.1 ∧ (l1.2.map Order.static).Sublist (l.2.map Order.static) := by
  induction book with
  | nil => intro inc tid trades l1 h; simp [levelsRun] at h
  | cons l0 rest ih =>
    intro inc tid trades l1
    obtain ⟨p, q⟩ := l0
    simp only [levelsRun]
    split_ifs with hf hp hq
    · intro h; exact ⟨l1, h, rfl, List.Sublist.refl _⟩
    · intro h; exact ⟨l1, h, rfl, List.Sublist.refl _⟩
    · intro h
      obtain ⟨l, hl, h1, h2⟩ := ih _ _ _ l1 h
      exact ⟨l, List.mem_cons_of_mem _ hl, h1, h2⟩
    · intro h
      rcases List.mem_cons.mp h with rfl | h
      · exact ⟨(p, q), List.mem_cons_self _ _, rfl, levelRun_queue_static side clk q inc tid trades⟩
      · obtain ⟨l, hl, h1, h2⟩ := ih _ _ _ l1 h
        exact ⟨l, List.mem_cons_of_mem _ hl, h1, h2⟩

theorem levelsRun_resting_static (side : OrderType) (clk : Nat → Int) (book : PriceMap) :
    ∀ (inc : Order) (tid : Int) (trades : List Trade),
      ((restingOrders (levelsRun side clk inc tid trades book).book).map Order.static).Sublist
        ((restingOrders book).map Order.static) := by
  induction book with
  | nil => intros; simp [levelsRun, restingOrders]
  | cons l0 rest ih =>
    intro inc tid trades
    obtain ⟨p, q⟩ := l0
    simp only [levelsRun]
    split_ifs with hf hp hq
    · exact List.Sublist.refl _
    · exact List.Sublist.refl _
    · simp only [restingOrders, List.map_append]
      exact List.Sublist.trans (ih _ _ _) (List.sublist_append_right _ _)
    · simp only [restingOrders, List.map_append]
      exact List.Sublist.append (levelRun_queue_static side clk q inc tid trades) (ih _ _ _)

theorem static_map_id (os : List Order) :
    (os.map Order.static).map Order.id = os.map Order.id := by
  simp [List.map_map, Function.comp_def, Order.static]

theorem levelsRun_resting_ids (side : OrderType) (clk : Nat → Int) (book : PriceMap)
    (inc : Order) (tid : Int) (trades : List Trade) :
    ((restingOrders (levelsRun side clk inc tid trades book).book).map Order.id).Sublist
      ((restingOrders book).map Order.id) := by
  have := (levelsRun_resting_static side clk book inc tid trades).map Order.id
  rwa [static_map_id, static_map_id] at this

theorem static_of_sublist {os1 os : List Order}
    (h : (os1.map Order.static).Sublist (os.map Order.static)) {o1 : Order} (ho : o1 ∈ os1) :
    ∃ o ∈ os, o.static = o1.static := by
  have := h.subset (List.mem_map_of_mem Order.static ho)
  obtain ⟨o, ho, h1⟩ := List.mem_map.mp this
  exact ⟨o, ho, h1⟩

/-! ### Fill bounds through matching -/

/-- The fill state of an order that rests in the book: something is left of it. -/
def Order.isOpen (o : Order) : Prop := 0 ≤ o.filled_quantity ∧ o.filled_quantity < o.quantity

/-- The fill state of any order: never over-filled. -/
def Order.within (o : Order) : Prop := 0 ≤ o.filled_quantity ∧ o.filled_quantity ≤ o.quantity

theorem fill_step_bounds (inc r : Order) (hi : inc.within) (hf : inc.is_filled = false)
    (hr : r.isOpen) :
    0 < min inc.remaining r.remaining ∧
      (fill inc (min inc.remaining r.remaining)).within ∧
      ((fill r (min inc.remaining r.remaining)).is_filled = false →
        (fill r (min inc.remaining r.remaining)).isOpen) := by
  simp only [Order.is_filled, Order.remaining, beq_eq_false_iff_ne, ne_eq, Order.within,
    Order.isOpen, fill] at *
  have h1 := min_le_left (inc.quantity - inc.filled_quantity) (r.quantity - r.filled_quantity)
  have h2 := min_le_right (inc.quantity - inc.filled_quantity) (r.quantity - r.filled_quantity)
  have h3 : 0 < min (inc.quantity - inc.filled_quantity) (r.quantity - r.filled_quantity) :=
    lt_min (by omega) (by omega)
  refine ⟨h3, ⟨by omega, by omega⟩, fun h => ⟨by omega, by omega⟩⟩

theorem levelRun_bounds (side : OrderType) (clk : Nat → Int) (q : List Order) :
    ∀ (inc : Order) (tid : Int) (trades : List Trade), inc.within → (∀ o ∈ q, o.isOpen) →
      (levelRun side clk inc tid trades q).order.within ∧
      (∀ o ∈ (levelRun side clk inc tid trades q).queue, o.isOpen) ∧
      (∀ t ∈ (levelRun side clk inc tid trades q).trades, t ∈ trades ∨ 0 < t.quantity) := by
  induction q with
  | nil => intro inc tid trades hi _; exact ⟨hi, by simp [levelRun], fun t ht => Or.inl ht⟩
  | cons r rest ih =>
    intro inc tid trades hi hq
    simp only [levelRun]
    split_ifs with hf hr
    · exact ⟨hi, hq, fun t ht => Or.inl ht⟩
    · obtain ⟨h1, h2, _⟩ := fill_step_bounds inc r hi (by simpa using hf)
        (hq r (List.mem_cons_self _ _))
      obtain ⟨h4, h5, h6⟩ := ih (fill inc (min inc.remaining r.remaining)) (tid + 1)
        (trades ++ [mkTrade side tid inc r (min inc.remaining r.remaining) (clk trades.length)])
        h2 (fun o ho => hq o (List.mem_cons_of_mem _ ho))
      refine ⟨h4, h5, fun t ht => ?_⟩
      rcases h6 t ht with h | h
      · rcases List.mem_append.mp h with h | h
        · exact Or.inl h
        · rw [List.mem_singleton] at h
          subst h
          exact Or.inr (by simpa using h1)
      · exact Or.inr h
    · obtain ⟨h1, h2, h3⟩ := fill_step_bounds inc r hi (by simpa using hf)
        (hq r (List.mem_cons_self _ _))
      refine ⟨h2, fun o ho => ?_, fun t ht => ?_⟩
      · rcases List.mem_cons.mp ho with rfl | ho
        · exact h3 (by simpa using hr)
        · exact hq o (List.mem_cons_of_mem _ ho)
      · rcases List.mem_append.mp ht with h | h
        · exact Or.inl h
        · rw [List.mem_singleton] at h
          subst h
          exact Or.inr (by simpa using h1)

theorem levelsRun_bounds (side : OrderType) (clk : Nat → Int) (book : PriceMap) :
    ∀ (inc : Order) (tid : Int) (trades : List Trade), inc.within →
      (∀ o ∈ restingOrders book, o.isOpen) →
      (levelsRun side clk inc tid trades book).order.within ∧
      (∀ o ∈ restingOrders (levelsRun side clk inc tid trades book).book, o.isOpen) ∧
      (∀ t ∈ (levelsRun side clk inc tid trades book).trades, t ∈ trades ∨ 0 < t.quantity) := by
  induction book with
  | nil =>
    intro inc tid trades hi _
    exact ⟨hi, by simp [levelsRun, restingOrders], fun t ht => Or.inl ht⟩
  | cons l0 rest ih =>
    intro inc tid trades hi hq
    obtain ⟨p, q⟩ := l0
    simp only [restingOrders, List.mem_append] at hq
    obtain ⟨h1, h2, h3⟩ := levelRun_bounds side clk q inc tid trades hi
      (fun o ho => hq o (Or.inl ho))
    obtain ⟨h4, h5, h6⟩ := ih (levelRun side clk inc tid trades q).order
      (levelRun side clk inc tid trades q).tradeId (levelRun side clk inc tid trades q).trades
      h1 (fun o ho => hq o (Or.inr ho))
    have h7 : ∀ t ∈ (levelsRun side clk (levelRun side clk inc tid trades q).order
        (levelRun side clk inc tid trades q).tradeId
        (levelRun side clk inc tid trades q).trades rest).trades, t ∈ trades ∨ 0 < t.quantity :=
      fun t ht => (h6 t ht).elim (h3 t) Or.inr
    simp only [levelsRun]
    split_ifs with hf hp hq1
    · exact ⟨hi, by simpa [restingOrders] using hq, fun t ht => Or.inl ht⟩
    · exact ⟨hi, by simpa [restingOrders] using hq, fun t ht => Or.inl ht⟩
    · exact ⟨h4, h5, h7⟩
    · refine ⟨h4, fun o ho => ?_, h7⟩
      simp only [restingOrders, List.mem_append] at ho
      exact ho.elim (h2 o) (h5 o)

/-! ### Accounting of traded quantities -/

/-- The other side of the book. -/
def OrderType.other : OrderType → OrderType
  | .BUY => .SELL
  | .SELL => .BUY

/-- The total quantity of the trades of `log` that name `id` as their order of type
`side` (`buyOrderId` for BUY, `sellOrderId` for SELL). -/
def tradedFor (side : OrderType) (id : Int) (log : List Trade) : Int :=
  ((log.filter (fun t => incomingId side t == id)).map Trade.quantity).sum

theorem incomingId_other (side : OrderType) (t : Trade) :
    incomingId side.other t = restingId side t := by
  cases side <;> rfl

@[simp] theorem tradedFor_nil (side : OrderType) (id : Int) : tradedFor side id [] = 0 := rfl

theorem tradedFor_cons (side : OrderType) (id : Int) (t : Trade) (ts : List Trade) :
    tradedFor side id (t :: ts) =
      (if incomingId side t = id then t.quantity else 0) + tradedFor side id ts := by
  by_cases h : incomingId side t = id
  · simp [tradedFor, List.filter_cons, h]
  · simp [tradedFor, List.filter_cons, h]

theorem tradedFor_append (side : OrderType) (id : Int) (a b : List Trade) :
    tradedFor side id (a ++ b) = tradedFor side id a + tradedFor side id b := by
  simp [tradedFor, List.filter_append]

theorem tradedFor_eq_zero (side : OrderType) (id : Int) (ts : List Trade)
    (h : ∀ t ∈ ts, incomingId side t ≠ id) : tradedFor side id ts = 0 := by
  induction ts with
  | nil => rfl
  | cons t ts ih =>
    rw [tradedFor_cons, ih (fun t ht => h t (List.mem_cons_of_mem _ ht))]
    simp [h t (List.mem_cons_self _ _)]

theorem tradedFor_eq_sum (side : OrderType) (id : Int) (ts : List Trade)
    (h : ∀ t ∈ ts, incomingId side t = id) :
    tradedFor side id ts = (ts.map Trade.quantity).sum := by
  induction ts with
  | nil => rfl
  | cons t ts ih =>
    rw [tradedFor_cons, ih (fun t ht => h t (List.mem_cons_of_mem _ ht))]
    simp [h t (List.mem_cons_self _ _)]

/-- The trades added by the inner loop all name the incoming order, name orders of
the queue, carry consecutive ids, and add up to what was filled of the incoming
order. -/
theorem levelRun_new (side : OrderType) (clk : Nat → Int) (q : List Order) :
    ∀ (inc : Order) (tid : Int) (trades : List Trade),
      ∃ new, (levelRun side clk inc tid trades q).trades = trades ++ new ∧
        (∀ t ∈ new, incomingId side t = inc.id ∧ restingId side t ∈ q.map Order.id) ∧
        (levelRun side clk inc tid trades q).order.filled_quantity =
          inc.filled_quantity + (new.map Trade.quantity).sum ∧
        (levelRun side clk inc tid trades q).tradeId = tid + new.length := by
  induction q with
  | nil => intro inc tid trades; exact ⟨[], by simp [levelRun]⟩
  | cons r rest ih =>
    intro inc tid trades
    simp only [levelRun]
    split_ifs with hf hr
    · exact ⟨[], by simp⟩
    · obtain ⟨new, h1, h2, h3, h4⟩ := ih (fill inc (min inc.remaining r.remaining)) (tid + 1)
        (trades ++ [mkTrade side tid inc r (min inc.remaining r.remaining) (clk trades.length)])
      refine ⟨mkTrade side tid inc r (min inc.remaining r.remaining) (clk trades.length) :: new,
        by rw [h1]; simp, ?_, ?_, ?_⟩
      · intro t ht
        rcases List.mem_cons.mp ht with rfl | ht
        · simp
        · exact ⟨(h2 t ht).1, List.mem_cons_of_mem _ (h2 t ht).2⟩
      · rw [h3]
        simp only [fill, List.map_cons, quantity_mkTrade, List.sum_cons]
        ring
      · rw [h4]
        simp only [List.length_cons, Nat.cast_add, Nat.cast_one]
        ring
    · exact ⟨[_], rfl, by simp, by simp [fill], by simp⟩

theorem levelsRun_new (side : OrderType) (clk : Nat → Int) (book : PriceMap) :
    ∀ (inc : Order) (tid : Int) (trades : List Trade),
      ∃ new, (levelsRun side clk inc tid trades book).trades = trades ++ new ∧
        (∀ t ∈ new, incomingId side t = inc.id ∧
          restingId side t ∈ (restingOrders book).map Order.id) ∧
        (levelsRun side clk inc tid trades book).order.filled_quantity =
          inc.filled_quantity + (new.map Trade.quantity).sum ∧
        (levelsRun side clk inc tid trades book).tradeId = tid + new.length := by
  induction book with
  | nil => intro inc tid trades; exact ⟨[], by simp [levelsRun]⟩
  | cons l0 rest ih =>
    intro inc tid trades
    obtain ⟨p, q⟩ := l0
    obtain ⟨new1, h1, h2, h3, h4⟩ := levelRun_new side clk q inc tid trades
    obtain ⟨new2, k1, k2, k3, k4⟩ := ih (levelRun side clk inc tid trades q).order
      (levelRun side clk inc tid trades q).tradeId (levelRun side clk inc tid trades q).trades
    have hid := static_id (levelRun_order_static side clk q inc tid trades)
    have key : ∃ new, (levelsRun side clk (levelRun side clk inc tid trades q).order
          (levelRun side clk inc tid trades q).tradeId
          (levelRun side clk inc tid trades q).trades rest).trades = trades ++ new ∧
        (∀ t ∈ new, incomingId side t = inc.id ∧
          restingId side t ∈ (restingOrders ((p, q) :: rest)).map Order.id) ∧
        (levelsRun side clk (levelRun side clk inc tid trades q).order
          (levelRun side clk inc tid trades q).tradeId
          (levelRun side clk inc tid trades q).trades rest).order.filled_quantity =
          inc.filled_quantity + (new.map Trade.quantity).sum ∧
        (levelsRun side clk (levelRun side clk inc tid trades q).order
          (levelRun side clk inc tid trades q).tradeId
          (levelRun side clk inc tid trades q).trades rest).tradeId = tid + new.length := by
      refine ⟨new1 ++ new2, by rw [k1, h1, List.append_assoc], ?_, ?_, ?_⟩
      · intro t ht
        simp only [restingOrders, List.map_append, List.mem_append]
        rcases List.mem_append.mp ht with ht | ht
        · exact ⟨(h2 t ht).1, Or.inl (h2 t ht).2⟩
        · exact ⟨by rw [(k2 t ht).1, hid], Or.inr (k2 t ht).2⟩
      · rw [k3, h3]
        simp only [List.map_append, List.sum_append]
        ring
      · rw [k4, h4]
        simp only [List.length_append, Nat.cast_add]
        ring
    simp only [levelsRun]
    split_ifs with hf hp hq
    · exact ⟨[], by simp⟩
    · exact ⟨[], by simp⟩
    · exact key
    · exact key

/-- The fills recorded on the orders left in the queue are exactly the quantities
of the new trades that name them. -/
theorem levelRun_conserve (side : OrderType) (clk : Nat → Int) (q : List Order) :
    ∀ (inc : Order) (tid : Int) (trades : List Trade), (q.map Order.id).Nodup →
      ∃ new, (levelRun side clk inc tid trades q).trades = trades ++ new ∧
        ∀ o1 ∈ (levelRun side clk inc tid trades q).queue, ∃ o ∈ q, o.static = o1.static ∧
          o1.filled_quantity = o.filled_quantity + tradedFor side.other o.id new := by
  induction q with
  | nil => intro inc tid trades _; exact ⟨[], by simp [levelRun]⟩
  | cons r rest ih =>
    intro inc tid trades hnd
    simp only [List.map_cons, List.nodup_cons, List.mem_map, not_exists, not_and] at hnd
    simp only [levelRun]
    split_ifs with hf hr
    · exact ⟨[], by simp, fun o1 ho1 => ⟨o1, ho1, rfl, by simp⟩⟩
    · obtain ⟨new, h1, h2⟩ := ih (fill inc (min inc.remaining r.remaining)) (tid + 1)
        (trades ++ [mkTrade side tid inc r (min inc.remaining r.remaining) (clk trades.length)])
        hnd.2
      refine ⟨mkTrade side tid inc r (min inc.remaining r.remaining) (clk trades.length) :: new,
        by rw [h1]; simp, fun o1 ho1 => ?_⟩
      obtain ⟨o, ho, h3, h4⟩ := h2 o1 ho1
      refine ⟨o, List.mem_cons_of_mem _ ho, h3, ?_⟩
      rw [h4, tradedFor_cons, incomingId_other, restingId_mkTrade]
      have : ¬ r.id = o.id := fun h => hnd.1 o ho h.symm
      simp [this]
    · refine ⟨[_], rfl, fun o1 ho1 => ?_⟩
      rcases List.mem_cons.mp ho1 with rfl | ho1
      · refine ⟨r, List.mem_cons_self _ _, rfl, ?_⟩
        simp [tradedFor_cons, incomingId_other, fill]
      · refine ⟨o1, List.mem_cons_of_mem _ ho1, rfl, ?_⟩
        have : ¬ r.id = o1.id := fun h => hnd.1 o1 ho1 h.symm
        simp [tradedFor_cons, incomingId_other, this]

theorem levelsRun_conserve (side : OrderType) (clk : Nat → Int) (book : PriceMap) :
    ∀ (inc : Order) (tid : Int) (trades : List Trade),
      ((restingOrders book).map Order.id).Nodup →
      ∃ new, (levelsRun side clk inc tid trades book).trades = trades ++ new ∧
        ∀ o1 ∈ restingOrders (levelsRun side clk inc tid trades book).book,
          ∃ o ∈ restingOrders book, o.static = o1.static ∧
            o1.filled_quantity = o.filled_quantity + tradedFor side.other o.id new := by
  induction book with
  | nil => intro inc tid trades _; exact ⟨[], by simp [levelsRun, restingOrders]⟩
  | cons l0 rest ih =>
    intro inc tid trades hnd
    obtain ⟨p, q⟩ := l0
    simp only [restingOrders, List.map_append] at hnd
    obtain ⟨hnd1, hnd2, hdis⟩ := List.nodup_append.mp hnd
    obtain ⟨new1, h1, h2⟩ := levelRun_conserve side clk q inc tid trades hnd1
    obtain ⟨new1b, h1b, h2b, _, _⟩ := levelRun_new side clk q inc tid trades
    have hsame : new1b = new1 := List.append_cancel_left (h1b.symm.trans h1)
    subst hsame
    obtain ⟨new2, k1, k2⟩ := ih (levelRun side clk inc tid trades q).order
      (levelRun side clk inc tid trades q).tradeId (levelRun side clk inc tid trades q).trades
      hnd2
    obtain ⟨new2b, k1b, k2b, _, _⟩ := levelsRun_new side clk rest
      (levelRun side clk inc tid trades q).order
      (levelRun side clk inc tid trades q).tradeId (levelRun side clk inc tid trades q).trades
    have hsame2 : new2b = new2 := List.append_cancel_left (k1b.symm.trans k1)
    subst hsame2
    -- orders of the later levels are not named by the trades of this level
    have hlater : ∀ o ∈ restingOrders rest, tradedFor side.other o.id new1b = 0 := by
      intro o ho
      refine tradedFor_eq_zero _ _ _ (fun t ht h => ?_)
      rw [incomingId_other] at h
      exact hdis (h ▸ (h2b t ht).2) (List.mem_map_of_mem _ ho)
    -- orders of this level are not named by the trades of the later levels
    have hearlier : ∀ o ∈ q, tradedFor side.other o.id new2b = 0 := by
      intro o ho
      refine tradedFor_eq_zero _ _ _ (fun t ht h => ?_)
      rw [incomingId_other] at h
      exact hdis (List.mem_map_of_mem _ ho) (h ▸ (k2b t ht).2)
    simp only [levelsRun]
    split_ifs with hf hp hq
    · exact ⟨[], by simp, fun o1 ho1 => ⟨o1, ho1, rfl, by simp⟩⟩
    · exact ⟨[], by simp, fun o1 ho1 => ⟨o1, ho1, rfl, by simp⟩⟩
    · refine ⟨new1b ++ new2b, by rw [k1, h1, List.append_assoc], fun o1 ho1 => ?_⟩
      obtain ⟨o, ho, h3, h4⟩ := k2 o1 ho1
      refine ⟨o, by simp [restingOrders, ho], h3, ?_⟩
      rw [tradedFor_append, hlater o ho, h4]
      ring
    · refine ⟨new1b ++ new2b, by rw [k1, h1, List.append_assoc], fun o1 ho1 => ?_⟩
      simp only [restingOrders, List.mem_append] at ho1
      rcases ho1 with ho1 | ho1
      · obtain ⟨o, ho, h3, h4⟩ := h2 o1 ho1
        refine ⟨o, by simp [restingOrders, ho], h3, ?_⟩
        rw [tradedFor_append, hearlier o ho, h4]
        ring
      · obtain ⟨o, ho, h3, h4⟩ := k2 o1 ho1
        refine ⟨o, by simp [restingOrders, ho], h3, ?_⟩
        rw [tradedFor_append, hlater o ho, h4]
        ring

/-! ### Pushing a residual and removing a cancelled order -/

theorem PriceMap.mem_pushAt (before : Int → Int → Bool) (m : PriceMap) (price : Int)
    (o : Order) (l : Level) (h : l ∈ m.pushAt before price o) :
    l ∈ m ∨ l = (price, [o]) ∨ ∃ q, (price, q) ∈ m ∧ l = (price, q ++ [o]) := by
  induction m with
  | nil =>
    simp only [PriceMap.pushAt, List.mem_singleton] at h
    exact Or.inr (Or.inl h)
  | cons l0 rest ih =>
    obtain ⟨k, q⟩ := l0
    simp only [PriceMap.pushAt] at h
    split_ifs at h with h1 h2
    · subst h1
      rcases List.mem_cons.mp h with h | h
      · exact Or.inr (Or.inr ⟨q, List.mem_cons_self _ _, h⟩)
      · exact Or.inl (List.mem_cons_of_mem _ h)
    · rcases List.mem_cons.mp h with h | h
      · exact Or.inr (Or.inl h)
      · exact Or.inl h
    · rcases List.mem_cons.mp h with h | h
      · exact Or.inl (h ▸ List.mem_cons_self _ _)
      · rcases ih h with h | h | ⟨q1, h3, h4⟩
        · exact Or.inl (List.mem_cons_of_mem _ h)
        · exact Or.inr (Or.inl h)
        · exact Or.inr (Or.inr ⟨q1, List.mem_cons_of_mem _ h3, h4⟩)

theorem restingOrders_pushAt (before : Int → Int → Bool) (m : PriceMap) (price : Int)
    (o : Order) : (restingOrders (m.pushAt before price o)).Perm (o :: restingOrders m) := by
  induction m with
  | nil => simp [PriceMap.pushAt, restingOrders]
  | cons l0 rest ih =>
    obtain ⟨k, q⟩ := l0
    simp only [PriceMap.pushAt]
    split_ifs with h1 h2
    · simp only [restingOrders, List.append_assoc, List.singleton_append]
      exact (List.perm_middle).trans (List.Perm.refl _)
    · simp [restingOrders]
    · simp only [restingOrders]
      exact ((List.Perm.append_left q ih).trans List.perm_middle)

theorem PriceMap.get_setAt (m : PriceMap) (price : Int) (q : List Order)
    (h : m.count price = true) : (m.setAt price q).get price = q := by
  induction m with
  | nil => simp [PriceMap.count] at h
  | cons l0 rest ih =>
    obtain ⟨k, q0⟩ := l0
    by_cases hk : k = price
    · simp [PriceMap.setAt, PriceMap.get, hk]
    · have : PriceMap.count rest price = true := by
        simpa [PriceMap.count, hk] using h
      simp [PriceMap.setAt, PriceMap.get, hk, ih this]

theorem PriceMap.get_mem (m : PriceMap) (price : Int) (h : m.count price = true) :
    (price, m.get price) ∈ m := by
  induction m with
  | nil => simp [PriceMap.count] at h
  | cons l0 rest ih =>
    obtain ⟨k, q0⟩ := l0
    by_cases hk : k = price
    · simp [PriceMap.get, hk]
    · have : PriceMap.count rest price = true := by
        simpa [PriceMap.count, hk] using h
      simp only [PriceMap.get, hk, ↓reduceIte]
      exact List.mem_cons_of_mem _ (ih this)

theorem PriceMap.setAt_get (m : PriceMap) (price : Int) :
    m.setAt price (m.get price) = m := by
  induction m with
  | nil => rfl
  | cons l0 rest ih =>
    obtain ⟨k, q0⟩ := l0
    by_cases hk : k = price
    · simp [PriceMap.setAt, PriceMap.get, hk]
    · simp [PriceMap.setAt, PriceMap.get, hk, ih]

/-- With distinct keys, the level found under a key is the only one with that key. -/
theorem PriceMap.get_of_mem (m : PriceMap) (l : Level) (hl : l ∈ m)
    (hk : (m.map Prod.fst).Nodup) : m.get l.1 = l.2 := by
  induction m with
  | nil => simp at hl
  | cons l0 rest ih =>
    obtain ⟨k, q0⟩ := l0
    simp only [List.map_cons, List.nodup_cons] at hk
    rcases List.mem_cons.mp hl with rfl | hl
    · simp [PriceMap.get]
    · have : ¬ k = l.1 := fun h => hk.1 (h ▸ List.mem_map_of_mem _ hl)
      simp only [PriceMap.get, this, ↓reduceIte]
      exact ih hl hk.2

theorem PriceMap.count_of_mem (m : PriceMap) (l : Level) (hl : l ∈ m) :
    m.count l.1 = true := by
  simp only [PriceMap.count, List.any_eq_true, beq_iff_eq]
  exact ⟨l, hl, rfl⟩

theorem PriceMap.mem_setAt (m : PriceMap) (price : Int) (q : List Order) (l : Level)
    (hk : (m.map Prod.fst).Nodup) (h : l ∈ m.setAt price q) :
    l = (price, q) ∨ (l ∈ m ∧ l.1 ≠ price) := by
  induction m with
  | nil => simp [PriceMap.setAt] at h
  | cons l0 rest ih =>
    obtain ⟨k, q0⟩ := l0
    simp only [List.map_cons, List.nodup_cons] at hk
    simp only [PriceMap.setAt] at h
    split_ifs at h with h1
    · subst h1
      rcases List.mem_cons.mp h with h | h
      · exact Or.inl h
      · refine Or.inr ⟨List.mem_cons_of_mem _ h, fun h2 => hk.1 ?_⟩
        exact h2 ▸ List.mem_map_of_mem _ h
    · rcases List.mem_cons.mp h with h | h
      · subst h
        exact Or.inr ⟨List.mem_cons_self _ _, h1⟩
      · rcases ih hk.2 h with h | ⟨h2, h3⟩
        · exact Or.inl h
        · exact Or.inr ⟨List.mem_cons_of_mem _ h2, h3⟩

theorem PriceMap.mem_erase (m : PriceMap) (price : Int) (l : Level) :
    l ∈ m.erase price ↔ l ∈ m ∧ l.1 ≠ price := by
  simp [PriceMap.erase, List.mem_filter]

theorem removeFromQueue_fst_of_not_removed (id : Int) (q : List Order)
    (h : (removeFromQueue id q).2 = false) : (removeFromQueue id q).1 = q := by
  simp only [removeFromQueue, List.any_eq_false, beq_iff_eq] at h
  simp only [removeFromQueue, List.filter_eq_self, Bool.not_eq_true', beq_eq_false_iff_ne]
  exact fun o ho => h o ho

/-- Every level left by the cancel block is an old level with a different key or
the level of the cancelled price without the cancelled id. -/
theorem cancelInSide_mem (m : PriceMap) (price id : Int) (hk : (m.map Prod.fst).Nodup)
    (l : Level) (h : l ∈ (cancelInSide m price id).1) :
    (l ∈ m ∧ (cancelInSide m price id).2 = false) ∨ (l ∈ m ∧ l.1 ≠ price) ∨
      (l = (price, (m.get price).filter (fun o => !(o.id == id))) ∧ l.2 ≠ [] ∧
        (price, m.get price) ∈ m) := by
  simp only [cancelInSide] at h ⊢
  split_ifs at h ⊢ with h1 h2
  · rw [PriceMap.mem_erase] at h
    rcases PriceMap.mem_setAt m price _ l hk h.1 with h3 | h3
    · exact absurd (by rw [h3]) h.2
    · exact Or.inr (Or.inl h3)
  · rcases PriceMap.mem_setAt m price _ l hk h with h3 | h3
    · refine Or.inr (Or.inr ⟨h3, ?_, PriceMap.get_mem m price h1⟩)
      rw [PriceMap.get_setAt m price _ h1] at h2
      rw [h3]
      simpa [List.isEmpty_iff] using h2
    · exact Or.inr (Or.inl h3)
  · exact Or.inl ⟨h, rfl⟩

theorem cancelInSide_resting (m : PriceMap) (price id : Int) :
    (restingOrders (cancelInSide m price id).1).Sublist (restingOrders m) := by
  have hset : ∀ (m : PriceMap) (q : List Order), q.Sublist (m.get price) →
      (restingOrders (m.setAt price q)).Sublist (restingOrders m) := by
    intro m
    induction m with
    | nil => intro q _; simp [PriceMap.setAt, restingOrders]
    | cons l0 rest ih =>
      intro q hq
      obtain ⟨k, q0⟩ := l0
      by_cases hk : k = price
      · simp only [PriceMap.get, hk, ↓reduceIte] at hq
        simp only [PriceMap.setAt, hk, ↓reduceIte, restingOrders]
        exact List.Sublist.append hq (List.Sublist.refl _)
      · simp only [PriceMap.get, hk, ↓reduceIte] at hq
        simp only [PriceMap.setAt, hk, ↓reduceIte, restingOrders]
        exact List.Sublist.append (List.Sublist.refl _) (ih q hq)
  have herase : ∀ (m : PriceMap), (restingOrders (m.erase price)).Sublist (restingOrders m) := by
    intro m
    induction m with
    | nil => simp [PriceMap.erase, restingOrders]
    | cons l0 rest ih =>
      obtain ⟨k, q0⟩ := l0
      by_cases hk : k = price
      · have : PriceMap.erase ((k, q0) :: rest) price = PriceMap.erase rest price := by
          simp [PriceMap.erase, List.filter_cons, hk]
        rw [this]
        simp only [restingOrders]
        exact List.Sublist.trans ih (List.sublist_append_right _ _)
      · have : PriceMap.erase ((k, q0) :: rest) price = (k, q0) :: PriceMap.erase rest price := by
          simp [PriceMap.erase, List.filter_cons, hk]
        rw [this]
        simp only [restingOrders]
        exact List.Sublist.append (List.Sublist.refl _) ih
  simp only [cancelInSide]
  split_ifs with h1 h2
  · exact (herase _).trans (hset m _ (List.filter_sublist _))
  · exact hset m _ (List.filter_sublist _)
  · exact List.Sublist.refl _

/-! ### The engine invariant -/

/-- The comparator of the map an order of type `side` rests in. -/
def sideBefore : OrderType → Int → Int → Bool
  | .BUY => buyBefore
  | .SELL => sellBefore

theorem side_cases (side t : OrderType) : t = side ∨ t = side.other := by
  cases side <;> cases t <;> simp [OrderType.other]

theorem oppSide_eq (s : OrderBook) (side : OrderType) : oppSide s side = ownSide s side.other := by
  cases side <;> rfl

@[simp] theorem ownSide_afterMatch_self (s : OrderBook) (side : OrderType) (m : MatchState) :
    ownSide (afterMatch s side m) side = ownSide s side := by
  cases side <;> rfl

@[simp] theorem ownSide_afterMatch_other (s : OrderBook) (side : OrderType) (m : MatchState) :
    ownSide (afterMatch s side m) side.other = m.book := by
  cases side <;> rfl

@[simp] theorem allOrders_afterMatch (s : OrderBook) (side : OrderType) (m : MatchState) :
    (afterMatch s side m).allOrders = s.allOrders.assign s.nextOrderId m.order := by
  cases side <;> rfl

@[simp] theorem nextOrderId_afterMatch (s : OrderBook) (side : OrderType) (m : MatchState) :
    (afterMatch s side m).nextOrderId = s.nextOrderId + 1 := by
  cases side <;> rfl

@[simp] theorem nextTradeId_afterMatch (s : OrderBook) (side : OrderType) (m : MatchState) :
    (afterMatch s side m).nextTradeId = m.tradeId := by
  cases side <;> rfl

@[simp] theorem ownSide_restOrder_self (s : OrderBook) (side : OrderType) (price : Int)
    (o : Order) :
    ownSide (restOrder s side price o) side = (ownSide s side).pushAt (sideBefore side) price o := by
  cases side <;> rfl

@[simp] theorem ownSide_restOrder_other (s : OrderBook) (side : OrderType) (price : Int)
    (o : Order) : ownSide (restOrder s side price o) side.other = ownSide s side.other := by
  cases side <;> rfl

@[simp] theorem allOrders_restOrder (s : OrderBook) (side : OrderType) (price : Int)
    (o : Order) : (restOrder s side price o).allOrders = s.allOrders := by
  cases side <;> rfl

@[simp] theorem nextOrderId_restOrder (s : OrderBook) (side : OrderType) (price : Int)
    (o : Order) : (restOrder s side price o).nextOrderId = s.nextOrderId := by
  cases side <;> rfl

@[simp] theorem nextTradeId_restOrder (s : OrderBook) (side : OrderType) (price : Int)
    (o : Order) : (restOrder s side price o).nextTradeId = s.nextTradeId := by
  cases side <;> rfl

/-- The facts that hold of the engine and its trade log between calls. -/
structure EngineInv (s : OrderBook) (log : List Trade) : Prop where
  ordered : BookOrdered s
  nonempty : ∀ side, ∀ l ∈ ownSide s side, l.2 ≠ []
  keyed : ∀ side, ∀ l ∈ ownSide s side, ∀ o ∈ l.2, o.price = l.1 ∧ o.type = side
  isOpen : ∀ side, ∀ o ∈ restingOrders (ownSide s side), o.isOpen
  idRange : ∀ side, ∀ o ∈ restingOrders (ownSide s side), 1 ≤ o.id ∧ o.id < s.nextOrderId
  nodup : ∀ side, ((restingOrders (ownSide s side)).map Order.id).Nodup
  index : ∀ side, ∀ o ∈ restingOrders (ownSide s side),
    ∃ e, s.allOrders.find o.id = some e ∧ e.static = o.static ∧ e.is_filled = false
  indexRange : ∀ id e, s.allOrders.find id = some e → e.id = id ∧ 1 ≤ id ∧ id < s.nextOrderId
  counters : 1 ≤ s.nextOrderId
  logIds : ∀ t ∈ log, ∀ side, incomingId side t < s.nextOrderId
  conserved : ∀ side, ∀ o ∈ restingOrders (ownSide s side),
    o.filled_quantity = tradedFor side o.id log

theorem engineInv_fresh : EngineInv fresh [] where
  ordered := bookOrdered_fresh
  nonempty := by intro side l h; cases side <;> simp [fresh, ownSide] at h
  keyed := by intro side l h; cases side <;> simp [fresh, ownSide] at h
  isOpen := by intro side o h; cases side <;> simp [fresh, ownSide, restingOrders] at h
  idRange := by intro side o h; cases side <;> simp [fresh, ownSide, restingOrders] at h
  nodup := by intro side; cases side <;> simp [fresh, ownSide, restingOrders]
  index := by intro side o h; cases side <;> simp [fresh, ownSide, restingOrders] at h
  indexRange := by intro id e h; simp [fresh, OrderIndex.find] at h
  counters := by simp [fresh]
  logIds := by intro t h; simp at h
  conserved := by intro side o h; cases side <;> simp [fresh, ownSide, restingOrders] at h

theorem engineInv_afterMatch (s : OrderBook) (log : List Trade) (side : OrderType)
    (price quantity now : Int) (clk : Nat → Int) (h : EngineInv s log) (hq : 0 < quantity) :
    EngineInv
      (afterMatch s side
        (matchOrder side clk (newOrder s side price quantity now) (oppSide s side) s.nextTradeId))
      (log ++ (matchOrder side clk (newOrder s side price quantity now) (oppSide s side)
        s.nextTradeId).trades) := by
  have hord := bookOrdered_afterMatch s side clk (newOrder s side price quantity now)
    s.nextTradeId h.ordered
  have hwithin : (newOrder s side price quantity now).within :=
    ⟨le_refl _, le_of_lt hq⟩
  simp only [matchOrder, oppSide_eq] at hord ⊢
  have F1 := levelsRun_level_nonempty side clk (ownSide s side.other)
    (newOrder s side price quantity now) s.nextTradeId []
  have F2 := levelsRun_level_origin side clk (ownSide s side.other)
    (newOrder s side price quantity now) s.nextTradeId []
  have F3 := levelsRun_resting_static side clk (ownSide s side.other)
    (newOrder s side price quantity now) s.nextTradeId []
  have F4 := levelsRun_bounds side clk (ownSide s side.other)
    (newOrder s side price quantity now) s.nextTradeId [] hwithin (h.isOpen side.other)
  obtain ⟨new, hnew, hnames, -, -⟩ := levelsRun_new side clk (ownSide s side.other)
    (newOrder s side price quantity now) s.nextTradeId []
  obtain ⟨new1, hnew1, F6⟩ := levelsRun_conserve side clk (ownSide s side.other)
    (newOrder s side price quantity now) s.nextTradeId [] (h.nodup side.other)
  have hsame : new1 = new := List.append_cancel_left (hnew1.symm.trans hnew)
  subst hsame
  have F7 := levelsRun_order_static side clk (ownSide s side.other)
    (newOrder s side price quantity now) s.nextTradeId []
  rw [List.nil_append] at hnew
  generalize levelsRun side clk (newOrder s side price quantity now) s.nextTradeId []
    (ownSide s side.other) = m at *
  subst hnew
  -- every order left on the opposite side is an old resting order, fill apart
  have hold : ∀ o1 ∈ restingOrders m.book,
      ∃ o ∈ restingOrders (ownSide s side.other), o.static = o1.static :=
    fun o1 ho1 => static_of_sublist F3 ho1
  have hnid : (newOrder s side price quantity now).id = s.nextOrderId := rfl
  have hlt : ∀ t, ∀ o ∈ restingOrders (ownSide (afterMatch s side m) t),
      1 ≤ o.id ∧ o.id < s.nextOrderId := by
    intro t o ho
    rcases side_cases side t with rfl | rfl
    · rw [ownSide_afterMatch_self] at ho
      exact h.idRange _ o ho
    · rw [ownSide_afterMatch_other] at ho
      obtain ⟨o0, ho0, hst⟩ := hold o ho
      rw [← static_id hst]
      exact h.idRange _ o0 ho0
  refine ⟨hord, ?_, ?_, ?_, ?_, ?_, ?_, ?_, ?_, ?_, ?_⟩
  · intro t l hl
    rcases side_cases side t with rfl | rfl
    · rw [ownSide_afterMatch_self] at hl
      exact h.nonempty _ l hl
    · rw [ownSide_afterMatch_other] at hl
      exact (F1 l hl).elim id (h.nonempty _ l)
  · intro t l hl o ho
    rcases side_cases side t with rfl | rfl
    · rw [ownSide_afterMatch_self] at hl
      exact h.keyed _ l hl o ho
    · rw [ownSide_afterMatch_other] at hl
      obtain ⟨l0, hl0, hk, hsub⟩ := F2 l hl
      obtain ⟨o0, ho0, hst⟩ := static_of_sublist hsub ho
      rw [← static_price hst, ← static_type hst, hk]
      exact h.keyed _ l0 hl0 o0 ho0
  · intro t o ho
    rcases side_cases side t with rfl | rfl
    · rw [ownSide_afterMatch_self] at ho
      exact h.isOpen _ o ho
    · rw [ownSide_afterMatch_other] at ho
      exact F4.2.1 o ho
  · intro t o ho
    rw [nextOrderId_afterMatch]
    have := hlt t o ho
    omega
  · intro t
    rcases side_cases side t with rfl | rfl
    · rw [ownSide_afterMatch_self]
      exact h.nodup _
    · rw [ownSide_afterMatch_other]
      have := F3.map Order.id
      rw [static_map_id, static_map_id] at this
      exact (h.nodup _).sublist this
  · intro t o ho
    have hne : o.id ≠ s.nextOrderId := by have := hlt t o ho; omega
    rw [allOrders_afterMatch, OrderIndex.find_assign_ne _ _ _ _ hne]
    rcases side_cases side t with rfl | rfl
    · rw [ownSide_afterMatch_self] at ho
      exact h.index _ o ho
    · rw [ownSide_afterMatch_other] at ho
      obtain ⟨o0, ho0, hst⟩ := hold o ho
      obtain ⟨e, he1, he2, he3⟩ := h.index _ o0 ho0
      rw [← static_id hst]
      exact ⟨e, he1, he2.trans hst, he3⟩
  · intro id e he
    rw [allOrders_afterMatch] at he
    rw [nextOrderId_afterMatch]
    by_cases hid : id = s.nextOrderId
    · subst hid
      rw [OrderIndex.find_assign_self] at he
      have he' : m.order = e := Option.some.inj he
      subst he'
      have := h.counters
      exact ⟨(static_id F7).trans hnid, this, by omega⟩
    · rw [OrderIndex.find_assign_ne _ _ _ _ hid] at he
      have := h.indexRange id e he
      exact ⟨this.1, this.2.1, by omega⟩
  · rw [nextOrderId_afterMatch]
    have := h.counters
    omega
  · intro t ht t1
    rw [nextOrderId_afterMatch]
    rcases List.mem_append.mp ht with ht | ht
    · have := h.logIds t ht t1
      omega
    · rcases side_cases side t1 with rfl | rfl
      · rw [(hnames t ht).1, hnid]
        omega
      · rw [incomingId_other]
        obtain ⟨o0, ho0, hid⟩ := List.mem_map.mp (hnames t ht).2
        have := h.idRange _ o0 ho0
        omega
  · intro t o ho
    rw [tradedFor_append]
    rcases side_cases side t with rfl | rfl
    · rw [ownSide_afterMatch_self] at ho
      have hz : tradedFor t o.id m.trades = 0 := by
        refine tradedFor_eq_zero _ _ _ (fun t1 ht1 h1 => ?_)
        have := h.idRange _ o ho
        rw [(hnames t1 ht1).1, hnid] at h1
        omega
      rw [hz, add_zero]
      exact h.conserved _ o ho
    · rw [ownSide_afterMatch_other] at ho
      obtain ⟨o0, ho0, hst, hfill⟩ := F6 o ho
      rw [hfill, h.conserved _ o0 ho0, static_id hst]

theorem isOpen_of_within {o : Order} (h : o.within) (hf : o.is_filled = false) : o.isOpen := by
  simp only [Order.is_filled, Order.remaining, beq_eq_false_iff_ne, ne_eq, Order.within,
    Order.isOpen] at *
  exact ⟨h.1, by omega⟩

theorem engineInv_restOrder (s : OrderBook) (log : List Trade) (side : OrderType)
    (price quantity now : Int) (clk : Nat → Int) (h : EngineInv s log) (hq : 0 < quantity)
    (hu : (matchOrder side clk (newOrder s side price quantity now) (oppSide s side)
      s.nextTradeId).order.is_filled = false) :
    EngineInv
      (restOrder (afterMatch s side
          (matchOrder side clk (newOrder s side price quantity now) (oppSide s side)
            s.nextTradeId)) side price
        (matchOrder side clk (newOrder s side price quantity now) (oppSide s side)
          s.nextTradeId).order)
      (log ++ (matchOrder side clk (newOrder s side price quantity now) (oppSide s side)
        s.nextTradeId).trades) := by
  have hA := engineInv_afterMatch s log side price quantity now clk h hq
  have hord := bookOrdered_restOrder s side clk (newOrder s side price quantity now)
    s.nextTradeId h.ordered hu
  have hwithin : (newOrder s side price quantity now).within :=
    ⟨le_refl _, le_of_lt hq⟩
  have hprice : (newOrder s side price quantity now).price = price := rfl
  rw [hprice] at hord
  simp only [matchOrder, oppSide_eq] at hord hA hu ⊢
  have F4 := levelsRun_bounds side clk (ownSide s side.other)
    (newOrder s side price quantity now) s.nextTradeId [] hwithin (h.isOpen side.other)
  obtain ⟨new, hnew, hnames, hsum, -⟩ := levelsRun_new side clk (ownSide s side.other)
    (newOrder s side price quantity now) s.nextTradeId []
  have F7 := levelsRun_order_static side clk (ownSide s side.other)
    (newOrder s side price quantity now) s.nextTradeId []
  rw [List.nil_append] at hnew
  generalize levelsRun side clk (newOrder s side price quantity now) s.nextTradeId []
    (ownSide s side.other) = m at *
  subst hnew
  have hid : m.order.id = s.nextOrderId := static_id F7
  have hpr : m.order.price = price := static_price F7
  have hty : m.order.type = side := static_type F7
  have hopen : m.order.isOpen := isOpen_of_within F4.1 hu
  have hmem : ∀ o ∈ restingOrders ((ownSide s side).pushAt (sideBefore side) price m.order),
      o = m.order ∨ o ∈ restingOrders (ownSide s side) := fun o ho =>
    List.mem_cons.mp ((restingOrders_pushAt _ _ _ _).subset ho)
  refine ⟨hord, ?_, ?_, ?_, ?_, ?_, ?_, ?_, ?_, ?_, ?_⟩
  · intro t l hl
    rcases side_cases side t with rfl | rfl
    · rw [ownSide_restOrder_self, ownSide_afterMatch_self] at hl
      rcases PriceMap.mem_pushAt _ _ _ _ _ hl with hl | hl | ⟨q, _, hl⟩
      · exact h.nonempty _ l hl
      · rw [hl]; simp
      · rw [hl]; simp
    · rw [ownSide_restOrder_other] at hl
      exact hA.nonempty _ l hl
  · intro t l hl o ho
    rcases side_cases side t with rfl | rfl
    · rw [ownSide_restOrder_self, ownSide_afterMatch_self] at hl
      rcases PriceMap.mem_pushAt _ _ _ _ _ hl with hl | hl | ⟨q, hq1, hl⟩
      · exact h.keyed _ l hl o ho
      · subst hl
        rw [List.mem_singleton] at ho
        subst ho
        exact ⟨hpr, hty⟩
      · subst hl
        rcases List.mem_append.mp ho with ho | ho
        · exact h.keyed _ _ hq1 o ho
        · rw [List.mem_singleton] at ho
          subst ho
          exact ⟨hpr, hty⟩
    · rw [ownSide_restOrder_other] at hl
      exact hA.keyed _ l hl o ho
  · intro t o ho
    rcases side_cases side t with rfl | rfl
    · rw [ownSide_restOrder_self, ownSide_afterMatch_self] at ho
      rcases hmem o ho with rfl | ho
      · exact hopen
      · exact h.isOpen _ o ho
    · rw [ownSide_restOrder_other] at ho
      exact hA.isOpen _ o ho
  · intro t o ho
    rw [nextOrderId_restOrder, nextOrderId_afterMatch]
    rcases side_cases side t with rfl | rfl
    · rw [ownSide_restOrder_self, ownSide_afterMatch_self] at ho
      rcases hmem o ho with rfl | ho
      · have := h.counters
        rw [hid]
        omega
      · have := h.idRange _ o ho
        omega
    · rw [ownSide_restOrder_other] at ho
      have := hA.idRange _ o ho
      rwa [nextOrderId_afterMatch] at this
  · intro t
    rcases side_cases side t with rfl | rfl
    · rw [ownSide_restOrder_self, ownSide_afterMatch_self]
      have hperm := (restingOrders_pushAt (sideBefore t) (ownSide s t) price m.order).map Order.id
      rw [hperm.nodup_iff, List.map_cons, List.nodup_cons]
      refine ⟨fun hin => ?_, h.nodup _⟩
      obtain ⟨o0, ho0, h0⟩ := List.mem_map.mp hin
      have := h.idRange _ o0 ho0
      omega
    · rw [ownSide_restOrder_other]
      exact hA.nodup _
  · intro t o ho
    rw [allOrders_restOrder]
    rcases side_cases side t with rfl | rfl
    · rw [ownSide_restOrder_self, ownSide_afterMatch_self] at ho
      rcases hmem o ho with rfl | ho
      · refine ⟨m.order, ?_, rfl, hu⟩
        rw [allOrders_afterMatch, hid, OrderIndex.find_assign_self]
      · have := hA.index t o (by rw [ownSide_afterMatch_self]; exact ho)
        exact this
    · rw [ownSide_restOrder_other] at ho
      exact hA.index _ o ho
  · intro id e he
    rw [allOrders_restOrder] at he
    rw [nextOrderId_restOrder]
    exact hA.indexRange id e he
  · rw [nextOrderId_restOrder]
    exact hA.counters
  · intro t ht t1
    rw [nextOrderId_restOrder]
    exact hA.logIds t ht t1
  · intro t o ho
    rcases side_cases side t with rfl | rfl
    · rw [ownSide_restOrder_self, ownSide_afterMatch_self] at ho
      rcases hmem o ho with rfl | ho
      · rw [tradedFor_append, hid]
        have hz : tradedFor t s.nextOrderId log = 0 := by
          refine tradedFor_eq_zero _ _ _ (fun t1 ht1 h1 => ?_)
          have := h.logIds t1 ht1 t
          omega
        have hs : tradedFor t s.nextOrderId m.trades = (m.trades.map Trade.quantity).sum :=
          tradedFor_eq_sum _ _ _ (fun t1 ht1 => (hnames t1 ht1).1)
        rw [hz, hs, hsum]
        simp [newOrder]
      · exact hA.conserved t o (by rw [ownSide_afterMatch_self]; exact ho)
    · rw [ownSide_restOrder_other] at ho
      exact hA.conserved _ o ho

theorem engineInv_placeOrder (s : OrderBook) (log : List Trade) (side : OrderType)
    (price quantity now : Int) (clk : Nat → Int) (h : EngineInv s log) :
    EngineInv (placeOrder s side price quantity now clk).state
      (log ++ (placeOrder s side price quantity now clk).trades) := by
  by_cases hv : price ≤ 0 ∨ quantity ≤ 0
  · rw [placeOrder_invalid _ _ _ _ _ _ hv]
    simpa using h
  · rw [placeOrder_valid _ _ _ _ _ _ hv]
    have hq : 0 < quantity := by omega
    simp only []
    split_ifs with h1 h2
    · exact engineInv_afterMatch s log side price quantity now clk h hq
    · exact engineInv_restOrder s log side price quantity now clk h hq (by simpa using h2)
    · exact engineInv_afterMatch s log side price quantity now clk h hq

/-! ### `cancelOrder` and the invariant -/

/-- The engine with the map of one side replaced. -/
def setOwnSide (s : OrderBook) (side : OrderType) (m : PriceMap) : OrderBook :=
  match side with
  | .BUY => { s with buyOrders := m }
  | .SELL => { s with sellOrders := m }

@[simp] theorem ownSide_setOwnSide_self (s : OrderBook) (side : OrderType) (m : PriceMap) :
    ownSide (setOwnSide s side m) side = m := by
  cases side <;> rfl

@[simp] theorem ownSide_setOwnSide_other (s : OrderBook) (side : OrderType) (m : PriceMap) :
    ownSide (setOwnSide s side m) side.other = ownSide s side.other := by
  cases side <;> rfl

@[simp] theorem allOrders_setOwnSide (s : OrderBook) (side : OrderType) (m : PriceMap) :
    (setOwnSide s side m).allOrders = s.allOrders := by
  cases side <;> rfl

@[simp] theorem nextOrderId_setOwnSide (s : OrderBook) (side : OrderType) (m : PriceMap) :
    (setOwnSide s side m).nextOrderId = s.nextOrderId := by
  cases side <;> rfl

@[simp] theorem nextTradeId_setOwnSide (s : OrderBook) (side : OrderType) (m : PriceMap) :
    (setOwnSide s side m).nextTradeId = s.nextTradeId := by
  cases side <;> rfl

theorem setOwnSide_self (s : OrderBook) (side : OrderType) :
    setOwnSide s side (ownSide s side) = s := by
  cases side <;> rfl

theorem cancelOrder_not_found (s : OrderBook) (id : Int) (h : s.allOrders.find id = none) :
    cancelOrder s id = ⟨s, [], some .not_found⟩ := by
  simp [cancelOrder, h]

theorem cancelOrder_filled (s : OrderBook) (id : Int) (e : Order)
    (h : s.allOrders.find id = some e) (hf : e.is_filled = true) :
    cancelOrder s id = ⟨s, [], some .already_filled⟩ := by
  simp [cancelOrder, h, hf]

theorem cancelOrder_scan (s : OrderBook) (id : Int) (e : Order)
    (h : s.allOrders.find id = some e) (hf : e.is_filled = false) :
    cancelOrder s id =
      if (cancelInSide (ownSide s e.type) e.price id).2 then
        ⟨{ setOwnSide s e.type (cancelInSide (ownSide s e.type) e.price id).1 with
            allOrders := s.allOrders.erase id }, [], none⟩
      else
        ⟨setOwnSide s e.type (cancelInSide (ownSide s e.type) e.price id).1, [],
          some .not_in_book⟩ := by
  simp only [cancelOrder, h, hf, Bool.false_eq_true, ↓reduceIte]
  cases e.type <;> simp only [ownSide, setOwnSide]

theorem keys_nodup {s : OrderBook} (h : BookOrdered s) (side : OrderType) :
    ((ownSide s side).map Prod.fst).Nodup := by
  cases side
  · exact h.buys.imp (fun hab => ne_of_gt hab)
  · exact h.sells.imp (fun hab => ne_of_lt hab)

/-- The invariant survives the scan of `cancelOrder`, with and without the erase of
the index entry that follows a successful removal. -/
theorem engineInv_cancel_scan (s : OrderBook) (log : List Trade) (id : Int) (e : Order)
    (h : EngineInv s log) (he : s.allOrders.find id = some e)
    (hord : BookOrdered (setOwnSide s e.type (cancelInSide (ownSide s e.type) e.price id).1)) :
    EngineInv (setOwnSide s e.type (cancelInSide (ownSide s e.type) e.price id).1) log ∧
      ((cancelInSide (ownSide s e.type) e.price id).2 = true →
        EngineInv { setOwnSide s e.type (cancelInSide (ownSide s e.type) e.price id).1 with
          allOrders := s.allOrders.erase id } log) := by
  have hmem := cancelInSide_mem (ownSide s e.type) e.price id (keys_nodup h.ordered e.type)
  have hsub := cancelInSide_resting (ownSide s e.type) e.price id
  generalize hside : e.type = side at *
  generalize hr : cancelInSide (ownSide s side) e.price id = r at *
  have hrest : ∀ t, (restingOrders (ownSide (setOwnSide s side r.1) t)).Sublist
      (restingOrders (ownSide s t)) := by
    intro t
    rcases side_cases side t with rfl | rfl
    · rw [ownSide_setOwnSide_self]; exact hsub
    · rw [ownSide_setOwnSide_other]
  have hkeyed : ∀ t, ∀ l ∈ ownSide (setOwnSide s side r.1) t, ∀ o ∈ l.2,
      o.price = l.1 ∧ o.type = t := by
    intro t l hl o ho
    rcases side_cases side t with rfl | rfl
    · rw [ownSide_setOwnSide_self] at hl
      rcases hmem l hl with ⟨hl, _⟩ | ⟨hl, _⟩ | ⟨hl, _, hg⟩
      · exact h.keyed _ l hl o ho
      · exact h.keyed _ l hl o ho
      · subst hl
        exact h.keyed _ _ hg o (List.mem_of_mem_filter ho)
    · rw [ownSide_setOwnSide_other] at hl
      exact h.keyed _ l hl o ho
  have hbase : EngineInv (setOwnSide s side r.1) log := by
    refine ⟨hord, ?_, hkeyed, ?_, ?_, ?_, ?_, ?_, ?_, ?_, ?_⟩
    · intro t l hl
      rcases side_cases side t with rfl | rfl
      · rw [ownSide_setOwnSide_self] at hl
        rcases hmem l hl with ⟨hl, _⟩ | ⟨hl, _⟩ | ⟨_, hl, _⟩
        · exact h.nonempty _ l hl
        · exact h.nonempty _ l hl
        · exact hl
      · rw [ownSide_setOwnSide_other] at hl
        exact h.nonempty _ l hl
    · intro t o ho
      exact h.isOpen t o ((hrest t).subset ho)
    · intro t o ho
      rw [nextOrderId_setOwnSide]
      exact h.idRange t o ((hrest t).subset ho)
    · intro t
      exact (h.nodup t).sublist ((hrest t).map Order.id)
    · intro t o ho
      rw [allOrders_setOwnSide]
      exact h.index t o ((hrest t).subset ho)
    · intro j e1 he1
      rw [allOrders_setOwnSide] at he1
      rw [nextOrderId_setOwnSide]
      exact h.indexRange j e1 he1
    · rw [nextOrderId_setOwnSide]
      exact h.counters
    · intro t ht t1
      rw [nextOrderId_setOwnSide]
      exact h.logIds t ht t1
    · intro t o ho
      exact h.conserved t o ((hrest t).subset ho)
  refine ⟨hbase, fun hrem => ?_⟩
  -- no order left in the book carries the cancelled id
  have hgone : ∀ t, ∀ o ∈ restingOrders (ownSide (setOwnSide s side r.1) t), o.id ≠ id := by
    intro t o ho hid
    obtain ⟨e1, he1, hst, _⟩ := h.index t o ((hrest t).subset ho)
    rw [hid, he] at he1
    have hee : e = e1 := Option.some.inj he1
    subst hee
    obtain ⟨l, hl, hol⟩ := mem_restingOrders.mp ho
    have hk := hkeyed t l hl o hol
    have hts : t = side := by rw [← hk.2, ← static_type hst, hside]
    subst hts
    rw [ownSide_setOwnSide_self] at hl
    have hlp : l.1 = e.price := by rw [← hk.1, static_price hst]
    rcases hmem l hl with ⟨_, hf⟩ | ⟨_, hne⟩ | ⟨hl1, _, _⟩
    · rw [hrem] at hf; exact Bool.noConfusion hf
    · exact hne hlp
    · subst hl1
      have := (List.mem_filter.mp hol).2
      simp [hid] at this
  exact
    { ordered := ⟨hbase.ordered.sells, hbase.ordered.buys, hbase.ordered.nocross⟩
      nonempty := fun t l hl => hbase.nonempty t l (by cases t <;> exact hl)
      keyed := fun t l hl => hbase.keyed t l (by cases t <;> exact hl)
      isOpen := fun t o ho => hbase.isOpen t o (by cases t <;> exact ho)
      idRange := fun t o ho => hbase.idRange t o (by cases t <;> exact ho)
      nodup := fun t => by have := hbase.nodup t; cases t <;> exact this
      index := fun t o ho => by
        have ho1 : o ∈ restingOrders (ownSide (setOwnSide s side r.1) t) := by
          cases t <;> exact ho
        obtain ⟨e1, he1, hst, hf⟩ := hbase.index t o ho1
        refine ⟨e1, ?_, hst, hf⟩
        show (s.allOrders.erase id).find o.id = some e1
        rw [OrderIndex.find_erase_ne _ _ _ (hgone t o ho1)]
        rwa [allOrders_setOwnSide] at he1
      indexRange := fun j e1 he1 => by
        have he2 : (s.allOrders.erase id).find j = some e1 := he1
        by_cases hj : j = id
        · rw [hj, OrderIndex.find_erase_self] at he2
          exact Option.noConfusion he2
        · rw [OrderIndex.find_erase_ne _ _ _ hj] at he2
          have := h.indexRange j e1 he2
          exact ⟨this.1, this.2.1, by
            show j < (setOwnSide s side r.1).nextOrderId
            rw [nextOrderId_setOwnSide]; exact this.2.2⟩
      counters := hbase.counters
      logIds := hbase.logIds
      conserved := fun t o ho => hbase.conserved t o (by cases t <;> exact ho) }

theorem engineInv_cancelOrder (s : OrderBook) (log : List Trade) (id : Int)
    (h : EngineInv s log) :
    EngineInv (cancelOrder s id).state (log ++ (cancelOrder s id).trades) := by
  have hord := bookOrdered_cancelOrder s id h.ordered
  cases he : s.allOrders.find id with
  | none =>
    rw [cancelOrder_not_found s id he]
    simpa using h
  | some e =>
    cases hf : e.is_filled with
    | true =>
      rw [cancelOrder_filled s id e he hf]
      simpa using h
    | false =>
      rw [cancelOrder_scan s id e he hf] at hord ⊢
      split_ifs at hord ⊢ with hrem
      · simp only [List.append_nil]
        refine (engineInv_cancel_scan s log id e h he ?_).2 hrem
        exact ⟨hord.sells, hord.buys, hord.nocross⟩
      · simp only [List.append_nil]
        exact (engineInv_cancel_scan s log id e h he hord).1

theorem engineInv_step (s : OrderBook) (log : List Trade) (c : Command) (h : EngineInv s log) :
    EngineInv (step s c).state (log ++ (step s c).trades) := by
  cases c with
  | place side price quantity now clk => exact engineInv_placeOrder s log side _ _ _ _ h
  | cancel id => exact engineInv_cancelOrder s log id h

theorem engineInv_runFrom (cs : List Command) :
    ∀ (s : OrderBook) (log : List Trade), EngineInv s log →
      EngineInv (runFrom s log cs).1 (runFrom s log cs).2 := by
  induction cs with
  | nil => intro s log h; exact h
  | cons c cs ih => intro s log h; exact ih _ _ (engineInv_step s log c h)

theorem engineInv_run (cs : List Command) : EngineInv (run cs).1 (run cs).2 :=
  engineInv_runFrom cs fresh [] engineInv_fresh

/-! ### Conservation and fill bounds of resting orders -/

/-- Claim C6 (fill bounds of resting orders). In every state reached from a fresh
engine, every order in a queue of `buyOrders` or `sellOrders` has
`0 <= filled_quantity < quantity`: it is not over-filled and something remains. -/
theorem resting_fill_bounds (cs : List Command) (l : Level)
    (hl : l ∈ (run cs).1.buyOrders ∨ l ∈ (run cs).1.sellOrders) (o : Order) (ho : o ∈ l.2) :
    0 ≤ o.filled_quantity ∧ o.filled_quantity < o.quantity ∧ o.remaining ≠ 0 ∧
      o.is_filled = false := by
  have hopen : o.isOpen := by
    rcases hl with hl | hl
    · exact (engineInv_run cs).isOpen .BUY o (mem_restingOrders.mpr ⟨l, hl, ho⟩)
    · exact (engineInv_run cs).isOpen .SELL o (mem_restingOrders.mpr ⟨l, hl, ho⟩)
  have hrem : o.remaining ≠ 0 := by
    have h1 := hopen.2
    simp only [Order.remaining]
    omega
  exact ⟨hopen.1, hopen.2, hrem, by simpa [Order.is_filled] using hrem⟩

/-- Scenario S3: the partly filled order 2 rests with 4 of 7 filled. -/
theorem resting_fill_bounds_witness :
    0 ≤ (⟨2, .SELL, 100, 7, 4, 0⟩ : Order).filled_quantity ∧
      (⟨2, .SELL, 100, 7, 4, 0⟩ : Order).filled_quantity <
        (⟨2, .SELL, 100, 7, 4, 0⟩ : Order).quantity ∧
      (⟨2, .SELL, 100, 7, 4, 0⟩ : Order).remaining ≠ 0 ∧
      (⟨2, .SELL, 100, 7, 4, 0⟩ : Order).is_filled = false :=
  resting_fill_bounds [.place .SELL 100 5 0 clock0, .place .SELL 100 7 0 clock0,
    .place .BUY 100 9 0 clock0] (100, [⟨2, .SELL, 100, 7, 4, 0⟩]) (Or.inr (by decide))
    ⟨2, .SELL, 100, 7, 4, 0⟩ (by decide)

/-! ### The order index -/

/-- The reading of "index consistency" with both inclusions: an id is a key of
`allOrders` exactly when an order with that id rests in the book. -/
def IndexConsistent (s : OrderBook) : Prop :=
  ∀ id : Int, (s.allOrders.find id).isSome = true ↔
    ∃ o ∈ restingOrders s.buyOrders ++ restingOrders s.sellOrders, o.id = id

theorem find_placeOrder_isSome (s : OrderBook) (side : OrderType) (price quantity now : Int)
    (clk : Nat → Int) (id : Int) (h : (s.allOrders.find id).isSome = true) :
    ((placeOrder s side price quantity now clk).state.allOrders.find id).isSome = true := by
  by_cases hv : price ≤ 0 ∨ quantity ≤ 0
  · rw [placeOrder_invalid _ _ _ _ _ _ hv]; exact h
  · rw [placeOrder_valid _ _ _ _ _ _ hv]
    have key : ∀ o : Order, ((s.allOrders.assign s.nextOrderId o).find id).isSome = true := by
      intro o
      by_cases hid : id = s.nextOrderId
      · rw [hid, OrderIndex.find_assign_self]; rfl
      · rw [OrderIndex.find_assign_ne _ _ _ _ hid]; exact h
    simp only []
    split_ifs <;> simp only [allOrders_restOrder, allOrders_afterMatch] <;> exact key _

theorem find_placeOrder_new (s : OrderBook) (side : OrderType) (price quantity now : Int)
    (clk : Nat → Int) (hv : ¬ (price ≤ 0 ∨ quantity ≤ 0)) :
    ((placeOrder s side price quantity now clk).state.allOrders.find s.nextOrderId).isSome =
      true := by
  rw [placeOrder_valid _ _ _ _ _ _ hv]
  simp only []
  split_ifs <;>
    simp only [allOrders_restOrder, allOrders_afterMatch, OrderIndex.find_assign_self] <;> rfl

/-- The inclusion of the book in the index. In every state reached from a fresh
engine, every order in a queue of `buyOrders` or `sellOrders` has an entry in
`allOrders` under its id, with the same id, side, price and quantity, and every key
of `allOrders` is an id that was issued (`1 <= id < nextOrderId`). -/
theorem index_covers_book (cs : List Command) :
    (∀ l, l ∈ (run cs).1.buyOrders ∨ l ∈ (run cs).1.sellOrders → ∀ o ∈ l.2,
      ∃ e, (run cs).1.allOrders.find o.id = some e ∧ e.id = o.id ∧ e.type = o.type ∧
        e.price = o.price ∧ e.quantity = o.quantity) ∧
    (∀ id e, (run cs).1.allOrders.find id = some e → 1 ≤ id ∧ id < (run cs).1.nextOrderId) := by
  refine ⟨fun l hl o ho => ?_, fun id e he => ((engineInv_run cs).indexRange id e he).2⟩
  have hidx : ∃ e, (run cs).1.allOrders.find o.id = some e ∧ e.static = o.static ∧
      e.is_filled = false := by
    rcases hl with hl | hl
    · exact (engineInv_run cs).index .BUY o (mem_restingOrders.mpr ⟨l, hl, ho⟩)
    · exact (engineInv_run cs).index .SELL o (mem_restingOrders.mpr ⟨l, hl, ho⟩)
  obtain ⟨e, he, hst, _⟩ := hidx
  exact ⟨e, he, static_id hst, static_type hst, static_price hst, static_quantity hst⟩

/-- Scenario S3: the partly filled order 2 rests at level 100 and is indexed under
its id with its side, price and quantity. -/
theorem index_covers_book_witness :
    ∃ e, (run [.place .SELL 100 5 0 clock0, .place .SELL 100 7 0 clock0,
        .place .BUY 100 9 0 clock0]).1.allOrders.find (⟨2, .SELL, 100, 7, 4, 0⟩ : Order).id =
          some e ∧ e.id = (⟨2, .SELL, 100, 7, 4, 0⟩ : Order).id ∧
        e.type = (⟨2, .SELL, 100, 7, 4, 0⟩ : Order).type ∧
        e.price = (⟨2, .SELL, 100, 7, 4, 0⟩ : Order).price ∧
        e.quantity = (⟨2, .SELL, 100, 7, 4, 0⟩ : Order).quantity :=
  (index_covers_book [.place .SELL 100 5 0 clock0, .place .SELL 100 7 0 clock0,
    .place .BUY 100 9 0 clock0]).1 (100, [⟨2, .SELL, 100, 7, 4, 0⟩])
    (Or.inr (by decide)) ⟨2, .SELL, 100, 7, 4, 0⟩ (by decide)

/-- Claim C7 (index consistency), evaluated on scenario S2. After ASK(100, 5) and
BID(100, 5) both sides of the book are empty, yet `allOrders` still holds the
entries of ids 1 (filled while resting, with a stale `filled_quantity` of 0) and 2
(filled as aggressor), so the index is not the set of resting ids.  The second loop
of `processTrades`, under the comment "Clean up filled orders from the master
list", only logs, and `placeOrder` never erases; `engine.cpp` erases the filled
aggressor from its index. -/
theorem filled_orders_stay_indexed :
    (run [.place .SELL 100 5 0 clock0, .place .BUY 100 5 0 clock0]).1.buyOrders = [] ∧
      (run [.place .SELL 100 5 0 clock0, .place .BUY 100 5 0 clock0]).1.sellOrders = [] ∧
      (run [.place .SELL 100 5 0 clock0, .place .BUY 100 5 0 clock0]).1.allOrders =
        [(1, ⟨1, .SELL, 100, 5, 0, 0⟩), (2, ⟨2, .BUY, 100, 5, 5, 0⟩)] ∧
      ¬ IndexConsistent (run [.place .SELL 100 5 0 clock0, .place .BUY 100 5 0 clock0]).1 := by
  refine ⟨by decide, by decide, by decide, fun h => ?_⟩
  have h1 := (h 1).mp (by decide)
  revert h1
  decide

/-! ### Rejected calls -/

theorem placeOrder_valid_error (s : OrderBook) (side : OrderType) (price quantity now : Int)
    (clk : Nat → Int) (hv : ¬ (price ≤ 0 ∨ quantity ≤ 0)) :
    (placeOrder s side price quantity now clk).error ≠ some .invalid_argument := by
  rw [placeOrder_valid _ _ _ _ _ _ hv]
  simp only []
  split_ifs <;> simp

/-- Claim C8 (rejected order). `placeOrder` throws `invalid_argument` exactly when
`price <= 0` or `quantity <= 0`, and then the engine state (both maps, `allOrders`
and the two id counters) is the state before the call and no trade is emitted. -/
theorem placeOrder_rejects (s : OrderBook) (side : OrderType) (price quantity now : Int)
    (clk : Nat → Int) :
    ((placeOrder s side price quantity now clk).error = some .invalid_argument ↔
      (price ≤ 0 ∨ quantity ≤ 0)) ∧
    ((price ≤ 0 ∨ quantity ≤ 0) →
      (placeOrder s side price quantity now clk).state = s ∧
      (placeOrder s side price quantity now clk).trades = []) := by
  refine ⟨⟨fun h => ?_, fun h => ?_⟩, fun h => ?_⟩
  · by_contra hv
    exact placeOrder_valid_error s side price quantity now clk hv h
  · rw [placeOrder_invalid _ _ _ _ _ _ h]
  · rw [placeOrder_invalid _ _ _ _ _ _ h]
    exact ⟨rfl, rfl⟩

/-- With ASK(100, 5) resting, a BUY of quantity 0 at a crossing price is rejected:
the state is unchanged and nothing trades. -/
theorem placeOrder_rejects_witness :
    (placeOrder (run [.place .SELL 100 5 0 clock0]).1 .BUY 100 0 0 clock0).state =
        (run [.place .SELL 100 5 0 clock0]).1 ∧
      (placeOrder (run [.place .SELL 100 5 0 clock0]).1 .BUY 100 0 0 clock0).trades = [] :=
  (placeOrder_rejects (run [.place .SELL 100 5 0 clock0]).1 .BUY 100 0 0 clock0).2
    (Or.inr (by decide))

theorem cancelInSide_removed (m : PriceMap) (price id : Int)
    (h : (cancelInSide m price id).2 = true) :
    (price, m.get price) ∈ m ∧ ∃ o ∈ m.get price, o.id = id := by
  simp only [cancelInSide] at h
  split_ifs at h with h1 h2
  · refine ⟨PriceMap.get_mem m price h1, ?_⟩
    simpa [removeFromQueue] using h
  · refine ⟨PriceMap.get_mem m price h1, ?_⟩
    simpa [removeFromQueue] using h

theorem cancelInSide_removed_of_mem (m : PriceMap) (l : Level) (hl : l ∈ m)
    (hk : (m.map Prod.fst).Nodup) (o : Order) (ho : o ∈ l.2) :
    (cancelInSide m l.1 o.id).2 = true := by
  have hc := PriceMap.count_of_mem m l hl
  have hg := PriceMap.get_of_mem m l hl hk
  have hany : (removeFromQueue o.id (m.get l.1)).2 = true := by
    simp only [removeFromQueue, List.any_eq_true, beq_iff_eq]
    exact ⟨o, hg ▸ ho, rfl⟩
  simp only [cancelInSide, hc, ↓reduceIte]
  split_ifs <;> exact hany

theorem cancelInSide_not_removed (m : PriceMap) (price id : Int)
    (hne : ∀ l ∈ m, l.2 ≠ []) (h : (cancelInSide m price id).2 = false) :
    (cancelInSide m price id).1 = m := by
  simp only [cancelInSide] at h ⊢
  split_ifs at h ⊢ with h1 h2
  · exfalso
    have hq := removeFromQueue_fst_of_not_removed id (m.get price) h
    rw [hq, PriceMap.setAt_get] at h2
    exact hne _ (PriceMap.get_mem m price h1) (by simpa [List.isEmpty_iff] using h2)
  · have hq := removeFromQueue_fst_of_not_removed id (m.get price) h
    simp only [hq, PriceMap.setAt_get]
  · rfl

theorem cancelOrder_error_none_iff (s : OrderBook) (id : Int) :
    (cancelOrder s id).error = none ↔
      ∃ e, s.allOrders.find id = some e ∧ e.is_filled = false ∧
        (cancelInSide (ownSide s e.type) e.price id).2 = true := by
  cases he : s.allOrders.find id with
  | none => simp [cancelOrder_not_found s id he]
  | some e =>
    cases hf : e.is_filled with
    | true => simp [cancelOrder_filled s id e he hf, hf]
    | false =>
      rw [cancelOrder_scan s id e he hf]
      split_ifs with hrem
      · simp [hf, hrem]
      · simp [hrem]

/-- Claim C10 (a failed cancel changes nothing). In every state reached from a fresh
engine, when `cancelOrder(id)` throws, on the missing-id branch, on the
already-filled branch or after the scan that rebuilt the queue of the level, the
two maps, `allOrders` and the two id counters are what they were before the call,
and no trade is emitted. -/
theorem failed_cancel_atomic (cs : List Command) (id : Int)
    (h : (cancelOrder (run cs).1 id).error ≠ none) :
    (cancelOrder (run cs).1 id).state = (run cs).1 ∧
      (cancelOrder (run cs).1 id).trades = [] := by
  have hinv := engineInv_run cs
  generalize (run cs).1 = s at *
  cases he : s.allOrders.find id with
  | none => rw [cancelOrder_not_found s id he]; exact ⟨rfl, rfl⟩
  | some e =>
    cases hf : e.is_filled with
    | true => rw [cancelOrder_filled s id e he hf]; exact ⟨rfl, rfl⟩
    | false =>
      rw [cancelOrder_scan s id e he hf] at h ⊢
      split_ifs at h ⊢ with hrem
      · exact absurd rfl h
      · have hsame := cancelInSide_not_removed (ownSide s e.type) e.price id
          (hinv.nonempty e.type) (by simpa using hrem)
        rw [hsame, setOwnSide_self]
        exact ⟨rfl, rfl⟩

/-- Scenario S3, then the cancel of id 1, which was filled while resting: its stale
entry in `allOrders` sends the call into the scan of level 100, where order 2
rests; the queue is rebuilt, nothing is removed, the call throws and the state is
the one before the call. -/
theorem failed_cancel_atomic_witness :
    (cancelOrder (run [.place .SELL 100 5 0 clock0, .place .SELL 100 7 0 clock0,
        .place .BUY 100 9 0 clock0]).1 1).error = some .not_in_book ∧
      (cancelOrder (run [.place .SELL 100 5 0 clock0, .place .SELL 100 7 0 clock0,
        .place .BUY 100 9 0 clock0]).1 1).state =
        (run [.place .SELL 100 5 0 clock0, .place .SELL 100 7 0 clock0,
          .place .BUY 100 9 0 clock0]).1 ∧
      (cancelOrder (run [.place .SELL 100 5 0 clock0, .place .SELL 100 7 0 clock0,
        .place .BUY 100 9 0 clock0]).1 1).trades = [] :=
  ⟨by decide,
    failed_cancel_atomic [.place .SELL 100 5 0 clock0, .place .SELL 100 7 0 clock0,
      .place .BUY 100 9 0 clock0] 1 (by decide)⟩

/-! ### The effect of a successful cancel -/

theorem processTrades_ok (s : OrderBook) (log : List Trade) (side : OrderType)
    (price quantity now : Int) (clk : Nat → Int) (h : EngineInv s log) :
    processTrades
      (afterMatch s side
        (matchOrder side clk (newOrder s side price quantity now) (oppSide s side)
          s.nextTradeId)).allOrders
      (matchOrder side clk (newOrder s side price quantity now) (oppSide s side)
        s.nextTradeId).trades = true := by
  simp only [matchOrder, oppSide_eq]
  obtain ⟨new, hnew, hnames, -, -⟩ := levelsRun_new side clk (ownSide s side.other)
    (newOrder s side price quantity now) s.nextTradeId []
  rw [List.nil_append] at hnew
  generalize levelsRun side clk (newOrder s side price quantity now) s.nextTradeId []
    (ownSide s side.other) = m at *
  subst hnew
  have key : ∀ t ∈ m.trades, ∀ t1 : OrderType,
      ((s.allOrders.assign s.nextOrderId m.order).find (incomingId t1 t)).isSome = true := by
    intro t ht t1
    rcases side_cases side t1 with rfl | rfl
    · rw [(hnames t ht).1]
      show ((s.allOrders.assign s.nextOrderId m.order).find s.nextOrderId).isSome = true
      rw [OrderIndex.find_assign_self]
      rfl
    · rw [incomingId_other]
      obtain ⟨o0, ho0, hid⟩ := List.mem_map.mp (hnames t ht).2
      have hr := h.idRange _ o0 ho0
      obtain ⟨e, he, _, _⟩ := h.index _ o0 ho0
      rw [← hid, OrderIndex.find_assign_ne _ _ _ _ (by omega), he]
      rfl
  simp only [processTrades, allOrders_afterMatch, List.all_eq_true, Bool.and_eq_true]
  exact fun t ht => ⟨key t ht .BUY, key t ht .SELL⟩

/-- In a state that satisfies the invariant a valid `placeOrder` does not throw: it
ends after matching when the incoming order is filled and after the push of the
residual otherwise. -/
theorem placeOrder_ok (s : OrderBook) (log : List Trade) (side : OrderType)
    (price quantity now : Int) (clk : Nat → Int) (h : EngineInv s log)
    (hv : ¬ (price ≤ 0 ∨ quantity ≤ 0)) :
    placeOrder s side price quantity now clk =
      if (matchOrder side clk (newOrder s side price quantity now) (oppSide s side)
          s.nextTradeId).order.is_filled then
        ⟨afterMatch s side
          (matchOrder side clk (newOrder s side price quantity now) (oppSide s side)
            s.nextTradeId),
          (matchOrder side clk (newOrder s side price quantity now) (oppSide s side)
            s.nextTradeId).trades, none⟩
      else
        ⟨restOrder (afterMatch s side
            (matchOrder side clk (newOrder s side price quantity now) (oppSide s side)
              s.nextTradeId)) side price
            (matchOrder side clk (newOrder s side price quantity now) (oppSide s side)
              s.nextTradeId).order,
          (matchOrder side clk (newOrder s side price quantity now) (oppSide s side)
            s.nextTradeId).trades, none⟩ := by
  rw [placeOrder_valid _ _ _ _ _ _ hv]
  simp only [processTrades_ok s log side price quantity now clk h, ↓reduceIte]

theorem order_eq_of_static {a b : Order} (h : a.static = b.static)
    (hf : a.filled_quantity = b.filled_quantity) : a = b := by
  cases a
  cases b
  simp only [Order.static, Order.mk.injEq] at h
  simp only [Order.mk.injEq]
  simp only at hf
  tauto

/-- The incoming order as the matcher returns it: the record built by `placeOrder`
with `filled_quantity` set to the total quantity of the trades of the call. -/
theorem matchOrder_order (side : OrderType) (clk : Nat → Int) (s : OrderBook)
    (price quantity now : Int) (book : PriceMap) (tid : Int) :
    (matchOrder side clk (newOrder s side price quantity now) book tid).order =
      ⟨s.nextOrderId, side, price, quantity,
        ((matchOrder side clk (newOrder s side price quantity now) book tid).trades.map
          Trade.quantity).sum, now⟩ := by
  obtain ⟨new, hnew, -, hsum, -⟩ := levelsRun_new side clk book
    (newOrder s side price quantity now) tid []
  rw [List.nil_append] at hnew
  have hst := levelsRun_order_static side clk book (newOrder s side price quantity now) tid []
  refine order_eq_of_static hst ?_
  simp only [matchOrder]
  rw [hsum, hnew]
  simp [newOrder]

theorem PriceMap.pushAt_existing (before : Int → Int → Bool) (pre post : PriceMap)
    (price : Int) (q : List Order) (o : Order)
    (h : ∀ l ∈ pre, l.1 ≠ price ∧ before price l.1 = false) :
    PriceMap.pushAt before (pre ++ (price, q) :: post) price o =
      pre ++ (price, q ++ [o]) :: post := by
  induction pre with
  | nil => simp [PriceMap.pushAt]
  | cons l rest ih =>
    obtain ⟨k, q0⟩ := l
    have h1 := h (k, q0) (List.mem_cons_self _ _)
    simp only [List.cons_append, PriceMap.pushAt, h1.1, h1.2, ↓reduceIte, Bool.false_eq_true]
    exact congrArg _ (ih (fun l hl => h l (List.mem_cons_of_mem _ hl)))

/-- A command that passes the argument check of `placeOrder`. -/
def Command.accepted : Command → Bool
  | .place _ price quantity _ _ => !(decide (price ≤ 0) || decide (quantity ≤ 0))
  | .cancel _ => false

/-- The consecutive ids `t, t + 1, ..., t + n - 1`. -/
def idsFrom (t : Int) : Nat → List Int
  | 0 => []
  | n + 1 => t :: idsFrom (t + 1) n

theorem idsFrom_append (t : Int) (a b : Nat) :
    idsFrom t (a + b) = idsFrom t a ++ idsFrom (t + a) b := by
  induction a generalizing t with
  | zero => simp [idsFrom]
  | succ n ih =>
    have : n + 1 + b = (n + b) + 1 := by omega
    rw [this]
    simp only [idsFrom, List.cons_append, ih (t + 1), Nat.cast_add, Nat.cast_one]
    congr 3
    ring

theorem mem_idsFrom (t : Int) (n : Nat) (x : Int) :
    x ∈ idsFrom t n ↔ t ≤ x ∧ x < t + n := by
  induction n generalizing t with
  | zero => simp only [idsFrom, List.not_mem_nil, CharP.cast_eq_zero, add_zero, false_iff]; omega
  | succ n ih =>
    simp only [idsFrom, List.mem_cons, ih (t + 1), Nat.cast_add, Nat.cast_one]
    omega

theorem idsFrom_nodup (t : Int) (n : Nat) : (idsFrom t n).Nodup := by
  induction n generalizing t with
  | zero => simp [idsFrom]
  | succ n ih =>
    simp only [idsFrom, List.nodup_cons, mem_idsFrom, ih (t + 1), and_true]
    omega

theorem placeOrder_nextOrderId (s : OrderBook) (side : OrderType) (price quantity now : Int)
    (clk : Nat → Int) :
    (placeOrder s side price quantity now clk).state.nextOrderId =
      s.nextOrderId + (if price ≤ 0 ∨ quantity ≤ 0 then 0 else 1) := by
  by_cases hv : price ≤ 0 ∨ quantity ≤ 0
  · rw [placeOrder_invalid _ _ _ _ _ _ hv, if_pos hv, add_zero]
  · rw [placeOrder_valid _ _ _ _ _ _ hv, if_neg hv]
    simp only []
    split_ifs <;> simp

theorem cancelOrder_counters (s : OrderBook) (id : Int) :
    (cancelOrder s id).state.nextOrderId = s.nextOrderId ∧
      (cancelOrder s id).state.nextTradeId = s.nextTradeId ∧ (cancelOrder s id).trades = [] := by
  cases he : s.allOrders.find id with
  | none => rw [cancelOrder_not_found s id he]; exact ⟨rfl, rfl, rfl⟩
  | some e =>
    cases hf : e.is_filled with
    | true => rw [cancelOrder_filled s id e he hf]; exact ⟨rfl, rfl, rfl⟩
    | false =>
      rw [cancelOrder_scan s id e he hf]
      split_ifs
      · exact ⟨nextOrderId_setOwnSide _ _ _, nextTradeId_setOwnSide _ _ _, rfl⟩
      · exact ⟨nextOrderId_setOwnSide _ _ _, nextTradeId_setOwnSide _ _ _, rfl⟩

theorem step_nextOrderId (s : OrderBook) (c : Command) :
    (step s c).state.nextOrderId = s.nextOrderId + (if c.accepted then 1 else 0) := by
  cases c with
  | place side price quantity now clk =>
    simp only [step, placeOrder_nextOrderId, Command.accepted]
    by_cases hv : price ≤ 0 ∨ quantity ≤ 0
    · rcases hv with h | h <;> simp [h]
    · have h1 : ¬ price ≤ 0 := fun h => hv (Or.inl h)
      have h2 : ¬ quantity ≤ 0 := fun h => hv (Or.inr h)
      simp [h1, h2]
  | cancel id => simp [step, (cancelOrder_counters s id).1, Command.accepted]

theorem runFrom_nextOrderId (cs : List Command) :
    ∀ (s : OrderBook) (log : List Trade),
      (runFrom s log cs).1.nextOrderId =
        s.nextOrderId + ((cs.filter Command.accepted).length : Int) := by
  induction cs with
  | nil => intro s log; simp [runFrom]
  | cons c cs ih =>
    intro s log
    simp only [runFrom, ih, step_nextOrderId, List.filter_cons]
    by_cases hc : c.accepted = true
    · simp only [hc, ↓reduceIte, List.length_cons, Nat.cast_add, Nat.cast_one]
      ring
    · simp [hc]

theorem levelRun_tradeIds (side : OrderType) (clk : Nat → Int) (q : List Order) :
    ∀ (inc : Order) (tid : Int) (trades : List Trade),
      ∃ new, (levelRun side clk inc tid trades q).trades = trades ++ new ∧
        new.map Trade.tradeId = idsFrom tid new.length ∧
        (levelRun side clk inc tid trades q).tradeId = tid + new.length := by
  induction q with
  | nil => intro inc tid trades; exact ⟨[], by simp [levelRun, idsFrom]⟩
  | cons r rest ih =>
    intro inc tid trades
    simp only [levelRun]
    split_ifs with hf hr
    · exact ⟨[], by simp [idsFrom]⟩
    · obtain ⟨new, h1, h2, h3⟩ := ih (fill inc (min inc.remaining r.remaining)) (tid + 1)
        (trades ++ [mkTrade side tid inc r (min inc.remaining r.remaining) (clk trades.length)])
      refine ⟨mkTrade side tid inc r (min inc.remaining r.remaining) (clk trades.length) :: new,
        by rw [h1]; simp, ?_, ?_⟩
      · simp only [List.map_cons, tradeId_mkTrade, List.length_cons, idsFrom, h2]
      · rw [h3]
        simp only [List.length_cons, Nat.cast_add, Nat.cast_one]
        ring
    · exact ⟨[mkTrade side tid inc r (min inc.remaining r.remaining) (clk trades.length)],
        rfl, by simp [idsFrom], by simp⟩

theorem levelsRun_tradeIds (side : OrderType) (clk : Nat → Int) (book : PriceMap) :
    ∀ (inc : Order) (tid : Int) (trades : List Trade),
      ∃ new, (levelsRun side clk inc tid trades book).trades = trades ++ new ∧
        new.map Trade.tradeId = idsFrom tid new.length ∧
        (levelsRun side clk inc tid trades book).tradeId = tid + new.length := by
  induction book with
  | nil => intro inc tid trades; exact ⟨[], by simp [levelsRun, idsFrom]⟩
  | cons l0 rest ih =>
    intro inc tid trades
    obtain ⟨p, q⟩ := l0
    obtain ⟨new1, h1, h2, h3⟩ := levelRun_tradeIds side clk q inc tid trades
    obtain ⟨new2, k1, k2, k3⟩ := ih (levelRun side clk inc tid trades q).order
      (levelRun side clk inc tid trades q).tradeId (levelRun side clk inc tid trades q).trades
    have key : ∃ new, (levelsRun side clk (levelRun side clk inc tid trades q).order
          (levelRun side clk inc tid trades q).tradeId
          (levelRun side clk inc tid trades q).trades rest).trades = trades ++ new ∧
        new.map Trade.tradeId = idsFrom tid new.length ∧
        (levelsRun side clk (levelRun side clk inc tid trades q).order
          (levelRun side clk inc tid trades q).tradeId
          (levelRun side clk inc tid trades q).trades rest).tradeId = tid + new.length := by
      refine ⟨new1 ++ new2, by rw [k1, h1, List.append_assoc], ?_, ?_⟩
      · rw [List.map_append, List.length_append, idsFrom_append, h2, k2, h3]
      · rw [k3, h3]
        simp only [List.length_append, Nat.cast_add]
        ring
    simp only [levelsRun]
    split_ifs with hf hp hq
    · exact ⟨[], by simp [idsFrom]⟩
    · exact ⟨[], by simp [idsFrom]⟩
    · exact key
    · exact key

theorem matchOrder_tradeIds (side : OrderType) (clk : Nat → Int) (inc : Order)
    (book : PriceMap) (tid : Int) :
    (matchOrder side clk inc book tid).trades.map Trade.tradeId =
        idsFrom tid (matchOrder side clk inc book tid).trades.length ∧
      (matchOrder side clk inc book tid).tradeId =
        tid + (matchOrder side clk inc book tid).trades.length := by
  obtain ⟨new, h1, h2, h3⟩ := levelsRun_tradeIds side clk book inc tid []
  rw [List.nil_append] at h1
  simp only [matchOrder, h1]
  exact ⟨h2, by rw [h3]⟩

theorem placeOrder_tradeIds (s : OrderBook) (side : OrderType) (price quantity now : Int)
    (clk : Nat → Int) :
    (placeOrder s side price quantity now clk).trades.map Trade.tradeId =
        idsFrom s.nextTradeId (placeOrder s side price quantity now clk).trades.length ∧
      (placeOrder s side price quantity now clk).state.nextTradeId =
        s.nextTradeId + (placeOrder s side price quantity now clk).trades.length := by
  by_cases hv : price ≤ 0 ∨ quantity ≤ 0
  · rw [placeOrder_invalid _ _ _ _ _ _ hv]
    simp [idsFrom]
  · rw [placeOrder_valid _ _ _ _ _ _ hv]
    have := matchOrder_tradeIds side clk (newOrder s side price quantity now) (oppSide s side)
      s.nextTradeId
    simp only []
    split_ifs <;> simpa using this

theorem step_tradeIds (s : OrderBook) (c : Command) :
    (step s c).trades.map Trade.tradeId = idsFrom s.nextTradeId (step s c).trades.length ∧
      (step s c).state.nextTradeId = s.nextTradeId + (step s c).trades.length := by
  cases c with
  | place side price quantity now clk => exact placeOrder_tradeIds s side price quantity now clk
  | cancel id =>
    have := cancelOrder_counters s id
    simp [step, this.2.1, this.2.2, idsFrom]

theorem runFrom_tradeIds (cs : List Command) :
    ∀ (s : OrderBook) (log : List Trade),
      log.map Trade.tradeId = idsFrom 1 log.length → s.nextTradeId = 1 + log.length →
      (runFrom s log cs).2.map Trade.tradeId = idsFrom 1 (runFrom s log cs).2.length ∧
        (runFrom s log cs).1.nextTradeId = 1 + (runFrom s log cs).2.length := by
  induction cs with
  | nil => intro s log h1 h2; exact ⟨h1, h2⟩
  | cons c cs ih =>
    intro s log h1 h2
    have hs := step_tradeIds s c
    refine ih _ _ ?_ ?_
    · rw [List.map_append, List.length_append, idsFrom_append, h1, hs.1, h2]
    · rw [hs.2, h2]
      simp only [List.length_append, Nat.cast_add]
      ring

/-! ## orderbook.cpp: `showBook` -/

/-- One line of the output of `showBook`: `<empty>`, or the remaining quantity of
the front order of a level and the price of that level.  `noFront` stands for the
call of `front()` on an empty queue, which C++ leaves undefined. -/
inductive TopLine where
  | empty
  | top (remaining price : Int)
  | noFront
deriving DecidableEq, Repr

/-- The line printed for the level an iterator points to. -/
def topLineOf : Option Level → TopLine
  | none => .empty
  | some (_, []) => .noFront
  | some (price, o :: _) => .top o.remaining price

/-- What `showBook` writes to the console and the engine it leaves behind. -/
structure ShowOutput where
  topSell : TopLine
  topBuy : TopLine
  state : OrderBook
deriving DecidableEq, Repr

/-- Source: `OrderBook::showBook() const`.  The sell line is taken at
`sellOrders.rbegin()`, the last entry of the map; the buy line at
`buyOrders.begin()`, the first entry. -/
def showBook (s : OrderBook) : ShowOutput :=
  ⟨topLineOf s.sellOrders.getLast?, topLineOf s.buyOrders.head?, s⟩

/-- Claim C15, the code at a failing input. With ASK(100, 5) and ASK(105, 7)
resting, the lowest ask is 100 with 5 remaining, and `showBook` reports as top
sell 7 @ 105, the highest ask. -/
theorem showBook_top_sell_is_last :
    (run [.place .SELL 100 5 0 clock0, .place .SELL 105 7 0 clock0]).1.sellOrders =
        [(100, [⟨1, .SELL, 100, 5, 0, 0⟩]), (105, [⟨2, .SELL, 105, 7, 0, 0⟩])] ∧
      (showBook (run [.place .SELL 100 5 0 clock0, .place .SELL 105 7 0 clock0]).1).topSell =
        .top 7 105 ∧
      (showBook (run [.place .SELL 100 5 0 clock0, .place .SELL 105 7 0 clock0]).1).topSell ≠
        .top 5 100 := by
  decide

/-! ## Persistence.cpp

Files are texts, `List Char`; a file that cannot be opened is `none`.  The machine
ranges matter here: `stoi` throws `out_of_range` outside the 32-bit `int`, `stol`
outside the 64-bit `long` (`time_t`). -/

/-- The decimal digit `d < 10` as a character. -/
def digitChar (d : Nat) : Char := Char.ofNat (48 + d)

/-- The decimal digits of `n` in front of `acc`; `fuel` bounds the number of digits. -/
def natDigitsAux : Nat → Nat → List Char → List Char
  | 0, _, acc => acc
  | fuel + 1, n, acc =>
    if n < 10 then digitChar n :: acc
    else natDigitsAux fuel (n / 10) (digitChar (n % 10) :: acc)

/-- Source: `operator<<` on a non-negative integer: its decimal digits. -/
def showNat (n : Nat) : List Char := natDigitsAux (n + 1) n []

/-- Source: `operator<<(int)` and `operator<<(long)`: decimal, with a leading minus
sign for a negative value. -/
def showInt : Int → List Char
  | .ofNat n => showNat n
  | .negSucc n => '-' :: showNat (n + 1)

/-- The value of a decimal digit character. -/
def digitVal (c : Char) : Nat := c.toNat - 48

/-- The value of a sequence of decimal digits. -/
def parseDigits (ds : List Char) : Nat := ds.foldl (fun acc c => 10 * acc + digitVal c) 0

/-- Source: `isspace` in the C locale, the characters `strtol` skips first. -/
def isSpace (c : Char) : Bool :=
  c == ' ' || c == '\t' || c == '\n' || c == '\x0b' || c == '\x0c' || c == '\r'

/-- Source: `std::stoi` / `std::stol` on a token, for a result type with the range
`lo .. hi`: leading white space is skipped, one sign is accepted, the longest run
of digits is converted and whatever follows is ignored; `none` stands for the
exception thrown when there is no digit (`invalid_argument`) or the value is out of
range (`out_of_range`). -/
def strtoRange (lo hi : Int) (token : List Char) : Option Int :=
  let cs := token.dropWhile isSpace
  let signed : Bool × List Char :=
    if cs.head? = some '-' then (true, cs.tail)
    else if cs.head? = some '+' then (false, cs.tail)
    else (false, cs)
  let ds := signed.2.takeWhile Char.isDigit
  if ds.isEmpty then none
  else
    let v : Int := if signed.1 then -(parseDigits ds : Int) else (parseDigits ds : Int)
    if lo ≤ v ∧ v ≤ hi then some v else none

/-- Source: `std::stoi`. -/
def stoi (token : List Char) : Option Int := strtoRange (-2147483648) 2147483647 token

/-- Source: `std::stol` with a 64-bit `long`. -/
def stol (token : List Char) : Option Int :=
  strtoRange (-9223372036854775808) 9223372036854775807 token

/-- Source: `getline(ss, token, ',')` on the string stream of one row.  The stream
is `some rest` while it is good and `none` once a read has hit its end.  On a
stream that is not good the call leaves `token` as it was; on a good stream the
token becomes the characters up to the next comma, which is consumed, or up to the
end, which ends the stream. -/
def getField (ss : Option (List Char)) (token : List Char) : Option (List Char) × List Char :=
  match ss with
  | none => (none, token)
  | some cs =>
    match cs.dropWhile (fun c => !(c == ',')) with
    | [] => (none, cs.takeWhile (fun c => !(c == ',')))
    | _ :: rest => (some rest, cs.takeWhile (fun c => !(c == ',')))

/-- Source: the `try` block of `loadOrderType` on one line: five `getline` / `stoi`
pairs (`stol` for the timestamp); `none` when one of the conversions throws. -/
def parseRow (type : OrderType) (line : List Char) : Option Order :=
  let f1 := getField (some line) []
  match stoi f1.2 with
  | none => none
  | some id =>
    let f2 := getField f1.1 f1.2
    match stoi f2.2 with
    | none => none
    | some price =>
      let f3 := getField f2.1 f2.2
      match stoi f3.2 with
      | none => none
      | some quantity =>
        let f4 := getField f3.1 f3.2
        match stoi f4.2 with
        | none => none
        | some filled =>
          let f5 := getField f4.1 f4.2
          match stol f5.2 with
          | none => none
          | some timestamp => some ⟨id, type, price, quantity, filled, timestamp⟩

/-- Source: the lines `getline(in, line)` reads from a file, one per call until the
call fails: the pieces between newline characters, without a piece after the last
newline when nothing follows it. -/
def readLines : List Char → List (List Char)
  | [] => []
  | c :: cs =>
    if c = '\n' then [] :: readLines cs
    else
      match readLines cs with
      | [] => [[c]]
      | l :: ls => (c :: l) :: ls

/-- Source: the `while (getline(in, line))` loop of `loadOrderType`: an empty line
is skipped, a line whose conversion throws is reported and skipped, any other line
is pushed with `orders[o.price].push(o)`. -/
def loadRows (before : Int → Int → Bool) (type : OrderType) :
    List (List Char) → PriceMap → PriceMap
  | [], orders => orders
  | line :: rest, orders =>
    if line.isEmpty then loadRows before type rest orders
    else
      match parseRow type line with
      | none => loadRows before type rest orders
      | some o => loadRows before type rest (orders.pushAt before o.price o)

/-- Source: `PersistenceManager::loadOrderType(filename, type, orders)`; the first
line is the header and is dropped unread. -/
def loadOrderType (before : Int → Int → Bool) (file : Option (List Char)) (type : OrderType)
    (orders : PriceMap) : PriceMap :=
  match file with
  | none => orders
  | some text => loadRows before type ((readLines text).drop 1) orders

/-- Source: `PersistenceManager::loadOrders(buyOrders, sellOrders)`. -/
def loadOrders (buyFile sellFile : Option (List Char)) (buyOrders sellOrders : PriceMap) :
    PriceMap × PriceMap :=
  (loadOrderType buyBefore buyFile .BUY buyOrders,
    loadOrderType sellBefore sellFile .SELL sellOrders)

/-- The header line of the two active-order files. -/
def headerLine : List Char := "OrderID,Price,Quantity,FilledQuantity,Timestamp".toList

/-- The text of one data row, without its newline. -/
def rowLine (o : Order) : List Char :=
  showInt o.id ++ ',' :: (showInt o.price ++ ',' :: (showInt o.quantity ++
    ',' :: (showInt o.filled_quantity ++ ',' :: showInt o.timestamp)))

/-- Source: `exportActiveOrders`, the loop over the copy `q` of one queue. -/
def exportQueue : List Order → List Char
  | [] => []
  | o :: rest => rowLine o ++ '\n' :: exportQueue rest

/-- Source: `exportActiveOrders`, the loop `for (const auto& pair : orders)`. -/
def exportSide : PriceMap → List Char
  | [] => []
  | (_, q) :: rest => exportQueue q ++ exportSide rest

/-- The two files written by `exportActiveOrders` and the two maps after the call. -/
structure ExportResult where
  buyFile : List Char
  sellFile : List Char
  buyOrders : PriceMap
  sellOrders : PriceMap
deriving DecidableEq

/-- Source: `PersistenceManager::exportActiveOrders(buyOrders, sellOrders)`; both
maps are taken by reference to const and only copies of the queues are popped. -/
def exportActiveOrders (buyOrders sellOrders : PriceMap) : ExportResult :=
  ⟨headerLine ++ '\n' :: exportSide buyOrders, headerLine ++ '\n' :: exportSide sellOrders,
    buyOrders, sellOrders⟩

/-! ## orderbook.cpp: the constructor -/

/-- Source: the `while(!q.empty())` loop of the constructor over the copy of one
queue: `allOrders[o.id] = o; nextOrderId = std::max(nextOrderId, o.id + 1)`, where
`o.id + 1` is a sum of 32-bit `int`s. -/
def indexQueue : List Order → OrderIndex × Int → OrderIndex × Int
  | [], acc => acc
  | o :: rest, acc => indexQueue rest (acc.1.assign o.id o, max acc.2 (wrapInt (o.id + 1)))

/-- Source: the `for(const auto& pair : orders)` loop of the constructor. -/
def indexSide : PriceMap → OrderIndex × Int → OrderIndex × Int
  | [], acc => acc
  | (_, q) :: rest, acc => indexSide rest (indexQueue q acc)

/-- Source: `OrderBook::OrderBook(logger)` given the contents of the two
active-order files: load both maps, then fill `allOrders` and raise `nextOrderId`
from the buy side and then from the sell side; `nextTradeId` keeps its initial 1. -/
def OrderBook.construct (buyFile sellFile : Option (List Char)) : OrderBook :=
  let maps := loadOrders buyFile sellFile [] []
  let acc := indexSide maps.2 (indexSide maps.1 ([], 1))
  ⟨acc.2, 1, maps.1, maps.2, acc.1⟩

/-! ### Numbers written and read back -/

theorem digitChar_facts (d : Nat) (h : d < 10) :
    (digitChar d).isDigit = true ∧ digitVal (digitChar d) = d ∧ isSpace (digitChar d) = false ∧
      digitChar d ≠ ',' ∧ digitChar d ≠ '\n' ∧ digitChar d ≠ '-' ∧ digitChar d ≠ '+' := by
  interval_cases d <;> decide

theorem natDigitsAux_acc (fuel n : Nat) (acc : List Char) :
    natDigitsAux fuel n acc = natDigitsAux fuel n [] ++ acc := by
  induction fuel generalizing n acc with
  | zero => simp [natDigitsAux]
  | succ f ih =>
    simp only [natDigitsAux]
    split_ifs
    · simp
    · rw [ih (n / 10) (digitChar (n % 10) :: acc), ih (n / 10) [digitChar (n % 10)]]
      simp

theorem parseDigits_append_one (ds : List Char) (c : Char) :
    parseDigits (ds ++ [c]) = 10 * parseDigits ds + digitVal c := by
  simp [parseDigits, List.foldl_append]

theorem natDigitsAux_spec (fuel : Nat) :
    ∀ n, n < fuel →
      parseDigits (natDigitsAux fuel n []) = n ∧ natDigitsAux fuel n [] ≠ [] ∧
      ∀ c ∈ natDigitsAux fuel n [], c.isDigit = true := by
  induction fuel with
  | zero => intro n h; omega
  | succ f ih =>
    intro n hn
    simp only [natDigitsAux]
    split_ifs with h10
    · have hd := digitChar_facts n h10
      refine ⟨by simp [parseDigits, hd.2.1], by simp, fun c hc => ?_⟩
      rw [List.mem_singleton] at hc
      rw [hc]
      exact hd.1
    · have hlt : n / 10 < f := by omega
      obtain ⟨h1, h2, h3⟩ := ih (n / 10) hlt
      have hd := digitChar_facts (n % 10) (Nat.mod_lt _ (by decide))
      rw [natDigitsAux_acc]
      refine ⟨?_, by simp, fun c hc => ?_⟩
      · rw [parseDigits_append_one, h1, hd.2.1]
        omega
      · rcases List.mem_append.mp hc with hc | hc
        · exact h3 c hc
        · rw [List.mem_singleton] at hc
          rw [hc]
          exact hd.1

theorem showNat_spec (n : Nat) :
    parseDigits (showNat n) = n ∧ showNat n ≠ [] ∧ ∀ c ∈ showNat n, c.isDigit = true :=
  natDigitsAux_spec (n + 1) n (Nat.lt_succ_self n)

theorem isDigit_facts (c : Char) (h : c.isDigit = true) :
    isSpace c = false ∧ c ≠ ',' ∧ c ≠ '\n' ∧ c ≠ '-' ∧ c ≠ '+' := by
  have hne : ∀ k : Char, k.isDigit = false → c ≠ k := by
    intro k hk hck
    rw [hck, hk] at h
    exact Bool.noConfusion h
  refine ⟨?_, hne _ (by decide), hne _ (by decide), hne _ (by decide), hne _ (by decide)⟩
  simp only [isSpace, Bool.or_eq_false_iff, beq_eq_false_iff_ne, ne_eq]
  exact ⟨⟨⟨⟨⟨hne _ (by decide), hne _ (by decide)⟩, hne _ (by decide)⟩, hne _ (by decide)⟩,
    hne _ (by decide)⟩, hne _ (by decide)⟩

theorem takeWhile_all {α : Type} (p : α → Bool) (l : List α) (h : ∀ x ∈ l, p x = true) :
    l.takeWhile p = l := by
  induction l with
  | nil => rfl
  | cons x xs ih =>
    simp only [List.takeWhile, h x (List.mem_cons_self _ _)]
    exact congrArg _ (ih (fun y hy => h y (List.mem_cons_of_mem _ hy)))

theorem strtoRange_digits (lo hi : Int) (n : Nat) (h : lo ≤ (n : Int) ∧ (n : Int) ≤ hi) :
    strtoRange lo hi (showNat n) = some (n : Int) := by
  obtain ⟨h1, h2, h3⟩ := showNat_spec n
  obtain ⟨c, tl, hc⟩ := List.exists_cons_of_ne_nil h2
  have hcd := isDigit_facts c (h3 c (hc ▸ List.mem_cons_self _ _))
  have hdrop : (showNat n).dropWhile isSpace = showNat n := by
    rw [hc]
    simp [List.dropWhile, hcd.1]
  have hhead : ((showNat n).head? = some '-') = False := by
    rw [hc]
    simpa using hcd.2.2.2.1
  have hhead2 : ((showNat n).head? = some '+') = False := by
    rw [hc]
    simpa using hcd.2.2.2.2
  simp only [strtoRange, hdrop, hhead, hhead2, ↓reduceIte, takeWhile_all _ _ h3, h1,
    Bool.false_eq_true]
  have hemp : (showNat n).isEmpty = false := by
    rw [hc]; rfl
  simp [hemp, h]

theorem strtoRange_showInt (lo hi v : Int) (h : lo ≤ v ∧ v ≤ hi) :
    strtoRange lo hi (showInt v) = some v := by
  cases v with
  | ofNat n => exact strtoRange_digits lo hi n h
  | negSucc n =>
    obtain ⟨h1, h2, h3⟩ := showNat_spec (n + 1)
    have hemp : (showNat (n + 1)).isEmpty = false := by
      obtain ⟨c, tl, hc⟩ := List.exists_cons_of_ne_nil h2
      rw [hc]; rfl
    have hsp : isSpace '-' = false := by decide
    have hv : -((n + 1 : Nat) : Int) = Int.negSucc n := by
      rw [Int.negSucc_eq]
      push_cast
      ring
    simp only [strtoRange, showInt, List.dropWhile, hsp, List.head?_cons, ↓reduceIte,
      List.tail_cons, takeWhile_all _ _ h3, h1, hemp, Bool.false_eq_true, hv]
    simp [h]

theorem showInt_chars (v : Int) :
    showInt v ≠ [] ∧ ∀ c ∈ showInt v, c ≠ ',' ∧ c ≠ '\n' := by
  cases v with
  | ofNat n =>
    obtain ⟨_, h2, h3⟩ := showNat_spec n
    exact ⟨h2, fun c hc => ⟨(isDigit_facts c (h3 c hc)).2.1, (isDigit_facts c (h3 c hc)).2.2.1⟩⟩
  | negSucc n =>
    obtain ⟨_, _, h3⟩ := showNat_spec (n + 1)
    refine ⟨by simp [showInt], fun c hc => ?_⟩
    rcases List.mem_cons.mp hc with hc | hc
    · rw [hc]; decide
    · exact ⟨(isDigit_facts c (h3 c hc)).2.1, (isDigit_facts c (h3 c hc)).2.2.1⟩

theorem dropWhile_append_stop {α : Type} (p : α → Bool) (l : List α) (x : α) (rest : List α)
    (h : ∀ y ∈ l, p y = true) (hx : p x = false) : (l ++ x :: rest).dropWhile p = x :: rest := by
  induction l with
  | nil => rw [List.nil_append, List.dropWhile_cons, hx]; rfl
  | cons c tl ih =>
    rw [List.cons_append, List.dropWhile_cons, h c (List.mem_cons_self _ _)]
    exact ih (fun y hy => h y (List.mem_cons_of_mem _ hy))

theorem takeWhile_append_stop {α : Type} (p : α → Bool) (l : List α) (x : α) (rest : List α)
    (h : ∀ y ∈ l, p y = true) (hx : p x = false) : (l ++ x :: rest).takeWhile p = l := by
  induction l with
  | nil => rw [List.nil_append, List.takeWhile_cons, hx]; rfl
  | cons c tl ih =>
    rw [List.cons_append, List.takeWhile_cons, h c (List.mem_cons_self _ _)]
    exact congrArg _ (ih (fun y hy => h y (List.mem_cons_of_mem _ hy)))

theorem dropWhile_all {α : Type} (p : α → Bool) (l : List α) (h : ∀ y ∈ l, p y = true) :
    l.dropWhile p = [] := by
  induction l with
  | nil => rfl
  | cons c tl ih =>
    rw [List.dropWhile_cons, h c (List.mem_cons_self _ _)]
    exact ih (fun y hy => h y (List.mem_cons_of_mem _ hy))

theorem getField_comma (tok rest token0 : List Char) (h : ∀ c ∈ tok, c ≠ ',') :
    getField (some (tok ++ ',' :: rest)) token0 = (some rest, tok) := by
  have hp : ∀ c ∈ tok, (fun c : Char => !(c == ',')) c = true := fun c hc => by
    simpa using h c hc
  have hx : (fun c : Char => !(c == ',')) ',' = false := by decide
  simp only [getField, dropWhile_append_stop _ tok _ rest hp hx,
    takeWhile_append_stop _ tok _ rest hp hx]

theorem getField_end (tok token0 : List Char) (h : ∀ c ∈ tok, c ≠ ',') :
    getField (some tok) token0 = (none, tok) := by
  have hp : ∀ c ∈ tok, (fun c : Char => !(c == ',')) c = true := fun c hc => by
    simpa using h c hc
  simp only [getField, dropWhile_all _ tok hp, takeWhile_all _ tok hp]

/-- The values of the five columns lie in the ranges of their C++ types: `int` for
the first four, the 64-bit `time_t` for the timestamp. -/
@[reducible] def Order.fits (o : Order) : Prop :=
  (-2147483648 ≤ o.id ∧ o.id ≤ 2147483647) ∧ (-2147483648 ≤ o.price ∧ o.price ≤ 2147483647) ∧
    (-2147483648 ≤ o.quantity ∧ o.quantity ≤ 2147483647) ∧
    (-2147483648 ≤ o.filled_quantity ∧ o.filled_quantity ≤ 2147483647) ∧
    (-9223372036854775808 ≤ o.timestamp ∧ o.timestamp ≤ 9223372036854775807)

theorem parseRow_rowLine (type : OrderType) (o : Order) (h : o.fits) :
    parseRow type (rowLine o) =
      some ⟨o.id, type, o.price, o.quantity, o.filled_quantity, o.timestamp⟩ := by
  obtain ⟨h1, h2, h3, h4, h5⟩ := h
  have c1 := fun c hc => ((showInt_chars o.id).2 c hc).1
  have c2 := fun c hc => ((showInt_chars o.price).2 c hc).1
  have c3 := fun c hc => ((showInt_chars o.quantity).2 c hc).1
  have c4 := fun c hc => ((showInt_chars o.filled_quantity).2 c hc).1
  have c5 := fun c hc => ((showInt_chars o.timestamp).2 c hc).1
  simp only [parseRow, rowLine, getField_comma _ _ _ c1, getField_comma _ _ _ c2,
    getField_comma _ _ _ c3, getField_comma _ _ _ c4, getField_end _ _ c5, stoi, stol,
    strtoRange_showInt _ _ _ h1, strtoRange_showInt _ _ _ h2, strtoRange_showInt _ _ _ h3,
    strtoRange_showInt _ _ _ h4, strtoRange_showInt _ _ _ h5]

/-! ### The snapshot files read back -/

theorem rowLine_chars (o : Order) : rowLine o ≠ [] ∧ ∀ c ∈ rowLine o, c ≠ '\n' := by
  have h1 := showInt_chars o.id
  have h2 := showInt_chars o.price
  have h3 := showInt_chars o.quantity
  have h4 := showInt_chars o.filled_quantity
  have h5 := showInt_chars o.timestamp
  refine ⟨by simp [rowLine, h1.1], fun c hc => ?_⟩
  have hcomma : (',' : Char) ≠ '\n' := by decide
  simp only [rowLine, List.mem_append, List.mem_cons] at hc
  rcases hc with hc | rfl | hc | rfl | hc | rfl | hc | rfl | hc
  · exact (h1.2 c hc).2
  · exact hcomma
  · exact (h2.2 c hc).2
  · exact hcomma
  · exact (h3.2 c hc).2
  · exact hcomma
  · exact (h4.2 c hc).2
  · exact hcomma
  · exact (h5.2 c hc).2

theorem readLines_line (l rest : List Char) (h : ∀ c ∈ l, c ≠ '\n') :
    readLines (l ++ '\n' :: rest) = l :: readLines rest := by
  induction l with
  | nil => simp [readLines]
  | cons c tl ih =>
    have hc := h c (List.mem_cons_self _ _)
    rw [List.cons_append, readLines, if_neg hc, ih (fun x hx => h x (List.mem_cons_of_mem _ hx))]

theorem readLines_exportQueue (q : List Order) (tail : List Char) :
    readLines (exportQueue q ++ tail) = q.map rowLine ++ readLines tail := by
  induction q with
  | nil => rfl
  | cons o rest ih =>
    simp only [exportQueue, List.append_assoc, List.cons_append, List.map_cons]
    rw [readLines_line _ _ (rowLine_chars o).2, ih]

theorem readLines_exportSide (book : PriceMap) :
    readLines (exportSide book) = (restingOrders book).map rowLine := by
  induction book with
  | nil => rfl
  | cons l rest ih =>
    obtain ⟨p, q⟩ := l
    simp only [exportSide, restingOrders, List.map_append]
    rw [readLines_exportQueue, ih]

theorem readLines_file (book : PriceMap) :
    readLines (headerLine ++ '\n' :: exportSide book) =
      headerLine :: (restingOrders book).map rowLine := by
  rw [readLines_line _ _ (by decide), readLines_exportSide]

/-- The order read back from a row: the five columns and the side of the file. -/
def retype (type : OrderType) (o : Order) : Order :=
  ⟨o.id, type, o.price, o.quantity, o.filled_quantity, o.timestamp⟩

/-- The map after the orders `os` have been pushed one by one, each at its price. -/
def pushAll (before : Int → Int → Bool) (orders : PriceMap) (os : List Order) : PriceMap :=
  os.foldl (fun m o => m.pushAt before o.price o) orders

theorem loadRows_rendered (before : Int → Int → Bool) (type : OrderType) (os : List Order) :
    ∀ orders : PriceMap, (∀ o ∈ os, o.fits) →
      loadRows before type (os.map rowLine) orders =
        pushAll before orders (os.map (retype type)) := by
  induction os with
  | nil => intro orders _; rfl
  | cons o rest ih =>
    intro orders h
    have hne : (rowLine o).isEmpty = false := by
      obtain ⟨c, tl, hc⟩ := List.exists_cons_of_ne_nil (rowLine_chars o).1
      rw [hc]; rfl
    simp only [List.map_cons, loadRows, hne, Bool.false_eq_true, ↓reduceIte,
      parseRow_rowLine type o (h o (List.mem_cons_self _ _)), pushAll, List.foldl_cons]
    exact ih _ (fun x hx => h x (List.mem_cons_of_mem _ hx))

theorem PriceMap.pushAt_last (before : Int → Int → Bool) (acc : PriceMap) (price : Int)
    (o : Order) (h : ∀ l ∈ acc, l.1 ≠ price ∧ before price l.1 = false) :
    PriceMap.pushAt before acc price o = acc ++ [(price, [o])] := by
  induction acc with
  | nil => rfl
  | cons l rest ih =>
    obtain ⟨k, q0⟩ := l
    have h1 := h (k, q0) (List.mem_cons_self _ _)
    simp only [PriceMap.pushAt, h1.1, h1.2, ↓reduceIte, Bool.false_eq_true, List.cons_append]
    exact congrArg _ (ih (fun l hl => h l (List.mem_cons_of_mem _ hl)))

theorem pushAll_level (before : Int → Int → Bool) (acc : PriceMap) (price : Int)
    (h : ∀ l ∈ acc, l.1 ≠ price ∧ before price l.1 = false) (q1 : List Order) :
    ∀ q0 : List Order, (∀ o ∈ q1, o.price = price) →
      pushAll before (acc ++ [(price, q0)]) q1 = acc ++ [(price, q0 ++ q1)] := by
  induction q1 with
  | nil => intro q0 _; simp [pushAll]
  | cons o rest ih =>
    intro q0 hq
    have ho := hq o (List.mem_cons_self _ _)
    simp only [pushAll, List.foldl_cons, ho]
    rw [PriceMap.pushAt_existing before acc [] price q0 o h]
    have := ih (q0 ++ [o]) (fun x hx => hq x (List.mem_cons_of_mem _ hx))
    simp only [pushAll, List.append_assoc, List.singleton_append] at this
    exact this

/-- Pushing the orders of a book in priority order after the levels `acc` rebuilds
the book behind `acc`, when the keys of `acc` followed by those of the book are in
the iteration order of the comparator, every order is keyed by its price and no
level is empty. -/
theorem pushAll_book (before : Int → Int → Bool) (book : PriceMap) :
    ∀ acc : PriceMap,
      ((acc ++ book).map Prod.fst).Pairwise (fun a b => a ≠ b ∧ before b a = false) →
      (∀ l ∈ book, ∀ o ∈ l.2, o.price = l.1) → (∀ l ∈ book, l.2 ≠ []) →
      pushAll before acc (restingOrders book) = acc ++ book := by
  induction book with
  | nil => intro acc _ _ _; simp [pushAll, restingOrders]
  | cons l rest ih =>
    intro acc hs hk hne
    obtain ⟨p, q⟩ := l
    have hacc : ∀ l ∈ acc, l.1 ≠ p ∧ before p l.1 = false := by
      intro l hl
      rw [List.map_append, List.map_cons, List.pairwise_append] at hs
      exact hs.2.2 l.1 (List.mem_map_of_mem _ hl) p (List.mem_cons_self _ _)
    have hq := hk (p, q) (List.mem_cons_self _ _)
    obtain ⟨o, q1, hoq⟩ := List.exists_cons_of_ne_nil (hne (p, q) (List.mem_cons_self _ _))
    simp only at hoq hq
    subst hoq
    have hstep : pushAll before acc (o :: q1) = acc ++ [(p, o :: q1)] := by
      simp only [pushAll, List.foldl_cons, hq o (List.mem_cons_self _ _)]
      rw [PriceMap.pushAt_last before acc p o hacc]
      exact pushAll_level before acc p hacc q1 [o]
        (fun x hx => hq x (List.mem_cons_of_mem _ hx))
    have hsplit : pushAll before acc (restingOrders ((p, o :: q1) :: rest)) =
        pushAll before (pushAll before acc (o :: q1)) (restingOrders rest) := by
      simp only [pushAll, restingOrders, List.foldl_append]
    rw [hsplit, hstep, ih (acc ++ [(p, o :: q1)]) (by simpa using hs)
      (fun l hl => hk l (List.mem_cons_of_mem _ hl))
      (fun l hl => hne l (List.mem_cons_of_mem _ hl))]
    simp

theorem retype_self (type : OrderType) (o : Order) (h : o.type = type) : retype type o = o := by
  cases o
  simp only [retype, Order.mk.injEq, true_and, and_true]
  exact h.symm

theorem loadOrderType_export (before : Int → Int → Bool) (type : OrderType) (book : PriceMap)
    (hs : (book.map Prod.fst).Pairwise (fun a b => a ≠ b ∧ before b a = false))
    (hk : ∀ l ∈ book, ∀ o ∈ l.2, o.price = l.1 ∧ o.type = type)
    (hne : ∀ l ∈ book, l.2 ≠ []) (hfit : ∀ o ∈ restingOrders book, o.fits) :
    loadOrderType before (some (headerLine ++ '\n' :: exportSide book)) type [] = book := by
  have hre : (restingOrders book).map (retype type) = restingOrders book := by
    conv_rhs => rw [← List.map_id (restingOrders book)]
    refine List.map_congr_left (fun o ho => ?_)
    obtain ⟨l, hl, hol⟩ := mem_restingOrders.mp ho
    exact retype_self type o (hk l hl o hol).2
  simp only [loadOrderType, readLines_file, List.drop_succ_cons, List.drop_zero]
  rw [loadRows_rendered before type _ [] hfit, hre]
  have := pushAll_book before book [] (by simpa using hs) (fun l hl o ho => (hk l hl o ho).1) hne
  simpa using this

/-- Claim C17 (book serialization round-trip, as the code has it). For every pair of
maps in the iteration order of their comparators, in which each order sits in the
level keyed by its own price on its own side, no level has an empty queue and the
fields of every order lie in the ranges of their C++ types, `loadOrders` applied to
the two texts written by `exportActiveOrders`, starting from empty maps, returns
the two maps themselves: same levels, same queues in the same order, same orders. -/
theorem book_roundtrip (buyOrders sellOrders : PriceMap)
    (hsb : (buyOrders.map Prod.fst).Pairwise (· > ·))
    (hss : (sellOrders.map Prod.fst).Pairwise (· < ·))
    (hkb : ∀ l ∈ buyOrders, ∀ o ∈ l.2, o.price = l.1 ∧ o.type = .BUY)
    (hks : ∀ l ∈ sellOrders, ∀ o ∈ l.2, o.price = l.1 ∧ o.type = .SELL)
    (hne : ∀ l ∈ buyOrders ++ sellOrders, l.2 ≠ [])
    (hfit : ∀ l ∈ buyOrders ++ sellOrders, ∀ o ∈ l.2, o.fits) :
    loadOrders (some (exportActiveOrders buyOrders sellOrders).buyFile)
      (some (exportActiveOrders buyOrders sellOrders).sellFile) [] [] =
      (buyOrders, sellOrders) := by
  have hb := loadOrderType_export buyBefore .BUY buyOrders
    (hsb.imp (fun {a b} hab => ⟨ne_of_gt hab, by simp only [buyBefore, decide_eq_false_iff_not]; omega⟩))
    hkb (fun l hl => hne l (List.mem_append_left _ hl))
    (fun o ho => by
      obtain ⟨l, hl, hol⟩ := mem_restingOrders.mp ho
      exact hfit l (List.mem_append_left _ hl) o hol)
  have hs := loadOrderType_export sellBefore .SELL sellOrders
    (hss.imp (fun {a b} hab => ⟨ne_of_lt hab, by simp only [sellBefore, decide_eq_false_iff_not]; omega⟩))
    hks (fun l hl => hne l (List.mem_append_right _ hl))
    (fun o ho => by
      obtain ⟨l, hl, hol⟩ := mem_restingOrders.mp ho
      exact hfit l (List.mem_append_right _ hl) o hol)
  simp only [loadOrders, exportActiveOrders, hb, hs]

/-- Two bid levels, the first with two orders, and one ask level are written and
read back unchanged. -/
theorem book_roundtrip_witness :
    loadOrders
      (some (exportActiveOrders
        [(100, [⟨1, .BUY, 100, 10, 3, 17⟩, ⟨4, .BUY, 100, 5, 0, 18⟩]), (99, [⟨2, .BUY, 99, 7, 0, 17⟩])]
        [(105, [⟨3, .SELL, 105, 8, 2, 17⟩])]).buyFile)
      (some (exportActiveOrders
        [(100, [⟨1, .BUY, 100, 10, 3, 17⟩, ⟨4, .BUY, 100, 5, 0, 18⟩]), (99, [⟨2, .BUY, 99, 7, 0, 17⟩])]
        [(105, [⟨3, .SELL, 105, 8, 2, 17⟩])]).sellFile) [] [] =
      ([(100, [⟨1, .BUY, 100, 10, 3, 17⟩, ⟨4, .BUY, 100, 5, 0, 18⟩]), (99, [⟨2, .BUY, 99, 7, 0, 17⟩])],
        [(105, [⟨3, .SELL, 105, 8, 2, 17⟩])]) :=
  book_roundtrip
    [(100, [⟨1, .BUY, 100, 10, 3, 17⟩, ⟨4, .BUY, 100, 5, 0, 18⟩]), (99, [⟨2, .BUY, 99, 7, 0, 17⟩])]
    [(105, [⟨3, .SELL, 105, 8, 2, 17⟩])]
    (by decide) (by decide) (by decide) (by decide) (by decide) (by decide)

/-- A bid map with the single level 100 holding an empty queue satisfies the
condition of C17 (there is no order to be misplaced), is written as a file with the
header alone, and is read back as the empty map. -/
theorem book_roundtrip_counterexample :
    (∀ l ∈ ([(100, [])] : PriceMap), ∀ o ∈ l.2, o.price = l.1 ∧ o.type = .BUY) ∧
      (exportActiveOrders [(100, [])] []).buyFile = headerLine ++ ['\n'] ∧
      loadOrders (some (exportActiveOrders [(100, [])] []).buyFile)
        (some (exportActiveOrders [(100, [])] []).sellFile) [] [] = ([], []) ∧
      loadOrders (some (exportActiveOrders [(100, [])] []).buyFile)
        (some (exportActiveOrders [(100, [])] []).sellFile) [] [] ≠ ([(100, [])], []) := by
  decide

/-- The price written in one data row: the second comma-separated field, converted
with `stoi` as `loadOrderType` converts it. -/
def rowPrice (line : List Char) : Option Int :=
  stoi (getField (getField (some line) []).1 (getField (some line) []).2).2

/-- The price column of an active-order file: the price of every line after the
header, from the top of the file down. -/
def priceColumn (file : List Char) : List (Option Int) :=
  ((readLines file).drop 1).map rowPrice

theorem rowPrice_rowLine (o : Order) (h : -2147483648 ≤ o.price ∧ o.price ≤ 2147483647) :
    rowPrice (rowLine o) = some o.price := by
  have c1 := fun c hc => ((showInt_chars o.id).2 c hc).1
  have c2 := fun c hc => ((showInt_chars o.price).2 c hc).1
  simp only [rowPrice, rowLine, getField_comma _ _ _ c1, getField_comma _ _ _ c2, stoi,
    strtoRange_showInt _ _ _ h]

theorem priceColumn_export (book : PriceMap)
    (hfit : ∀ l ∈ book, ∀ o ∈ l.2, -2147483648 ≤ o.price ∧ o.price ≤ 2147483647) :
    priceColumn (headerLine ++ '\n' :: exportSide book) =
      (restingOrders book).map (fun o => some o.price) := by
  rw [priceColumn, readLines_file, List.drop_succ_cons, List.drop_zero, List.map_map]
  refine List.map_congr_left (fun o ho => ?_)
  obtain ⟨l, hl, hol⟩ := mem_restingOrders.mp ho
  exact rowPrice_rowLine o (hfit l hl o hol)

theorem restingOrders_append (a b : PriceMap) :
    restingOrders (a ++ b) = restingOrders a ++ restingOrders b := by
  induction a with
  | nil => rfl
  | cons l rest ih =>
    obtain ⟨p, q⟩ := l
    show q ++ restingOrders (rest ++ b) = (q ++ restingOrders rest) ++ restingOrders b
    rw [ih, List.append_assoc]

theorem map_price_level (p : Int) (q : List Order) (hq : ∀ o ∈ q, o.price = p) :
    q.map (fun o => some o.price) = List.replicate q.length (some p) := by
  induction q with
  | nil => rfl
  | cons o tl ih =>
    rw [List.map_cons, List.length_cons, List.replicate_succ, hq o (List.mem_cons_self _ _),
      ih (fun o1 h1 => hq o1 (List.mem_cons_of_mem _ h1))]

/-- The price column of one side whose orders are keyed by their price, split at a
level: the rows of the levels before it, then one row per order of the level, each
with the key of the level as its price, then the rows of the levels after it; the
prices before are those of earlier keys and the prices after those of later keys. -/
theorem priceColumn_split (r : Int → Int → Prop) (pre post : PriceMap) (l : Level)
    (hs : ((pre ++ l :: post).map Prod.fst).Pairwise r)
    (hk : ∀ l1 ∈ pre ++ l :: post, ∀ o ∈ l1.2, o.price = l1.1)
    (hfit : ∀ l1 ∈ pre ++ l :: post, ∀ o ∈ l1.2,
      -2147483648 ≤ o.price ∧ o.price ≤ 2147483647) :
    priceColumn (headerLine ++ '\n' :: exportSide (pre ++ l :: post)) =
        priceColumn (headerLine ++ '\n' :: exportSide pre) ++
          (List.replicate l.2.length (some l.1) ++
            priceColumn (headerLine ++ '\n' :: exportSide post)) ∧
      (∀ x ∈ priceColumn (headerLine ++ '\n' :: exportSide pre), ∃ p, x = some p ∧ r p l.1) ∧
      (∀ x ∈ priceColumn (headerLine ++ '\n' :: exportSide post), ∃ p, x = some p ∧ r l.1 p) := by
  have hpre : ∀ l1 ∈ pre, l1 ∈ pre ++ l :: post := fun l1 h => List.mem_append_left _ h
  have hpost : ∀ l1 ∈ post, l1 ∈ pre ++ l :: post := fun l1 h =>
    List.mem_append_right _ (List.mem_cons_of_mem _ h)
  have hl : l ∈ pre ++ l :: post := List.mem_append_right _ (List.mem_cons_self _ _)
  rw [priceColumn_export _ hfit, priceColumn_export pre (fun l1 h => hfit l1 (hpre l1 h)),
    priceColumn_export post (fun l1 h => hfit l1 (hpost l1 h))]
  rw [List.map_append, List.pairwise_append] at hs
  obtain ⟨_, hs2, hs3⟩ := hs
  rw [List.map_cons, List.pairwise_cons] at hs2
  refine ⟨?_, ?_, ?_⟩
  · obtain ⟨p, q⟩ := l
    rw [restingOrders_append, restingOrders, List.map_append, List.map_append]
    congr 2
    exact map_price_level p q (fun o ho => hk (p, q) hl o ho)
  · intro x hx
    obtain ⟨o, ho, rfl⟩ := List.mem_map.mp hx
    obtain ⟨l1, hl1, hol⟩ := mem_restingOrders.mp ho
    refine ⟨o.price, rfl, ?_⟩
    rw [hk l1 (hpre l1 hl1) o hol]
    exact hs3 l1.1 (List.mem_map_of_mem _ hl1) l.1 (List.mem_cons_self _ _)
  · intro x hx
    obtain ⟨o, ho, rfl⟩ := List.mem_map.mp hx
    obtain ⟨l1, hl1, hol⟩ := mem_restingOrders.mp ho
    refine ⟨o.price, rfl, ?_⟩
    rw [hk l1 (hpost l1 hl1) o hol]
    exact hs2.1 l1.1 (List.mem_map_of_mem _ hl1)

/-- Claim C18 (snapshot row order, as the code has it). For every pair of maps, the
lines of each file written by `exportActiveOrders` are the header followed by one
row per resting order of that side, in the iteration order of the map across levels
and from the front of the queue within a level, and the two maps are unchanged by
the call.  When the keys of a map are in the order of its comparator, every order
of the map sits in the level keyed by its own price and the prices are in the range
of an `int`, the price column of the file of that side is made of one block per
level: the rows of a level carry the key of the level as their price, every row
above the block carries a strictly higher price in the bids file (strictly lower
in the asks file) and every row below it a strictly lower price (strictly higher
in the asks file). -/
theorem snapshot_rows (buyOrders sellOrders : PriceMap) :
    readLines (exportActiveOrders buyOrders sellOrders).buyFile =
      headerLine :: (restingOrders buyOrders).map rowLine ∧
    readLines (exportActiveOrders buyOrders sellOrders).sellFile =
      headerLine :: (restingOrders sellOrders).map rowLine ∧
    (exportActiveOrders buyOrders sellOrders).buyOrders = buyOrders ∧
    (exportActiveOrders buyOrders sellOrders).sellOrders = sellOrders ∧
    ((buyOrders.map Prod.fst).Pairwise (· > ·) →
      (∀ l ∈ buyOrders, ∀ o ∈ l.2, o.price = l.1) →
      (∀ l ∈ buyOrders, ∀ o ∈ l.2, -2147483648 ≤ o.price ∧ o.price ≤ 2147483647) →
      ∀ pre l post, buyOrders = pre ++ l :: post →
        priceColumn (exportActiveOrders buyOrders sellOrders).buyFile =
            priceColumn (exportActiveOrders pre sellOrders).buyFile ++
              (List.replicate l.2.length (some l.1) ++
                priceColumn (exportActiveOrders post sellOrders).buyFile) ∧
          (∀ x ∈ priceColumn (exportActiveOrders pre sellOrders).buyFile,
            ∃ p, x = some p ∧ p > l.1) ∧
          (∀ x ∈ priceColumn (exportActiveOrders post sellOrders).buyFile,
            ∃ p, x = some p ∧ l.1 > p)) ∧
    ((sellOrders.map Prod.fst).Pairwise (· < ·) →
      (∀ l ∈ sellOrders, ∀ o ∈ l.2, o.price = l.1) →
      (∀ l ∈ sellOrders, ∀ o ∈ l.2, -2147483648 ≤ o.price ∧ o.price ≤ 2147483647) →
      ∀ pre l post, sellOrders = pre ++ l :: post →
        priceColumn (exportActiveOrders buyOrders sellOrders).sellFile =
            priceColumn (exportActiveOrders buyOrders pre).sellFile ++
              (List.replicate l.2.length (some l.1) ++
                priceColumn (exportActiveOrders buyOrders post).sellFile) ∧
          (∀ x ∈ priceColumn (exportActiveOrders buyOrders pre).sellFile,
            ∃ p, x = some p ∧ p < l.1) ∧
          (∀ x ∈ priceColumn (exportActiveOrders buyOrders post).sellFile,
            ∃ p, x = some p ∧ l.1 < p)) := by
  refine ⟨readLines_file buyOrders, readLines_file sellOrders, rfl, rfl, ?_, ?_⟩
  · intro hs hk hfit pre l post he
    subst he
    exact priceColumn_split (· > ·) pre post l hs hk hfit
  · intro hs hk hfit pre l post he
    subst he
    exact priceColumn_split (· < ·) pre post l hs hk hfit

/-- Scenario with two bid levels: the rows of level 100 (ids 1, then 4) come before
the row of level 99; split at level 99, the price column is the two rows of price
100 above the block, the block of one row of price 99, and nothing below it. -/
theorem snapshot_rows_witness :
    readLines (exportActiveOrders
        [(100, [⟨1, .BUY, 100, 10, 3, 17⟩, ⟨4, .BUY, 100, 5, 0, 18⟩]), (99, [⟨2, .BUY, 99, 7, 0, 17⟩])]
        []).buyFile =
      [headerLine, "1,100,10,3,17".toList, "4,100,5,0,18".toList, "2,99,7,0,17".toList] ∧
    priceColumn (exportActiveOrders
        [(100, [⟨1, .BUY, 100, 10, 3, 17⟩, ⟨4, .BUY, 100, 5, 0, 18⟩]), (99, [⟨2, .BUY, 99, 7, 0, 17⟩])]
        []).buyFile = [some 100, some 100, some 99] ∧
    (priceColumn (exportActiveOrders
        [(100, [⟨1, .BUY, 100, 10, 3, 17⟩, ⟨4, .BUY, 100, 5, 0, 18⟩]), (99, [⟨2, .BUY, 99, 7, 0, 17⟩])]
        []).buyFile =
      priceColumn (exportActiveOrders
          [(100, [⟨1, .BUY, 100, 10, 3, 17⟩, ⟨4, .BUY, 100, 5, 0, 18⟩])] []).buyFile ++
        (List.replicate ((99, [⟨2, .BUY, 99, 7, 0, 17⟩]) : Level).2.length
            (some ((99, [⟨2, .BUY, 99, 7, 0, 17⟩]) : Level).1) ++
          priceColumn (exportActiveOrders [] []).buyFile) ∧
      (∀ x ∈ priceColumn (exportActiveOrders
          [(100, [⟨1, .BUY, 100, 10, 3, 17⟩, ⟨4, .BUY, 100, 5, 0, 18⟩])] []).buyFile,
        ∃ p, x = some p ∧ p > ((99, [⟨2, .BUY, 99, 7, 0, 17⟩]) : Level).1) ∧
      (∀ x ∈ priceColumn (exportActiveOrders [] []).buyFile,
        ∃ p, x = some p ∧ ((99, [⟨2, .BUY, 99, 7, 0, 17⟩]) : Level).1 > p)) :=
  ⟨by decide, by decide,
    (snapshot_rows
      [(100, [⟨1, .BUY, 100, 10, 3, 17⟩, ⟨4, .BUY, 100, 5, 0, 18⟩]), (99, [⟨2, .BUY, 99, 7, 0, 17⟩])]
      []).2.2.2.2.1 (by decide) (by decide) (by decide)
      [(100, [⟨1, .BUY, 100, 10, 3, 17⟩, ⟨4, .BUY, 100, 5, 0, 18⟩])]
      (99, [⟨2, .BUY, 99, 7, 0, 17⟩]) [] rfl⟩

/-- The claim of C18 at a bid map whose orders do not sit at their own price: the
keys 100 and 90 are in the order of the comparator, the rows are written with the
price fields of the orders, and the price column of the bids file reads 50 and then
70, which is ascending. -/
theorem snapshot_rows_counterexample :
    (([(100, [⟨1, .BUY, 50, 10, 0, 17⟩]), (90, [⟨2, .BUY, 70, 5, 0, 18⟩])] : PriceMap).map
        Prod.fst).Pairwise (· > ·) ∧
      readLines (exportActiveOrders
          [(100, [⟨1, .BUY, 50, 10, 0, 17⟩]), (90, [⟨2, .BUY, 70, 5, 0, 18⟩])] []).buyFile =
        [headerLine, "1,50,10,0,17".toList, "2,70,5,0,18".toList] ∧
      priceColumn (exportActiveOrders
          [(100, [⟨1, .BUY, 50, 10, 0, 17⟩]), (90, [⟨2, .BUY, 70, 5, 0, 18⟩])] []).buyFile =
        [some 50, some 70] ∧
      ¬ (priceColumn (exportActiveOrders
          [(100, [⟨1, .BUY, 50, 10, 0, 17⟩]), (90, [⟨2, .BUY, 70, 5, 0, 18⟩])] []).buyFile).Pairwise
        (fun a b => ∃ p q, a = some p ∧ b = some q ∧ q < p) := by
  refine ⟨by decide, by decide, by decide, fun h => ?_⟩
  have e : priceColumn (exportActiveOrders
      [(100, [⟨1, .BUY, 50, 10, 0, 17⟩]), (90, [⟨2, .BUY, 70, 5, 0, 18⟩])] []).buyFile =
      [some 50, some 70] := by decide
  rw [e, List.pairwise_cons] at h
  obtain ⟨p, q, hp, hq, hlt⟩ := h.1 (some 70) (List.mem_singleton.mpr rfl)
  cases hp
  cases hq
  omega

/-- Claim C19, the code at failing inputs. A data row with only three columns is not
skipped: the fourth and fifth `getline` find the stream at its end and leave the
token `10` in place, so the row `5,100,10` is loaded as an order with
`filled_quantity = 10` and `timestamp = 10`.  A field with trailing garbage is
accepted by `stoi` as well (`12x` is read as 12), while a row whose first field has
no digit is skipped and the rows after it are still loaded. -/
theorem loadRows_short_row_is_loaded :
    loadRows sellBefore .SELL ["5,100,10".toList] [] =
        [(100, [⟨5, .SELL, 100, 10, 10, 10⟩])] ∧
      loadRows sellBefore .SELL ["12x,101,4,0,7".toList] [] =
        [(101, [⟨12, .SELL, 101, 4, 0, 7⟩])] ∧
      loadRows sellBefore .SELL ["abc,1,2,3,4".toList, "6,101,1,0,0".toList] [] =
        [(101, [⟨6, .SELL, 101, 1, 0, 0⟩])] := by
  decide

/-! ### The constructor -/

theorem foldl_max_spec (l : List Int) :
    ∀ a : Int, a ≤ l.foldl max a ∧ (∀ x ∈ l, x ≤ l.foldl max a) ∧
      (l.foldl max a = a ∨ l.foldl max a ∈ l) := by
  induction l with
  | nil => intro a; simp
  | cons x xs ih =>
    intro a
    obtain ⟨h1, h2, h3⟩ := ih (max a x)
    simp only [List.foldl_cons, List.mem_cons]
    refine ⟨le_trans (le_max_left a x) h1, fun y hy => ?_, ?_⟩
    · rcases hy with rfl | hy
      · exact le_trans (le_max_right a y) h1
      · exact h2 y hy
    · rcases h3 with h3 | h3
      · rcases le_total a x with hax | hax
        · exact Or.inr (Or.inl (h3.trans (max_eq_right hax)))
        · exact Or.inl (h3.trans (max_eq_left hax))
      · exact Or.inr (Or.inr h3)

theorem wrapInt_of_inInt (x : Int) (h : InInt x) : wrapInt x = x := by
  obtain ⟨h1, h2⟩ := h
  unfold wrapInt
  omega

theorem wrapInt_inInt (x : Int) : InInt (wrapInt x) := by
  unfold wrapInt
  constructor <;> omega

theorem wrapInt_add (x y : Int) : wrapInt (wrapInt x + y) = wrapInt (x + y) := by
  unfold wrapInt
  omega

theorem wrapInt_idem (x : Int) : wrapInt (wrapInt x) = wrapInt x := by
  unfold wrapInt
  omega

theorem indexQueue_counter (q : List Order) :
    ∀ acc : OrderIndex × Int,
      (indexQueue q acc).2 = (q.map (fun o => wrapInt (o.id + 1))).foldl max acc.2 := by
  induction q with
  | nil => intro acc; rfl
  | cons o rest ih => intro acc; simp only [indexQueue, ih, List.map_cons, List.foldl_cons]

theorem indexSide_counter (book : PriceMap) :
    ∀ acc : OrderIndex × Int,
      (indexSide book acc).2 =
        ((restingOrders book).map (fun o => wrapInt (o.id + 1))).foldl max acc.2 := by
  induction book with
  | nil => intro acc; rfl
  | cons l rest ih =>
    intro acc
    obtain ⟨p, q⟩ := l
    simp only [indexSide, ih, indexQueue_counter, restingOrders, List.map_append,
      List.foldl_append]

/-- Every entry of the index is stored under the id of its order. -/
def OrderIndex.keyed (idx : OrderIndex) : Prop :=
  ∀ id e, idx.find id = some e → e.id = id

theorem indexQueue_index (q : List Order) :
    ∀ acc : OrderIndex × Int, acc.1.keyed →
      (indexQueue q acc).1.keyed ∧
      (∀ id, (acc.1.find id).isSome = true → ((indexQueue q acc).1.find id).isSome = true) ∧
      (∀ o ∈ q, ((indexQueue q acc).1.find o.id).isSome = true) ∧
      (∀ id e, (indexQueue q acc).1.find id = some e → acc.1.find id = some e ∨ e ∈ q) := by
  induction q with
  | nil => intro acc h; exact ⟨h, fun id hid => hid, by simp, fun id e he => Or.inl he⟩
  | cons o rest ih =>
    intro acc h
    have hk : (acc.1.assign o.id o).keyed := by
      intro id e he
      by_cases hid : id = o.id
      · rw [hid, OrderIndex.find_assign_self] at he
        rw [hid, ← Option.some.inj he]
      · rw [OrderIndex.find_assign_ne _ _ _ _ hid] at he
        exact h id e he
    obtain ⟨h1, h2, h3, h4⟩ := ih (acc.1.assign o.id o, max acc.2 (wrapInt (o.id + 1))) hk
    have hself : ((acc.1.assign o.id o).find o.id).isSome = true := by
      rw [OrderIndex.find_assign_self]; rfl
    refine ⟨h1, fun id hid => h2 id ?_, fun x hx => ?_, fun id e he => ?_⟩
    · by_cases hio : id = o.id
      · rw [hio]; exact hself
      · show ((acc.1.assign o.id o).find id).isSome = true
        rw [OrderIndex.find_assign_ne _ _ _ _ hio]; exact hid
    · rcases List.mem_cons.mp hx with rfl | hx
      · exact h2 _ hself
      · exact h3 x hx
    · rcases h4 id e he with h5 | h5
      · by_cases hio : id = o.id
        · rw [hio] at h5
          have h6 : (acc.1.assign o.id o).find o.id = some e := h5
          rw [OrderIndex.find_assign_self] at h6
          exact Or.inr (Option.some.inj h6 ▸ List.mem_cons_self _ _)
        · have h6 : (acc.1.assign o.id o).find id = some e := h5
          rw [OrderIndex.find_assign_ne _ _ _ _ hio] at h6
          exact Or.inl h6
      · exact Or.inr (List.mem_cons_of_mem _ h5)

theorem indexSide_index (book : PriceMap) :
    ∀ acc : OrderIndex × Int, acc.1.keyed →
      (indexSide book acc).1.keyed ∧
      (∀ id, (acc.1.find id).isSome = true → ((indexSide book acc).1.find id).isSome = true) ∧
      (∀ o ∈ restingOrders book, ((indexSide book acc).1.find o.id).isSome = true) ∧
      (∀ id e, (indexSide book acc).1.find id = some e →
        acc.1.find id = some e ∨ e ∈ restingOrders book) := by
  induction book with
  | nil => intro acc h; exact ⟨h, fun id hid => hid, by simp [restingOrders], fun id e he => Or.inl he⟩
  | cons l rest ih =>
    intro acc h
    obtain ⟨p, q⟩ := l
    obtain ⟨h1, h2, h3, h4⟩ := indexQueue_index q acc h
    obtain ⟨k1, k2, k3, k4⟩ := ih (indexQueue q acc) h1
    refine ⟨k1, fun id hid => k2 id (h2 id hid), fun o ho => ?_, fun id e he => ?_⟩
    · simp only [restingOrders, List.mem_append] at ho
      rcases ho with ho | ho
      · exact k2 _ (h3 o ho)
      · exact k3 o ho
    · simp only [restingOrders, List.mem_append]
      rcases k4 id e he with h5 | h5
      · exact (h4 id e h5).imp (fun h => h) Or.inl
      · exact Or.inr (Or.inr h5)

theorem construct_index (buyFile sellFile : Option (List Char)) :
    (OrderBook.construct buyFile sellFile).allOrders.keyed ∧
    (∀ o ∈ restingOrders (OrderBook.construct buyFile sellFile).buyOrders ++
        restingOrders (OrderBook.construct buyFile sellFile).sellOrders,
      ((OrderBook.construct buyFile sellFile).allOrders.find o.id).isSome = true) ∧
    (∀ id e, (OrderBook.construct buyFile sellFile).allOrders.find id = some e →
      e ∈ restingOrders (OrderBook.construct buyFile sellFile).buyOrders ++
        restingOrders (OrderBook.construct buyFile sellFile).sellOrders) := by
  have hnil : OrderIndex.keyed ([] : OrderIndex) := fun id e he => by
    simp [OrderIndex.find] at he
  obtain ⟨h1, h2, h3, h4⟩ := indexSide_index (loadOrders buyFile sellFile [] []).1 ([], 1) hnil
  obtain ⟨k1, k2, k3, k4⟩ := indexSide_index (loadOrders buyFile sellFile [] []).2
    (indexSide (loadOrders buyFile sellFile [] []).1 ([], 1)) h1
  refine ⟨k1, fun o ho => ?_, fun id e he => ?_⟩
  · rcases List.mem_append.mp ho with ho | ho
    · exact k2 _ (h3 o ho)
    · exact k3 o ho
  · rcases k4 id e he with h5 | h5
    · rcases h4 id e h5 with h6 | h6
      · simp [OrderIndex.find] at h6
      · exact List.mem_append_left _ h6
    · exact List.mem_append_right _ h5

theorem construct_counter (buyFile sellFile : Option (List Char)) :
    (OrderBook.construct buyFile sellFile).nextOrderId =
      ((restingOrders (OrderBook.construct buyFile sellFile).buyOrders ++
        restingOrders (OrderBook.construct buyFile sellFile).sellOrders).map
          (fun o => wrapInt (o.id + 1))).foldl max 1 := by
  simp only [OrderBook.construct, indexSide_counter, List.map_append, List.foldl_append]

theorem map_wrap_succ (l : List Order)
    (h : ∀ o ∈ l, -2147483648 ≤ o.id ∧ o.id < 2147483647) :
    l.map (fun o => wrapInt (o.id + 1)) = l.map (fun o => o.id + 1) :=
  List.map_congr_left (fun o ho => wrapInt_of_inInt _ ⟨by have := h o ho; omega,
    by have := h o ho; omega⟩)

/-- The order counter the constructor computes when no loaded id is the largest
`int`: the maximum of 1 and of `id + 1` over the loaded orders. -/
theorem construct_counter_of_lt (buyFile sellFile : Option (List Char))
    (h : ∀ o ∈ restingOrders (OrderBook.construct buyFile sellFile).buyOrders ++
        restingOrders (OrderBook.construct buyFile sellFile).sellOrders,
      -2147483648 ≤ o.id ∧ o.id < 2147483647) :
    (OrderBook.construct buyFile sellFile).nextOrderId =
      ((restingOrders (OrderBook.construct buyFile sellFile).buyOrders ++
        restingOrders (OrderBook.construct buyFile sellFile).sellOrders).map
          (fun o => o.id + 1)).foldl max 1 := by
  rw [construct_counter, map_wrap_succ _ h]

theorem strtoRange_range (lo hi : Int) (token : List Char) (v : Int)
    (h : strtoRange lo hi token = some v) : lo ≤ v ∧ v ≤ hi := by
  simp only [strtoRange] at h
  split_ifs at h <;> cases h <;> assumption

theorem parseRow_id_inInt (type : OrderType) (line : List Char) (o : Order)
    (h : parseRow type line = some o) : InInt o.id := by
  simp only [parseRow] at h
  split at h
  · cases h
  · rename_i id hid
    split at h
    · cases h
    · split at h
      · cases h
      · split at h
        · cases h
        · split at h
          · cases h
          · rw [← Option.some.inj h]
            exact strtoRange_range _ _ _ _ hid

theorem loadRows_ids (before : Int → Int → Bool) (type : OrderType) (lines : List (List Char)) :
    ∀ acc : PriceMap, (∀ o ∈ restingOrders acc, InInt o.id) →
      ∀ o ∈ restingOrders (loadRows before type lines acc), InInt o.id := by
  induction lines with
  | nil => intro acc h; exact h
  | cons line rest ih =>
    intro acc h
    simp only [loadRows]
    split_ifs
    · exact ih acc h
    · split
      · exact ih acc h
      · rename_i o ho
        refine ih _ (fun x hx => ?_)
        rcases List.mem_cons.mp ((restingOrders_pushAt before acc o.price o).mem_iff.mp hx)
          with rfl | hx
        · exact parseRow_id_inInt type line _ ho
        · exact h x hx

/-- Every id the constructor loads is the value of an `int`: `stoi` returned it. -/
theorem construct_ids_inInt (buyFile sellFile : Option (List Char)) :
    ∀ o ∈ restingOrders (OrderBook.construct buyFile sellFile).buyOrders ++
      restingOrders (OrderBook.construct buyFile sellFile).sellOrders, InInt o.id := by
  have hnil : ∀ o ∈ restingOrders ([] : PriceMap), InInt o.id := fun o ho => by
    simp [restingOrders] at ho
  intro o ho
  rcases List.mem_append.mp ho with ho | ho
  · cases buyFile with
    | none => exact hnil o ho
    | some text => exact loadRows_ids buyBefore .BUY _ [] hnil o ho
  · cases sellFile with
    | none => exact hnil o ho
    | some text => exact loadRows_ids sellBefore .SELL _ [] hnil o ho

/-! ## Two engines whose order ids and trade ids differ by a translation

The matcher copies ids and never compares them, so it commutes with any renaming
of the order ids and any shift of the trade ids. -/

/-- The order `o` with its id renamed by `f`. -/
def renOrder (f : Int → Int) (o : Order) : Order := { o with id := f o.id }

/-- The map `m` with the ids of its orders renamed by `f`. -/
def renBook (f : Int → Int) (m : PriceMap) : PriceMap :=
  m.map (fun l => (l.1, l.2.map (renOrder f)))

/-- The trade `t` with its two order ids renamed by `f` and its trade id raised by `e`. -/
def renTrade (f : Int → Int) (e : Int) (t : Trade) : Trade :=
  ⟨t.tradeId + e, f t.buyOrderId, f t.sellOrderId, t.price, t.quantity, t.timestamp⟩

@[simp] theorem renOrder_remaining (f : Int → Int) (o : Order) :
    (renOrder f o).remaining = o.remaining := rfl

@[simp] theorem renOrder_is_filled (f : Int → Int) (o : Order) :
    (renOrder f o).is_filled = o.is_filled := rfl

@[simp] theorem renOrder_price (f : Int → Int) (o : Order) : (renOrder f o).price = o.price := rfl

@[simp] theorem renOrder_id (f : Int → Int) (o : Order) : (renOrder f o).id = f o.id := rfl

@[simp] theorem renOrder_fill (f : Int → Int) (o : Order) (qty : Int) :
    fill (renOrder f o) qty = renOrder f (fill o qty) := rfl

theorem renTrade_mkTrade (f : Int → Int) (e : Int) (side : OrderType) (tid : Int)
    (inc r : Order) (qty ts : Int) :
    renTrade f e (mkTrade side tid inc r qty ts) =
      mkTrade side (tid + e) (renOrder f inc) (renOrder f r) qty ts := by
  cases side <;> rfl

theorem levelRun_ren (f : Int → Int) (e : Int) (side : OrderType) (clk : Nat → Int)
    (q : List Order) :
    ∀ (inc : Order) (tid : Int) (trades : List Trade),
      levelRun side clk (renOrder f inc) (tid + e) (trades.map (renTrade f e))
          (q.map (renOrder f)) =
        ⟨renOrder f (levelRun side clk inc tid trades q).order,
          (levelRun side clk inc tid trades q).queue.map (renOrder f),
          (levelRun side clk inc tid trades q).tradeId + e,
          (levelRun side clk inc tid trades q).trades.map (renTrade f e)⟩ := by
  induction q with
  | nil => intro inc tid trades; rfl
  | cons r rest ih =>
    intro inc tid trades
    simp only [List.map_cons, levelRun, renOrder_is_filled, renOrder_remaining, renOrder_fill,
      List.length_map]
    split_ifs with hf hr
    · rfl
    · have := ih (fill inc (min inc.remaining r.remaining)) (tid + 1)
        (trades ++ [mkTrade side tid inc r (min inc.remaining r.remaining) (clk trades.length)])
      rw [List.map_append, List.map_singleton, renTrade_mkTrade] at this
      rw [← this]
      congr 1
      ring
    · simp only [List.map_append, List.map_singleton, renTrade_mkTrade, List.map_cons,
        LevelState.mk.injEq, true_and]
      exact ⟨by ring, rfl⟩

theorem levelsRun_ren (f : Int → Int) (e : Int) (side : OrderType) (clk : Nat → Int)
    (book : PriceMap) :
    ∀ (inc : Order) (tid : Int) (trades : List Trade),
      levelsRun side clk (renOrder f inc) (tid + e) (trades.map (renTrade f e))
          (renBook f book) =
        ⟨renOrder f (levelsRun side clk inc tid trades book).order,
          renBook f (levelsRun side clk inc tid trades book).book,
          (levelsRun side clk inc tid trades book).tradeId + e,
          (levelsRun side clk inc tid trades book).trades.map (renTrade f e)⟩ := by
  induction book with
  | nil => intro inc tid trades; rfl
  | cons l rest ih =>
    intro inc tid trades
    obtain ⟨p, q⟩ := l
    simp only [renBook, List.map_cons, levelsRun, renOrder_is_filled, renOrder_price,
      levelRun_ren]
    split_ifs with hf hp hq hq2 hq3
    · rfl
    · rfl
    · exact ih _ _ _
    · simp [List.isEmpty_iff] at hq hq2
      exact absurd hq hq2
    · simp [List.isEmpty_iff] at hq hq3
      exact absurd hq3 hq
    · have := ih (levelRun side clk inc tid trades q).order
        (levelRun side clk inc tid trades q).tradeId (levelRun side clk inc tid trades q).trades
      simp only [renBook] at this
      simp only [this, List.map_cons]

theorem matchOrder_ren (f : Int → Int) (e : Int) (side : OrderType) (clk : Nat → Int)
    (inc : Order) (book : PriceMap) (tid : Int) :
    matchOrder side clk (renOrder f inc) (renBook f book) (tid + e) =
      ⟨renOrder f (matchOrder side clk inc book tid).order,
        renBook f (matchOrder side clk inc book tid).book,
        (matchOrder side clk inc book tid).tradeId + e,
        (matchOrder side clk inc book tid).trades.map (renTrade f e)⟩ :=
  levelsRun_ren f e side clk book inc tid []

theorem pushAt_ren (f : Int → Int) (before : Int → Int → Bool) (m : PriceMap) (price : Int)
    (o : Order) :
    (renBook f m).pushAt before price (renOrder f o) = renBook f (m.pushAt before price o) := by
  induction m with
  | nil => rfl
  | cons l rest ih =>
    obtain ⟨k, q⟩ := l
    simp only [renBook, List.map_cons, PriceMap.pushAt] at ih ⊢
    split_ifs
    · simp
    · rfl
    · simp only [List.map_cons, ih]

theorem count_ren (f : Int → Int) (m : PriceMap) (price : Int) :
    (renBook f m).count price = m.count price := by
  simp [PriceMap.count, renBook, List.any_map, Function.comp_def]

theorem get_ren (f : Int → Int) (m : PriceMap) (price : Int) :
    (renBook f m).get price = (m.get price).map (renOrder f) := by
  induction m with
  | nil => rfl
  | cons l rest ih =>
    obtain ⟨k, q⟩ := l
    simp only [renBook, List.map_cons, PriceMap.get] at ih ⊢
    split_ifs
    · rfl
    · exact ih

theorem setAt_ren (f : Int → Int) (m : PriceMap) (price : Int) (q : List Order) :
    (renBook f m).setAt price (q.map (renOrder f)) = renBook f (m.setAt price q) := by
  induction m with
  | nil => rfl
  | cons l rest ih =>
    obtain ⟨k, q0⟩ := l
    simp only [renBook, List.map_cons, PriceMap.setAt] at ih ⊢
    split_ifs
    · rfl
    · simp only [List.map_cons, ih]

theorem erase_ren (f : Int → Int) (m : PriceMap) (price : Int) :
    (renBook f m).erase price = renBook f (m.erase price) := by
  simp only [PriceMap.erase, renBook, List.filter_map]
  rfl

theorem removeFromQueue_ren (f : Int → Int) (hf : Function.Injective f) (id : Int)
    (q : List Order) :
    removeFromQueue (f id) (q.map (renOrder f)) =
      ((removeFromQueue id q).1.map (renOrder f), (removeFromQueue id q).2) := by
  have hiff : ∀ o : Order, ((renOrder f o).id == f id) = (o.id == id) := by
    intro o
    by_cases h : o.id = id
    · simp [h]
    · have : f o.id ≠ f id := fun hc => h (hf hc)
      simp [h, this]
  simp only [removeFromQueue, List.filter_map, List.any_map, Function.comp_def, hiff]

theorem cancelInSide_ren (f : Int → Int) (hf : Function.Injective f) (m : PriceMap)
    (price id : Int) :
    cancelInSide (renBook f m) price (f id) =
      (renBook f (cancelInSide m price id).1, (cancelInSide m price id).2) := by
  simp only [cancelInSide, count_ren, get_ren, removeFromQueue_ren f hf, setAt_ren,
    List.isEmpty_iff, erase_ren]
  split_ifs with h1 h2 h3 h4
  · rfl
  · simp only [List.map_eq_nil_iff] at h2
    exact absurd h2 h3
  · simp only [List.map_eq_nil_iff] at h2
    exact absurd h4 h2
  · rfl
  · rfl

/-! ### Cancels in a state that satisfies the invariant -/

theorem cancelOrder_ok_iff (s : OrderBook) (log : List Trade) (hinv : EngineInv s log)
    (id : Int) :
    (cancelOrder s id).error = none ↔
      ∃ t, ∃ o ∈ restingOrders (ownSide s t), o.id = id := by
  constructor
  · intro h
    obtain ⟨e, _, _, hrem⟩ := (cancelOrder_error_none_iff s id).mp h
    obtain ⟨hmem, o, ho, hid⟩ := cancelInSide_removed _ _ _ hrem
    exact ⟨e.type, o, mem_restingOrders.mpr ⟨_, hmem, ho⟩, hid⟩
  · rintro ⟨t, o, ho, hid⟩
    obtain ⟨l, hl, hol⟩ := mem_restingOrders.mp ho
    obtain ⟨e, he, hst, hf⟩ := hinv.index t o ho
    have hk := hinv.keyed t l hl o hol
    refine (cancelOrder_error_none_iff s id).mpr ⟨e, hid ▸ he, hf, ?_⟩
    rw [static_type hst, static_price hst, hk.1, hk.2, ← hid]
    exact cancelInSide_removed_of_mem _ l hl (keys_nodup hinv.ordered t) o hol

theorem cancelOrder_fail_state (s : OrderBook) (log : List Trade) (hinv : EngineInv s log)
    (id : Int) (h : (cancelOrder s id).error ≠ none) :
    (cancelOrder s id).state = s ∧ (cancelOrder s id).trades = [] := by
  cases he : s.allOrders.find id with
  | none => rw [cancelOrder_not_found s id he]; exact ⟨rfl, rfl⟩
  | some e =>
    cases hf : e.is_filled with
    | true => rw [cancelOrder_filled s id e he hf]; exact ⟨rfl, rfl⟩
    | false =>
      rw [cancelOrder_scan s id e he hf] at h ⊢
      split_ifs at h ⊢ with hrem
      · exact absurd rfl h
      · have hsame := cancelInSide_not_removed (ownSide s e.type) e.price id
          (hinv.nonempty e.type) (by simpa using hrem)
        rw [hsame, setOwnSide_self]
        exact ⟨rfl, rfl⟩

theorem cancelOrder_ok_state (s : OrderBook) (log : List Trade) (hinv : EngineInv s log)
    (t : OrderType) (o : Order) (ho : o ∈ restingOrders (ownSide s t)) :
    cancelOrder s o.id =
      ⟨{ setOwnSide s t (cancelInSide (ownSide s t) o.price o.id).1 with
          allOrders := s.allOrders.erase o.id }, [], none⟩ := by
  obtain ⟨l, hl, hol⟩ := mem_restingOrders.mp ho
  obtain ⟨e, he, hst, hf⟩ := hinv.index t o ho
  have hk := hinv.keyed t l hl o hol
  have hrem := cancelInSide_removed_of_mem _ l hl (keys_nodup hinv.ordered t) o hol
  rw [cancelOrder_scan s o.id e he hf, static_type hst, static_price hst, hk.2, hk.1,
    if_pos hrem]

/-! ### A live engine and its twin started later -/

/-- The translation of order ids between two engines: ids below the boundary `b`
are shared, ids from `b` on are `d` higher in the first engine. -/
def shiftId (b d : Int) (id : Int) : Int := if id < b then id else id + d

/-- The command as the first engine has to receive it: a cancel names the
translated id, an order is placed as it is. -/
def shiftCommand (b d : Int) : Command → Command
  | .place type price quantity now clk => .place type price quantity now clk
  | .cancel id => .cancel (shiftId b d id)

theorem shiftId_injective (b d : Int) (hd : 0 ≤ d) : Function.Injective (shiftId b d) := by
  intro x y h
  simp only [shiftId] at h
  split_ifs at h <;> omega

theorem shiftId_ge (b d id : Int) (h : b ≤ id) : shiftId b d id = id + d := by
  simp only [shiftId]
  split_ifs <;> omega

theorem restingOrders_ren (f : Int → Int) (m : PriceMap) :
    restingOrders (renBook f m) = (restingOrders m).map (renOrder f) := by
  induction m with
  | nil => rfl
  | cons l rest ih =>
    obtain ⟨p, q⟩ := l
    simp only [renBook, List.map_cons, restingOrders, List.map_append] at ih ⊢
    rw [ih]

/-- The books of `L` are those of `R` with the order ids translated, and the two id
counters of `L` are ahead of those of `R` by `d` and `e`. -/
structure Twin (b d e : Int) (L R : OrderBook) : Prop where
  sides : ∀ t, ownSide L t = renBook (shiftId b d) (ownSide R t)
  nextOrder : L.nextOrderId = R.nextOrderId + d
  nextTrade : L.nextTradeId = R.nextTradeId + e
  boundary : b ≤ R.nextOrderId

theorem twin_place (b d e : Int) (L R : OrderBook) (logL logR : List Trade)
    (hL : EngineInv L logL) (hR : EngineInv R logR) (h : Twin b d e L R) (side : OrderType)
    (price quantity now : Int) (clk : Nat → Int) :
    (placeOrder L side price quantity now clk).trades =
        (placeOrder R side price quantity now clk).trades.map (renTrade (shiftId b d) e) ∧
      (placeOrder L side price quantity now clk).error.isSome =
        (placeOrder R side price quantity now clk).error.isSome ∧
      Twin b d e (placeOrder L side price quantity now clk).state
        (placeOrder R side price quantity now clk).state := by
  by_cases hv : price ≤ 0 ∨ quantity ≤ 0
  · rw [placeOrder_invalid _ _ _ _ _ _ hv, placeOrder_invalid _ _ _ _ _ _ hv]
    exact ⟨rfl, rfl, h⟩
  · rw [placeOrder_ok L logL side price quantity now clk hL hv,
      placeOrder_ok R logR side price quantity now clk hR hv]
    have hnew : newOrder L side price quantity now =
        renOrder (shiftId b d) (newOrder R side price quantity now) := by
      simp only [newOrder, renOrder, h.nextOrder, shiftId_ge b d _ h.boundary]
    have hopp : oppSide L side = renBook (shiftId b d) (oppSide R side) := by
      rw [oppSide_eq, oppSide_eq, h.sides]
    rw [hnew, hopp, h.nextTrade, matchOrder_ren]
    generalize matchOrder side clk (newOrder R side price quantity now) (oppSide R side)
      R.nextTradeId = m
    simp only [renOrder_is_filled]
    have hafter : Twin b d e
        (afterMatch L side ⟨renOrder (shiftId b d) m.order, renBook (shiftId b d) m.book,
          m.tradeId + e, m.trades.map (renTrade (shiftId b d) e)⟩) (afterMatch R side m) := by
      refine ⟨fun t => ?_, ?_, ?_, ?_⟩
      · rcases side_cases side t with rfl | rfl
        · rw [ownSide_afterMatch_self, ownSide_afterMatch_self, h.sides]
        · rw [ownSide_afterMatch_other, ownSide_afterMatch_other]
      · rw [nextOrderId_afterMatch, nextOrderId_afterMatch, h.nextOrder]
        ring
      · rw [nextTradeId_afterMatch, nextTradeId_afterMatch]
      · rw [nextOrderId_afterMatch]
        have := h.boundary
        omega
    split_ifs with hf
    · exact ⟨rfl, rfl, hafter⟩
    · refine ⟨rfl, rfl, fun t => ?_, ?_, ?_, ?_⟩
      · rcases side_cases side t with rfl | rfl
        · rw [ownSide_restOrder_self, ownSide_restOrder_self, hafter.sides, pushAt_ren]
        · rw [ownSide_restOrder_other, ownSide_restOrder_other, hafter.sides]
      · rw [nextOrderId_restOrder, nextOrderId_restOrder, hafter.nextOrder]
      · rw [nextTradeId_restOrder, nextTradeId_restOrder, hafter.nextTrade]
      · rw [nextOrderId_restOrder]
        exact hafter.boundary

theorem twin_cancel (b d e : Int) (hd : 0 ≤ d) (L R : OrderBook) (logL logR : List Trade)
    (hL : EngineInv L logL) (hR : EngineInv R logR) (h : Twin b d e L R) (id : Int) :
    (cancelOrder L (shiftId b d id)).trades =
        (cancelOrder R id).trades.map (renTrade (shiftId b d) e) ∧
      (cancelOrder L (shiftId b d id)).error.isSome = (cancelOrder R id).error.isSome ∧
      Twin b d e (cancelOrder L (shiftId b d id)).state (cancelOrder R id).state := by
  have hinj := shiftId_injective b d hd
  by_cases hres : ∃ t, ∃ o ∈ restingOrders (ownSide R t), o.id = id
  · obtain ⟨t, o, ho, hid⟩ := hres
    have hoL : renOrder (shiftId b d) o ∈ restingOrders (ownSide L t) := by
      rw [h.sides, restingOrders_ren]
      exact List.mem_map_of_mem _ ho
    have h1 := cancelOrder_ok_state R logR hR t o ho
    have h2 := cancelOrder_ok_state L logL hL t _ hoL
    simp only [renOrder_id, renOrder_price] at h2
    rw [hid] at h1 h2
    rw [h1, h2, h.sides, cancelInSide_ren _ hinj]
    refine ⟨rfl, rfl, fun t1 => ?_, ?_, ?_, ?_⟩
    · show ownSide (setOwnSide L t
          (renBook (shiftId b d) (cancelInSide (ownSide R t) o.price id).1)) t1 =
        renBook (shiftId b d)
          (ownSide (setOwnSide R t (cancelInSide (ownSide R t) o.price id).1) t1)
      rcases side_cases t t1 with rfl | rfl
      · rw [ownSide_setOwnSide_self, ownSide_setOwnSide_self]
      · rw [ownSide_setOwnSide_other, ownSide_setOwnSide_other, h.sides]
    · show (setOwnSide L t _).nextOrderId = (setOwnSide R t _).nextOrderId + d
      rw [nextOrderId_setOwnSide, nextOrderId_setOwnSide, h.nextOrder]
    · show (setOwnSide L t _).nextTradeId = (setOwnSide R t _).nextTradeId + e
      rw [nextTradeId_setOwnSide, nextTradeId_setOwnSide, h.nextTrade]
    · show b ≤ (setOwnSide R t _).nextOrderId
      rw [nextOrderId_setOwnSide]
      exact h.boundary
  · have hR1 : (cancelOrder R id).error ≠ none := fun hc =>
      hres ((cancelOrder_ok_iff R logR hR id).mp hc)
    have hL1 : (cancelOrder L (shiftId b d id)).error ≠ none := by
      intro hc
      obtain ⟨t, oL, hoL, hidL⟩ := (cancelOrder_ok_iff L logL hL _).mp hc
      rw [h.sides, restingOrders_ren] at hoL
      obtain ⟨o, ho, hoo⟩ := List.mem_map.mp hoL
      rw [← hoo, renOrder_id] at hidL
      exact hres ⟨t, o, ho, hinj hidL⟩
    obtain ⟨r1, r2⟩ := cancelOrder_fail_state R logR hR id hR1
    obtain ⟨l1, l2⟩ := cancelOrder_fail_state L logL hL _ hL1
    rw [r1, r2, l1, l2]
    refine ⟨rfl, ?_, h⟩
    rw [Option.isSome_iff_ne_none.mpr hL1, Option.isSome_iff_ne_none.mpr hR1]

theorem twin_step (b d e : Int) (hd : 0 ≤ d) (L R : OrderBook) (logL logR : List Trade)
    (hL : EngineInv L logL) (hR : EngineInv R logR) (h : Twin b d e L R) (c : Command) :
    (step L (shiftCommand b d c)).trades =
        (step R c).trades.map (renTrade (shiftId b d) e) ∧
      (step L (shiftCommand b d c)).error.isSome = (step R c).error.isSome ∧
      Twin b d e (step L (shiftCommand b d c)).state (step R c).state := by
  cases c with
  | place side price quantity now clk =>
    exact twin_place b d e L R logL logR hL hR h side price quantity now clk
  | cancel id => exact twin_cancel b d e hd L R logL logR hL hR h id

/-- Which commands of a run throw, in order. -/
def runErrors (s : OrderBook) : List Command → List Bool
  | [] => []
  | c :: cs => (step s c).error.isSome :: runErrors (step s c).state cs

theorem twin_run (b d e : Int) (hd : 0 ≤ d) (cs : List Command) :
    ∀ (L R : OrderBook) (gL gR logL logR : List Trade), EngineInv L gL → EngineInv R gR →
      Twin b d e L R → logL = logR.map (renTrade (shiftId b d) e) →
      (runFrom L logL (cs.map (shiftCommand b d))).2 =
          (runFrom R logR cs).2.map (renTrade (shiftId b d) e) ∧
        runErrors L (cs.map (shiftCommand b d)) = runErrors R cs ∧
        Twin b d e (runFrom L logL (cs.map (shiftCommand b d))).1 (runFrom R logR cs).1 := by
  induction cs with
  | nil => intro L R gL gR logL logR _ _ h hlog; exact ⟨hlog, rfl, h⟩
  | cons c cs ih =>
    intro L R gL gR logL logR hL hR h hlog
    obtain ⟨h1, h2, h3⟩ := twin_step b d e hd L R gL gR hL hR h c
    obtain ⟨k1, k2, k3⟩ := ih _ _ _ _ (logL ++ (step L (shiftCommand b d c)).trades)
      (logR ++ (step R c).trades) (engineInv_step L gL _ hL) (engineInv_step R gR c hR) h3
      (by rw [List.map_append, hlog, h1])
    simp only [List.map_cons, runFrom, runErrors]
    exact ⟨k1, by rw [h2, k2], k3⟩

theorem renBook_fixed (f : Int → Int) (m : PriceMap)
    (h : ∀ o ∈ restingOrders m, f o.id = o.id) : renBook f m = m := by
  induction m with
  | nil => rfl
  | cons l rest ih =>
    obtain ⟨p, q⟩ := l
    simp only [restingOrders, List.mem_append] at h
    have hq : q.map (renOrder f) = q := by
      conv_rhs => rw [← List.map_id q]
      refine List.map_congr_left (fun o ho => ?_)
      simp only [renOrder, h o (Or.inl ho), id]
    have hr := ih (fun o ho => h o (Or.inr ho))
    simp only [renBook, List.map_cons] at hr ⊢
    rw [hq, hr]

/-! ### The engine a restart builds -/

/-- The engine the constructor builds from the two files the engine `s` writes. -/
def restart (s : OrderBook) : OrderBook :=
  OrderBook.construct (some (exportActiveOrders s.buyOrders s.sellOrders).buyFile)
    (some (exportActiveOrders s.buyOrders s.sellOrders).sellFile)

/-- A trade that stands for what has been filled of the resting order `o` of type `side`. -/
def ghostTrade (side : OrderType) (o : Order) : Trade :=
  match side with
  | .BUY => ⟨0, o.id, 0, 0, o.filled_quantity, 0⟩
  | .SELL => ⟨0, 0, o.id, 0, o.filled_quantity, 0⟩

/-- A log that accounts for the fills of the orders resting in `s`. -/
def ghostLog (s : OrderBook) : List Trade :=
  (restingOrders (ownSide s .BUY)).map (ghostTrade .BUY) ++
    (restingOrders (ownSide s .SELL)).map (ghostTrade .SELL)

theorem incomingId_ghost_self (side : OrderType) (o : Order) :
    incomingId side (ghostTrade side o) = o.id := by
  cases side <;> rfl

theorem incomingId_ghost_other (side : OrderType) (o : Order) :
    incomingId side (ghostTrade side.other o) = 0 := by
  cases side <;> rfl

theorem quantity_ghost (side : OrderType) (o : Order) :
    (ghostTrade side o).quantity = o.filled_quantity := by
  cases side <;> rfl

theorem tradedFor_ghost_self (side : OrderType) (l : List Order)
    (hnd : (l.map Order.id).Nodup) (o : Order) (ho : o ∈ l) :
    tradedFor side o.id (l.map (ghostTrade side)) = o.filled_quantity := by
  induction l with
  | nil => simp at ho
  | cons a rest ih =>
    rw [List.map_cons, List.nodup_cons] at hnd
    rw [List.map_cons, tradedFor_cons, incomingId_ghost_self, quantity_ghost]
    rcases List.mem_cons.mp ho with rfl | ho
    · rw [tradedFor_eq_zero]
      · simp
      · intro t ht hid
        obtain ⟨x, hx, rfl⟩ := List.mem_map.mp ht
        rw [incomingId_ghost_self] at hid
        exact hnd.1 (hid ▸ List.mem_map_of_mem _ hx)
    · have hne : a.id ≠ o.id := fun hc => hnd.1 (hc ▸ List.mem_map_of_mem _ ho)
      rw [if_neg hne, ih hnd.2 ho, zero_add]

theorem tradedFor_ghost_other (side : OrderType) (l : List Order) (id : Int) (hid : id ≠ 0) :
    tradedFor side id (l.map (ghostTrade side.other)) = 0 := by
  refine tradedFor_eq_zero _ _ _ (fun t ht hc => ?_)
  obtain ⟨x, _, rfl⟩ := List.mem_map.mp ht
  rw [incomingId_ghost_other] at hc
  exact hid hc.symm

theorem tradedFor_ghostLog (s : OrderBook) (side : OrderType) (id : Int) :
    tradedFor side id (ghostLog s) =
      tradedFor side id ((restingOrders (ownSide s side)).map (ghostTrade side)) +
        tradedFor side id ((restingOrders (ownSide s side.other)).map (ghostTrade side.other)) := by
  cases side
  · simp only [ghostLog, tradedFor_append, OrderType.other]
  · simp only [ghostLog, tradedFor_append, OrderType.other]
    ring

theorem mem_ghostLog (s : OrderBook) (t : Trade) (h : t ∈ ghostLog s) :
    ∃ side, ∃ o ∈ restingOrders (ownSide s side), t = ghostTrade side o := by
  rcases List.mem_append.mp h with h | h
  · obtain ⟨o, ho, rfl⟩ := List.mem_map.mp h
    exact ⟨.BUY, o, ho, rfl⟩
  · obtain ⟨o, ho, rfl⟩ := List.mem_map.mp h
    exact ⟨.SELL, o, ho, rfl⟩

theorem mem_resting_both (s : OrderBook) (side : OrderType) (o : Order)
    (h : o ∈ restingOrders (ownSide s side)) :
    o ∈ restingOrders s.buyOrders ++ restingOrders s.sellOrders := by
  cases side
  · exact List.mem_append_left _ h
  · exact List.mem_append_right _ h

theorem mem_resting_side (s : OrderBook) (o : Order)
    (h : o ∈ restingOrders s.buyOrders ++ restingOrders s.sellOrders) :
    ∃ side, o ∈ restingOrders (ownSide s side) := by
  rcases List.mem_append.mp h with h | h
  · exact ⟨.BUY, h⟩
  · exact ⟨.SELL, h⟩

/-- An engine that holds the books of a state of the live engine, an index of
exactly the resting orders and an order counter just above them satisfies the
invariant of the engine, with the ghost log as its history. -/
theorem engineInv_rebuilt (L R : OrderBook) (logL : List Trade) (hL : EngineInv L logL)
    (hs : ∀ t, ownSide R t = ownSide L t) (hk : R.allOrders.keyed)
    (hcov : ∀ o ∈ restingOrders R.buyOrders ++ restingOrders R.sellOrders,
      (R.allOrders.find o.id).isSome = true)
    (hfrom : ∀ id e, R.allOrders.find id = some e →
      e ∈ restingOrders R.buyOrders ++ restingOrders R.sellOrders)
    (hcount : R.nextOrderId =
      ((restingOrders R.buyOrders ++ restingOrders R.sellOrders).map
        (fun o => o.id + 1)).foldl max 1) :
    EngineInv R (ghostLog R) := by
  obtain ⟨m1, m2, _⟩ := foldl_max_spec
    ((restingOrders R.buyOrders ++ restingOrders R.sellOrders).map (fun o => o.id + 1)) 1
  rw [← hcount] at m1 m2
  have hb : R.buyOrders = L.buyOrders := hs .BUY
  have hsell : R.sellOrders = L.sellOrders := hs .SELL
  have hrange : ∀ side, ∀ o ∈ restingOrders (ownSide R side), 1 ≤ o.id ∧ o.id < R.nextOrderId := by
    intro side o ho
    have h1 := m2 (o.id + 1) (List.mem_map_of_mem _ (mem_resting_both R side o ho))
    rw [hs] at ho
    have h2 := (hL.idRange side o ho).1
    omega
  have hty : ∀ side, ∀ o ∈ restingOrders (ownSide R side), o.type = side := by
    intro side o ho
    rw [hs] at ho
    obtain ⟨l, hl, hol⟩ := mem_restingOrders.mp ho
    exact (hL.keyed side l hl o hol).2
  have huniq : ∀ side, ∀ o ∈ restingOrders (ownSide R side),
      ∀ e ∈ restingOrders R.buyOrders ++ restingOrders R.sellOrders, e.id = o.id → e = o := by
    intro side o ho e he hid
    obtain ⟨t, het⟩ := mem_resting_side R e he
    have hoL := ho
    have heL := het
    rw [hs] at hoL heL
    obtain ⟨x, hx, hxs, _⟩ := hL.index side o hoL
    obtain ⟨y, hy, hys, _⟩ := hL.index t e heL
    rw [hid, hx] at hy
    have hxy : e.static = o.static := by
      rw [← hys, ← hxs, Option.some.inj hy]
    have htt : t = side := by
      rw [← hty t e het, ← hty side o ho]
      exact static_type hxy
    subst htt
    exact List.inj_on_of_nodup_map (hL.nodup t) heL hoL hid
  refine ⟨⟨hsell ▸ hL.ordered.sells, hb ▸ hL.ordered.buys, ?_⟩, ?_, ?_, ?_, hrange, ?_, ?_, ?_, m1,
    ?_, ?_⟩
  · rw [hb, hsell]
    exact hL.ordered.nocross
  · intro side l hl
    rw [hs] at hl
    exact hL.nonempty side l hl
  · intro side l hl
    rw [hs] at hl
    exact hL.keyed side l hl
  · intro side o ho
    rw [hs] at ho
    exact hL.isOpen side o ho
  · intro side
    rw [hs]
    exact hL.nodup side
  · intro side o ho
    have hsome := hcov o (mem_resting_both R side o ho)
    obtain ⟨e, he⟩ := Option.isSome_iff_exists.mp hsome
    have heq := huniq side o ho e (hfrom _ e he) (hk _ e he)
    subst heq
    refine ⟨e, he, rfl, ?_⟩
    rw [hs] at ho
    have := hL.isOpen side e ho
    simp only [Order.isOpen] at this
    simp only [Order.is_filled, Order.remaining, beq_eq_false_iff_ne, ne_eq]
    omega
  · intro id e he
    obtain ⟨t, het⟩ := mem_resting_side R e (hfrom id e he)
    have := hrange t e het
    rw [hk id e he] at this
    exact ⟨hk id e he, this⟩
  · intro t ht side
    obtain ⟨t1, o, ho, rfl⟩ := mem_ghostLog R t ht
    rcases side_cases side t1 with rfl | rfl
    · rw [incomingId_ghost_self]
      exact (hrange _ o ho).2
    · rw [incomingId_ghost_other]
      omega
  · intro side o ho
    have hid := (hrange side o ho).1
    rw [tradedFor_ghostLog, tradedFor_ghost_other side _ _ (by omega), add_zero,
      tradedFor_ghost_self side _ (by rw [hs]; exact hL.nodup side) o ho]

theorem restart_sides (s : OrderBook) (log : List Trade) (h : EngineInv s log)
    (hfit : ∀ l ∈ s.buyOrders ++ s.sellOrders, ∀ o ∈ l.2, o.fits) :
    (restart s).buyOrders = s.buyOrders ∧ (restart s).sellOrders = s.sellOrders := by
  have hb := loadOrderType_export buyBefore .BUY s.buyOrders
    (h.ordered.buys.imp
      (fun {a b} hab => ⟨ne_of_gt hab, by simp only [buyBefore, decide_eq_false_iff_not]; omega⟩))
    (h.keyed .BUY) (h.nonempty .BUY)
    (fun o ho => by
      obtain ⟨l, hl, hol⟩ := mem_restingOrders.mp ho
      exact hfit l (List.mem_append_left _ hl) o hol)
  have hs := loadOrderType_export sellBefore .SELL s.sellOrders
    (h.ordered.sells.imp
      (fun {a b} hab => ⟨ne_of_lt hab, by simp only [sellBefore, decide_eq_false_iff_not]; omega⟩))
    (h.keyed .SELL) (h.nonempty .SELL)
    (fun o ho => by
      obtain ⟨l, hl, hol⟩ := mem_restingOrders.mp ho
      exact hfit l (List.mem_append_right _ hl) o hol)
  exact ⟨hb, hs⟩

/-- How far the order counter of the live engine `s` is ahead of the counter a
restart computes from the resting orders. -/
def orderIdGap (s : OrderBook) : Int := s.nextOrderId - (restart s).nextOrderId

/-- How far the trade counter of the live engine `s` is ahead of the initial 1 of
a restarted engine. -/
def tradeIdGap (s : OrderBook) : Int := s.nextTradeId - 1

/-- The id the live engine gives to the order the restarted engine knows as `id`:
the ids of the orders resting at the restart are shared, later ones are higher by
the gap of the order counters. -/
def liveId (s : OrderBook) (id : Int) : Int := shiftId (restart s).nextOrderId (orderIdGap s) id

/-- The trade of the restarted engine as the live engine emits it: order ids
translated, trade id raised by the gap of the trade counters, price, quantity and
timestamp unchanged. -/
def liveTrade (s : OrderBook) (t : Trade) : Trade := renTrade (liveId s) (tradeIdGap s) t

/-- The command of the restarted engine as the live engine has to receive it. -/
def liveCommand (s : OrderBook) (c : Command) : Command :=
  shiftCommand (restart s).nextOrderId (orderIdGap s) c

/-- The command is a `placeOrder`. -/
def Command.isPlace : Command → Bool
  | .place _ _ _ _ _ => true
  | .cancel _ => false

theorem map_shiftCommand_place (b d : Int) (cs : List Command)
    (h : ∀ c ∈ cs, c.isPlace = true) : cs.map (shiftCommand b d) = cs := by
  conv_rhs => rw [← List.map_id cs]
  refine List.map_congr_left (fun c hc => ?_)
  have := h c hc
  cases c with
  | place side price quantity now clk => rfl
  | cancel id => simp [Command.isPlace] at this

theorem map_shiftCommand_zero (b : Int) (cs : List Command) :
    cs.map (shiftCommand b 0) = cs := by
  conv_rhs => rw [← List.map_id cs]
  refine List.map_congr_left (fun c _ => ?_)
  cases c with
  | place side price quantity now clk => rfl
  | cancel id => simp [shiftCommand, shiftId]

theorem map_renTrade_zero (b : Int) (ts : List Trade) :
    ts.map (renTrade (shiftId b 0) 0) = ts := by
  conv_rhs => rw [← List.map_id ts]
  refine List.map_congr_left (fun t _ => ?_)
  simp [renTrade, shiftId]

/-- The restarted engine and the live engine it was written from are twins. -/
theorem twin_restart (s : OrderBook) (log : List Trade) (h : EngineInv s log)
    (hfit : ∀ l ∈ s.buyOrders ++ s.sellOrders, ∀ o ∈ l.2, o.fits)
    (hmax : s.nextOrderId ≤ 2147483647) :
    EngineInv (restart s) (ghostLog (restart s)) ∧
      (restart s).nextOrderId ≤ s.nextOrderId ∧
      Twin (restart s).nextOrderId (orderIdGap s) (s.nextTradeId - 1) s (restart s) := by
  obtain ⟨hb, hs⟩ := restart_sides s log h hfit
  have hsides : ∀ t, ownSide (restart s) t = ownSide s t := by
    intro t
    cases t
    · exact hb
    · exact hs
  obtain ⟨hk, hcov, hfrom⟩ := construct_index
    (some (exportActiveOrders s.buyOrders s.sellOrders).buyFile)
    (some (exportActiveOrders s.buyOrders s.sellOrders).sellFile)
  have hcount := construct_counter_of_lt
    (some (exportActiveOrders s.buyOrders s.sellOrders).buyFile)
    (some (exportActiveOrders s.buyOrders s.sellOrders).sellFile)
    (fun o ho => by
      obtain ⟨t, hot⟩ := mem_resting_side (restart s) o ho
      rw [hsides] at hot
      have := h.idRange t o hot
      omega)
  have hR : EngineInv (restart s) (ghostLog (restart s)) :=
    engineInv_rebuilt s (restart s) log h hsides hk hcov hfrom hcount
  have hle : (restart s).nextOrderId ≤ s.nextOrderId := by
    obtain ⟨_, _, m3⟩ := foldl_max_spec
      ((restingOrders (restart s).buyOrders ++ restingOrders (restart s).sellOrders).map
        (fun o => o.id + 1)) 1
    have hc : (restart s).nextOrderId =
        ((restingOrders (restart s).buyOrders ++ restingOrders (restart s).sellOrders).map
          (fun o => o.id + 1)).foldl max 1 := hcount
    rw [← hc] at m3
    rcases m3 with m3 | m3
    · rw [m3]
      exact h.counters
    · obtain ⟨o, ho, hoo⟩ := List.mem_map.mp m3
      obtain ⟨t, hot⟩ := mem_resting_side (restart s) o ho
      rw [hsides] at hot
      have := (h.idRange t o hot).2
      omega
  refine ⟨hR, hle, fun t => ?_, ?_, ?_, le_refl _⟩
  · rw [renBook_fixed _ _ (fun o ho => ?_), hsides]
    have := (hR.idRange t o ho).2
    simp only [shiftId, this, ↓reduceIte]
  · simp only [orderIdGap]
    ring
  · show s.nextTradeId = 1 + (s.nextTradeId - 1)
    ring

/-! ## No empty levels -/

/-- Claim C21 (no empty levels). In every state reached from a fresh engine, and in
the state every further `placeOrder` or `cancelOrder` call leaves behind, whether
it returns or throws, every price key present in `buyOrders` or `sellOrders` maps
to a non-empty queue. -/
theorem no_empty_levels (cs : List Command) (c : Command) :
    (∀ l ∈ (run cs).1.buyOrders ++ (run cs).1.sellOrders, l.2 ≠ []) ∧
    (∀ l ∈ (step (run cs).1 c).state.buyOrders ++ (step (run cs).1 c).state.sellOrders,
      l.2 ≠ []) := by
  have h := engineInv_run cs
  have h1 := engineInv_step (run cs).1 (run cs).2 c h
  refine ⟨fun l hl => ?_, fun l hl => ?_⟩
  · rcases List.mem_append.mp hl with hl | hl
    · exact h.nonempty .BUY l hl
    · exact h.nonempty .SELL l hl
  · rcases List.mem_append.mp hl with hl | hl
    · exact h1.nonempty .BUY l hl
    · exact h1.nonempty .SELL l hl

/-- Scenario S5 and what follows it: after the bid has walked the asks at 100 and
101 the only ask level left is 102 with its order, and the level 101 the bid rests
at disappears when the bid is cancelled. -/
theorem no_empty_levels_witness :
    (run [.place .SELL 100 3 0 clock0, .place .SELL 101 3 0 clock0,
      .place .SELL 102 3 0 clock0, .place .BUY 101 7 0 clock0]).1.sellOrders =
        [(102, [⟨3, .SELL, 102, 3, 0, 0⟩])] ∧
    ((102, [⟨3, .SELL, 102, 3, 0, 0⟩]) : Level).2 ≠ [] ∧
    (step (run [.place .SELL 100 3 0 clock0, .place .SELL 101 3 0 clock0,
      .place .SELL 102 3 0 clock0, .place .BUY 101 7 0 clock0]).1 (.cancel 4)).state.buyOrders
        = [] ∧
    ((102, [⟨3, .SELL, 102, 3, 0, 0⟩]) : Level).2 ≠ [] :=
  ⟨by decide,
    (no_empty_levels [.place .SELL 100 3 0 clock0, .place .SELL 101 3 0 clock0,
      .place .SELL 102 3 0 clock0, .place .BUY 101 7 0 clock0] (.cancel 4)).1
      (102, [⟨3, .SELL, 102, 3, 0, 0⟩]) (by decide),
    by decide,
    (no_empty_levels [.place .SELL 100 3 0 clock0, .place .SELL 101 3 0 clock0,
      .place .SELL 102 3 0 clock0, .place .BUY 101 7 0 clock0] (.cancel 4)).2
      (102, [⟨3, .SELL, 102, 3, 0, 0⟩]) (by decide)⟩

/-! ## A cancelled order never trades -/

theorem placeOrder_ok_trades (s : OrderBook) (log : List Trade) (side : OrderType)
    (price quantity now : Int) (clk : Nat → Int) (h : EngineInv s log)
    (hv : ¬ (price ≤ 0 ∨ quantity ≤ 0)) :
    (placeOrder s side price quantity now clk).trades =
      (matchOrder side clk (newOrder s side price quantity now) (oppSide s side)
        s.nextTradeId).trades := by
  rw [placeOrder_ok s log side price quantity now clk h hv]
  split_ifs <;> rfl

/-- The order `o` with its timestamp erased. -/
def untimeOrder (o : Order) : Order := { o with timestamp := 0 }

/-- The map `m` with the timestamps of its orders erased. -/
def untimeBook (m : PriceMap) : PriceMap :=
  m.map (fun l => (l.1, l.2.map untimeOrder))

/-- The trade `t` with its timestamp erased. -/
def untimeTrade (t : Trade) : Trade := { t with timestamp := 0 }

@[simp] theorem untimeOrder_remaining (o : Order) : (untimeOrder o).remaining = o.remaining := rfl

@[simp] theorem untimeOrder_is_filled (o : Order) : (untimeOrder o).is_filled = o.is_filled := rfl

@[simp] theorem untimeOrder_price (o : Order) : (untimeOrder o).price = o.price := rfl

@[simp] theorem untimeOrder_id (o : Order) : (untimeOrder o).id = o.id := rfl

@[simp] theorem untimeOrder_fill (o : Order) (qty : Int) :
    fill (untimeOrder o) qty = untimeOrder (fill o qty) := rfl

theorem untimeTrade_mkTrade (side : OrderType) (tid : Int) (inc r : Order) (qty ts : Int) :
    untimeTrade (mkTrade side tid inc r qty ts) =
      mkTrade side tid (untimeOrder inc) (untimeOrder r) qty 0 := by
  cases side <;> rfl

theorem levelRun_untimed (side : OrderType) (clk : Nat → Int) (q : List Order) :
    ∀ (inc : Order) (tid : Int) (trades : List Trade),
      levelRun side clock0 (untimeOrder inc) tid (trades.map untimeTrade)
          (q.map untimeOrder) =
        ⟨untimeOrder (levelRun side clk inc tid trades q).order,
          (levelRun side clk inc tid trades q).queue.map untimeOrder,
          (levelRun side clk inc tid trades q).tradeId,
          (levelRun side clk inc tid trades q).trades.map untimeTrade⟩ := by
  induction q with
  | nil => intro inc tid trades; rfl
  | cons r rest ih =>
    intro inc tid trades
    simp only [List.map_cons, levelRun, untimeOrder_is_filled, untimeOrder_remaining,
      untimeOrder_fill, List.length_map, clock0]
    split_ifs with hf hr
    · rfl
    · have := ih (fill inc (min inc.remaining r.remaining)) (tid + 1)
        (trades ++ [mkTrade side tid inc r (min inc.remaining r.remaining) (clk trades.length)])
      rw [List.map_append, List.map_singleton, untimeTrade_mkTrade] at this
      rw [← this]
    · simp only [List.map_append, List.map_singleton, untimeTrade_mkTrade, List.map_cons,
        List.map_nil]

theorem levelsRun_untimed (side : OrderType) (clk : Nat → Int) (book : PriceMap) :
    ∀ (inc : Order) (tid : Int) (trades : List Trade),
      levelsRun side clock0 (untimeOrder inc) tid (trades.map untimeTrade) (untimeBook book) =
        ⟨untimeOrder (levelsRun side clk inc tid trades book).order,
          untimeBook (levelsRun side clk inc tid trades book).book,
          (levelsRun side clk inc tid trades book).tradeId,
          (levelsRun side clk inc tid trades book).trades.map untimeTrade⟩ := by
  induction book with
  | nil => intro inc tid trades; rfl
  | cons l rest ih =>
    intro inc tid trades
    obtain ⟨p, q⟩ := l
    simp only [untimeBook, List.map_cons, levelsRun, untimeOrder_is_filled, untimeOrder_price,
      levelRun_untimed side clk]
    split_ifs with hf hp hq hq2 hq3
    · rfl
    · rfl
    · exact ih _ _ _
    · simp [List.isEmpty_iff] at hq hq2
      exact absurd hq hq2
    · simp [List.isEmpty_iff] at hq hq3
      exact absurd hq3 hq
    · have := ih (levelRun side clk inc tid trades q).order
        (levelRun side clk inc tid trades q).tradeId (levelRun side clk inc tid trades q).trades
      simp only [untimeBook] at this
      simp only [this, List.map_cons]

theorem matchOrder_untimed (side : OrderType) (clk : Nat → Int) (inc : Order) (book : PriceMap)
    (tid : Int) :
    matchOrder side clock0 (untimeOrder inc) (untimeBook book) tid =
      ⟨untimeOrder (matchOrder side clk inc book tid).order,
        untimeBook (matchOrder side clk inc book tid).book,
        (matchOrder side clk inc book tid).tradeId,
        (matchOrder side clk inc book tid).trades.map untimeTrade⟩ :=
  levelsRun_untimed side clk book inc tid []

theorem pushAt_untimed (before : Int → Int → Bool) (m : PriceMap) (price : Int) (o : Order) :
    (untimeBook m).pushAt before price (untimeOrder o) =
      untimeBook (m.pushAt before price o) := by
  induction m with
  | nil => rfl
  | cons l rest ih =>
    obtain ⟨k, q⟩ := l
    simp only [untimeBook, List.map_cons, PriceMap.pushAt] at ih ⊢
    split_ifs
    · simp
    · rfl
    · simp only [List.map_cons, ih]

theorem count_untimed (m : PriceMap) (price : Int) :
    (untimeBook m).count price = m.count price := by
  simp [PriceMap.count, untimeBook, List.any_map, Function.comp_def]

theorem get_untimed (m : PriceMap) (price : Int) :
    (untimeBook m).get price = (m.get price).map untimeOrder := by
  induction m with
  | nil => rfl
  | cons l rest ih =>
    obtain ⟨k, q⟩ := l
    simp only [untimeBook, List.map_cons, PriceMap.get] at ih ⊢
    split_ifs
    · rfl
    · exact ih

theorem setAt_untimed (m : PriceMap) (price : Int) (q : List Order) :
    (untimeBook m).setAt price (q.map untimeOrder) = untimeBook (m.setAt price q) := by
  induction m with
  | nil => rfl
  | cons l rest ih =>
    obtain ⟨k, q0⟩ := l
    simp only [untimeBook, List.map_cons, PriceMap.setAt] at ih ⊢
    split_ifs
    · rfl
    · simp only [List.map_cons, ih]

theorem erase_untimed (m : PriceMap) (price : Int) :
    (untimeBook m).erase price = untimeBook (m.erase price) := by
  simp only [PriceMap.erase, untimeBook, List.filter_map]
  rfl

theorem removeFromQueue_untimed (id : Int) (q : List Order) :
    removeFromQueue id (q.map untimeOrder) =
      ((removeFromQueue id q).1.map untimeOrder, (removeFromQueue id q).2) := by
  simp only [removeFromQueue, List.filter_map, List.any_map, Function.comp_def, untimeOrder_id]

theorem cancelInSide_untimed (m : PriceMap) (price id : Int) :
    cancelInSide (untimeBook m) price id =
      (untimeBook (cancelInSide m price id).1, (cancelInSide m price id).2) := by
  simp only [cancelInSide, count_untimed, get_untimed, removeFromQueue_untimed, setAt_untimed,
    List.isEmpty_iff, erase_untimed]
  split_ifs with h1 h2 h3 h4
  · rfl
  · simp only [List.map_eq_nil_iff] at h2
    exact absurd h2 h3
  · simp only [List.map_eq_nil_iff] at h2
    exact absurd h4 h2
  · rfl
  · rfl

theorem restingOrders_untimed (m : PriceMap) :
    restingOrders (untimeBook m) = (restingOrders m).map untimeOrder := by
  induction m with
  | nil => rfl
  | cons l rest ih =>
    obtain ⟨p, q⟩ := l
    simp only [untimeBook, List.map_cons, restingOrders, List.map_append] at ih ⊢
    rw [ih]

/-- The two commands are the same call: they differ at most in the clock readings. -/
def Command.sameCall : Command → Command → Prop
  | .place t p q _ _, .place t1 p1 q1 _ _ => t = t1 ∧ p = p1 ∧ q = q1
  | .cancel id, .cancel id1 => id = id1
  | _, _ => False

/-- The two engines hold the same books up to the timestamps of the orders, and
the same two counters. -/
structure Alike (a b : OrderBook) : Prop where
  sides : ∀ t, untimeBook (ownSide a t) = untimeBook (ownSide b t)
  nextOrder : a.nextOrderId = b.nextOrderId
  nextTrade : a.nextTradeId = b.nextTradeId

theorem alike_place (a b : OrderBook) (la lb : List Trade) (ha : EngineInv a la)
    (hb : EngineInv b lb) (h : Alike a b) (side : OrderType) (price quantity : Int)
    (now now1 : Int) (clk clk1 : Nat → Int) :
    (placeOrder a side price quantity now clk).trades.map untimeTrade =
        (placeOrder b side price quantity now1 clk1).trades.map untimeTrade ∧
      (placeOrder a side price quantity now clk).error.isSome =
        (placeOrder b side price quantity now1 clk1).error.isSome ∧
      Alike (placeOrder a side price quantity now clk).state
        (placeOrder b side price quantity now1 clk1).state := by
  by_cases hv : price ≤ 0 ∨ quantity ≤ 0
  · rw [placeOrder_invalid _ _ _ _ _ _ hv, placeOrder_invalid _ _ _ _ _ _ hv]
    exact ⟨rfl, rfl, h⟩
  · rw [placeOrder_ok a la side price quantity now clk ha hv,
      placeOrder_ok b lb side price quantity now1 clk1 hb hv]
    have ma := matchOrder_untimed side clk (newOrder a side price quantity now) (oppSide a side)
      a.nextTradeId
    have mb := matchOrder_untimed side clk1 (newOrder b side price quantity now1)
      (oppSide b side) b.nextTradeId
    have hnew : untimeOrder (newOrder a side price quantity now) =
        untimeOrder (newOrder b side price quantity now1) := by
      simp only [newOrder, untimeOrder, h.nextOrder]
    have hopp : untimeBook (oppSide a side) = untimeBook (oppSide b side) := by
      rw [oppSide_eq, oppSide_eq, h.sides]
    generalize matchOrder side clk (newOrder a side price quantity now) (oppSide a side)
      a.nextTradeId = m at ma
    generalize matchOrder side clk1 (newOrder b side price quantity now1) (oppSide b side)
      b.nextTradeId = m1 at mb
    rw [hnew, hopp, h.nextTrade, mb] at ma
    have e1 : untimeOrder m1.order = untimeOrder m.order := congrArg MatchState.order ma
    have e2 : untimeBook m1.book = untimeBook m.book := congrArg MatchState.book ma
    have e3 : m1.tradeId = m.tradeId := by
      have := congrArg MatchState.tradeId ma
      exact this
    have e4 : m1.trades.map untimeTrade = m.trades.map untimeTrade :=
      congrArg MatchState.trades ma
    have e5 : m1.order.is_filled = m.order.is_filled := by
      rw [← untimeOrder_is_filled m1.order, e1, untimeOrder_is_filled]
    have hafter : Alike (afterMatch a side m) (afterMatch b side m1) := by
      refine ⟨fun t => ?_, ?_, ?_⟩
      · rcases side_cases side t with rfl | rfl
        · rw [ownSide_afterMatch_self, ownSide_afterMatch_self, h.sides]
        · rw [ownSide_afterMatch_other, ownSide_afterMatch_other, e2]
      · rw [nextOrderId_afterMatch, nextOrderId_afterMatch, h.nextOrder]
      · rw [nextTradeId_afterMatch, nextTradeId_afterMatch, e3]
    rw [e5]
    split_ifs with hf
    · exact ⟨e4.symm, rfl, hafter⟩
    · refine ⟨e4.symm, rfl, fun t => ?_, ?_, ?_⟩
      · rcases side_cases side t with rfl | rfl
        · rw [ownSide_restOrder_self, ownSide_restOrder_self, ← pushAt_untimed,
            ← pushAt_untimed, hafter.sides, e1]
        · rw [ownSide_restOrder_other, ownSide_restOrder_other, hafter.sides]
      · rw [nextOrderId_restOrder, nextOrderId_restOrder, hafter.nextOrder]
      · rw [nextTradeId_restOrder, nextTradeId_restOrder, hafter.nextTrade]

theorem alike_resting (a b : OrderBook) (h : Alike a b) (t : OrderType) (o : Order)
    (ho : o ∈ restingOrders (ownSide a t)) :
    ∃ o1 ∈ restingOrders (ownSide b t), o1.id = o.id ∧ o1.price = o.price := by
  have h1 : untimeOrder o ∈ (restingOrders (ownSide b t)).map untimeOrder := by
    rw [← restingOrders_untimed, ← h.sides, restingOrders_untimed]
    exact List.mem_map_of_mem _ ho
  obtain ⟨o1, ho1, he⟩ := List.mem_map.mp h1
  have e1 := congrArg Order.id he
  have e2 := congrArg Order.price he
  exact ⟨o1, ho1, e1, e2⟩

theorem alike_symm {a b : OrderBook} (h : Alike a b) : Alike b a :=
  ⟨fun t => (h.sides t).symm, h.nextOrder.symm, h.nextTrade.symm⟩

theorem alike_cancel (a b : OrderBook) (la lb : List Trade) (ha : EngineInv a la)
    (hb : EngineInv b lb) (h : Alike a b) (id : Int) :
    (cancelOrder a id).trades.map untimeTrade = (cancelOrder b id).trades.map untimeTrade ∧
      (cancelOrder a id).error.isSome = (cancelOrder b id).error.isSome ∧
      Alike (cancelOrder a id).state (cancelOrder b id).state := by
  by_cases hres : ∃ t, ∃ o ∈ restingOrders (ownSide a t), o.id = id
  · obtain ⟨t, o, ho, hid⟩ := hres
    obtain ⟨o1, ho1, hid1, hp1⟩ := alike_resting a b h t o ho
    have h1 := cancelOrder_ok_state a la ha t o ho
    have h2 := cancelOrder_ok_state b lb hb t o1 ho1
    rw [hid1, hp1] at h2
    rw [hid] at h1 h2
    rw [h1, h2]
    refine ⟨rfl, rfl, fun t1 => ?_, ?_, ?_⟩
    · show untimeBook (ownSide (setOwnSide a t (cancelInSide (ownSide a t) o.price id).1) t1) =
        untimeBook (ownSide (setOwnSide b t (cancelInSide (ownSide b t) o.price id).1) t1)
      rcases side_cases t t1 with rfl | rfl
      · rw [ownSide_setOwnSide_self, ownSide_setOwnSide_self]
        have k1 := cancelInSide_untimed (ownSide a t1) o.price id
        have k2 := cancelInSide_untimed (ownSide b t1) o.price id
        rw [h.sides, k2] at k1
        exact (congrArg Prod.fst k1).symm
      · rw [ownSide_setOwnSide_other, ownSide_setOwnSide_other, h.sides]
    · show (setOwnSide a t _).nextOrderId = (setOwnSide b t _).nextOrderId
      rw [nextOrderId_setOwnSide, nextOrderId_setOwnSide, h.nextOrder]
    · show (setOwnSide a t _).nextTradeId = (setOwnSide b t _).nextTradeId
      rw [nextTradeId_setOwnSide, nextTradeId_setOwnSide, h.nextTrade]
  · have hA : (cancelOrder a id).error ≠ none := fun hc =>
      hres ((cancelOrder_ok_iff a la ha id).mp hc)
    have hB : (cancelOrder b id).error ≠ none := by
      intro hc
      obtain ⟨t, o1, ho1, hid1⟩ := (cancelOrder_ok_iff b lb hb id).mp hc
      obtain ⟨o, ho, hid, _⟩ := alike_resting b a (alike_symm h) t o1 ho1
      exact hres ⟨t, o, ho, hid.trans hid1⟩
    obtain ⟨r1, r2⟩ := cancelOrder_fail_state a la ha id hA
    obtain ⟨l1, l2⟩ := cancelOrder_fail_state b lb hb id hB
    rw [r1, r2, l1, l2]
    refine ⟨rfl, ?_, h⟩
    rw [Option.isSome_iff_ne_none.mpr hA, Option.isSome_iff_ne_none.mpr hB]

theorem alike_step (a b : OrderBook) (la lb : List Trade) (ha : EngineInv a la)
    (hb : EngineInv b lb) (h : Alike a b) (c c1 : Command) (hc : c.sameCall c1) :
    (step a c).trades.map untimeTrade = (step b c1).trades.map untimeTrade ∧
      (step a c).error.isSome = (step b c1).error.isSome ∧
      Alike (step a c).state (step b c1).state := by
  cases c with
  | place side price quantity now clk =>
    cases c1 with
    | place side1 price1 quantity1 now1 clk1 =>
      obtain ⟨rfl, rfl, rfl⟩ := hc
      exact alike_place a b la lb ha hb h side price quantity now now1 clk clk1
    | cancel id1 => exact absurd hc (fun h => h)
  | cancel id =>
    cases c1 with
    | place side1 price1 quantity1 now1 clk1 => exact absurd hc (fun h => h)
    | cancel id1 =>
      have hid : id = id1 := hc
      subst hid
      exact alike_cancel a b la lb ha hb h id

theorem alike_run (cs cs1 : List Command) (hcs : List.Forall₂ Command.sameCall cs cs1) :
    ∀ (a b : OrderBook) (ga gb la lb : List Trade), EngineInv a ga → EngineInv b gb →
      Alike a b → la.map untimeTrade = lb.map untimeTrade →
      (runFrom a la cs).2.map untimeTrade = (runFrom b lb cs1).2.map untimeTrade ∧
        runErrors a cs = runErrors b cs1 ∧ Alike (runFrom a la cs).1 (runFrom b lb cs1).1 := by
  induction hcs with
  | nil => intro a b ga gb la lb _ _ h hl; exact ⟨hl, rfl, h⟩
  | cons hc _ ih =>
    intro a b ga gb la lb ha hb h hl
    obtain ⟨h1, h2, h3⟩ := alike_step a b ga gb ha hb h _ _ hc
    obtain ⟨k1, k2, k3⟩ := ih _ _ _ _ (la ++ (step a _).trades) (lb ++ (step b _).trades)
      (engineInv_step a ga _ ha) (engineInv_step b gb _ hb) h3
      (by rw [List.map_append, List.map_append, hl, h1])
    simp only [runFrom, runErrors]
    exact ⟨k1, by rw [h2, k2], k3⟩

theorem alike_fresh : Alike fresh fresh := ⟨fun _ => rfl, rfl, rfl⟩

/-- Claim C23 (clock independence). For any two runs from a fresh engine of command
sequences that are the same calls and differ only in the clock readings, the same
commands throw, the two trade logs have the same length and agree trade by trade on
trade id, buy id, sell id, price and quantity, the two final books hold the same
levels with the same orders in the same queue order up to the timestamps of the
orders, and the two id counters agree. -/
theorem clock_independence (cs cs1 : List Command)
    (hcs : List.Forall₂ Command.sameCall cs cs1) :
    runErrors fresh cs = runErrors fresh cs1 ∧
    (run cs).2.map untimeTrade = (run cs1).2.map untimeTrade ∧
    untimeBook (run cs).1.buyOrders = untimeBook (run cs1).1.buyOrders ∧
    untimeBook (run cs).1.sellOrders = untimeBook (run cs1).1.sellOrders ∧
    (run cs).1.nextOrderId = (run cs1).1.nextOrderId ∧
    (run cs).1.nextTradeId = (run cs1).1.nextTradeId := by
  obtain ⟨h1, h2, h3⟩ := alike_run cs cs1 hcs fresh fresh [] [] [] [] engineInv_fresh
    engineInv_fresh alike_fresh rfl
  exact ⟨h2, h1, h3.sides .BUY, h3.sides .SELL, h3.nextOrder, h3.nextTrade⟩

/-- Scenario S3 run with the clock at zero and run with the orders stamped 17, 18, 19
and the trades 40, 41: the two logs agree up to the timestamps of the trades, and
the order left in the book differs in its timestamp alone. -/
theorem clock_independence_witness :
    (run [.place .SELL 100 5 17 clock0, .place .SELL 100 7 18 clock0,
      .place .BUY 100 9 19 (fun k => 40 + k)]).2 =
      [⟨1, 3, 1, 100, 5, 40⟩, ⟨2, 3, 2, 100, 4, 41⟩] ∧
    (run [.place .SELL 100 5 0 clock0, .place .SELL 100 7 0 clock0,
      .place .BUY 100 9 0 clock0]).2.map untimeTrade =
      (run [.place .SELL 100 5 17 clock0, .place .SELL 100 7 18 clock0,
        .place .BUY 100 9 19 (fun k => 40 + k)]).2.map untimeTrade ∧
    untimeBook (run [.place .SELL 100 5 0 clock0, .place .SELL 100 7 0 clock0,
      .place .BUY 100 9 0 clock0]).1.sellOrders =
      untimeBook (run [.place .SELL 100 5 17 clock0, .place .SELL 100 7 18 clock0,
        .place .BUY 100 9 19 (fun k => 40 + k)]).1.sellOrders :=
  ⟨by decide,
    (clock_independence
      [.place .SELL 100 5 0 clock0, .place .SELL 100 7 0 clock0, .place .BUY 100 9 0 clock0]
      [.place .SELL 100 5 17 clock0, .place .SELL 100 7 18 clock0,
        .place .BUY 100 9 19 (fun k => 40 + k)]
      (.cons ⟨rfl, rfl, rfl⟩ (.cons ⟨rfl, rfl, rfl⟩ (.cons ⟨rfl, rfl, rfl⟩ .nil)))).2.1,
    (clock_independence
      [.place .SELL 100 5 0 clock0, .place .SELL 100 7 0 clock0, .place .BUY 100 9 0 clock0]
      [.place .SELL 100 5 17 clock0, .place .SELL 100 7 18 clock0,
        .place .BUY 100 9 19 (fun k => 40 + k)]
      (.cons ⟨rfl, rfl, rfl⟩ (.cons ⟨rfl, rfl, rfl⟩ (.cons ⟨rfl, rfl, rfl⟩ .nil)))).2.2.2.1⟩

/-! ## The quantity of every trade -/

/-- The trades `ts` are struck in this order against the first orders of `os`, one
each, and each for the minimum of what remains of the incoming order, `rem` before
the first trade, and what remains of the resting order. -/
def MinFills (side : OrderType) : Int → List Trade → List Order → Prop
  | _, [], _ => True
  | _, _ :: _, [] => False
  | rem, t :: ts, o :: os =>
    restingId side t = o.id ∧ t.quantity = min rem o.remaining ∧
      MinFills side (rem - t.quantity) ts os

theorem minFills_extend (side : OrderType) (ts : List Trade) :
    ∀ (rem : Int) (q os : List Order), MinFills side rem ts q → MinFills side rem ts (q ++ os) := by
  induction ts with
  | nil => intro rem q os _; trivial
  | cons t ts ih =>
    intro rem q os h
    cases q with
    | nil => exact absurd h (fun h => h)
    | cons o q => exact ⟨h.1, h.2.1, ih _ q os h.2.2⟩

theorem minFills_append (side : OrderType) (ts1 : List Trade) :
    ∀ (rem : Int) (q : List Order) (ts2 : List Trade) (os : List Order),
      MinFills side rem ts1 q → ts1.length = q.length →
      MinFills side (rem - (ts1.map Trade.quantity).sum) ts2 os →
      MinFills side rem (ts1 ++ ts2) (q ++ os) := by
  induction ts1 with
  | nil =>
    intro rem q ts2 os _ hl h2
    have hq : q = [] := List.length_eq_zero.mp hl.symm
    subst hq
    simpa using h2
  | cons t ts ih =>
    intro rem q ts2 os h hl h2
    cases q with
    | nil => exact absurd h (fun h => h)
    | cons o q =>
      refine ⟨h.1, h.2.1, ih _ q ts2 os h.2.2 (by simpa using hl) ?_⟩
      have e : rem - t.quantity - (ts.map Trade.quantity).sum =
          rem - ((t :: ts).map Trade.quantity).sum := by
        simp only [List.map_cons, List.sum_cons]
        ring
      rw [e]
      exact h2

theorem minFills_get (side : OrderType) (ts : List Trade) :
    ∀ (rem : Int) (os : List Order), MinFills side rem ts os →
      ∀ (i : Nat) (t : Trade), ts[i]? = some t →
        ∃ r, os[i]? = some r ∧ restingId side t = r.id ∧
          t.quantity = min (rem - ((ts.take i).map Trade.quantity).sum) r.remaining := by
  induction ts with
  | nil => intro rem os _ i t ht; simp at ht
  | cons t0 ts ih =>
    intro rem os h i t ht
    cases os with
    | nil => exact absurd h (fun h => h)
    | cons o os =>
      cases i with
      | zero =>
        simp only [List.getElem?_cons_zero, Option.some.injEq] at ht
        subst ht
        exact ⟨o, by simp, h.1, by simpa using h.2.1⟩
      | succ i =>
        simp only [List.getElem?_cons_succ] at ht
        obtain ⟨r, h1, h2, h3⟩ := ih _ os h.2.2 i t ht
        refine ⟨r, by simpa using h1, h2, ?_⟩
        rw [h3]
        simp only [List.take_succ_cons, List.map_cons, List.sum_cons]
        congr 1
        ring

theorem levelRun_minFills (side : OrderType) (clk : Nat → Int) (q : List Order) :
    ∀ (inc : Order) (tid : Int) (trades : List Trade),
      ∃ new, (levelRun side clk inc tid trades q).trades = trades ++ new ∧
        MinFills side inc.remaining new q ∧
        (levelRun side clk inc tid trades q).order.remaining =
          inc.remaining - (new.map Trade.quantity).sum ∧
        ((levelRun side clk inc tid trades q).queue = [] → new.length = q.length) := by
  induction q with
  | nil => intro inc tid trades; exact ⟨[], by simp [levelRun], trivial, by simp [levelRun], by simp⟩
  | cons r rest ih =>
    intro inc tid trades
    simp only [levelRun]
    split_ifs with hf hr
    · exact ⟨[], by simp, trivial, by simp, fun h => by simp at h⟩
    · obtain ⟨new, h1, h2, h3, h4⟩ := ih (fill inc (min inc.remaining r.remaining)) (tid + 1)
        (trades ++ [mkTrade side tid inc r (min inc.remaining r.remaining) (clk trades.length)])
      have hrem : (fill inc (min inc.remaining r.remaining)).remaining =
          inc.remaining - min inc.remaining r.remaining := by
        simp only [fill, Order.remaining]
        ring
      refine ⟨mkTrade side tid inc r (min inc.remaining r.remaining) (clk trades.length) :: new,
        by rw [h1]; simp, ⟨by simp, by simp, ?_⟩, ?_, fun h => ?_⟩
      · rw [quantity_mkTrade, ← hrem]
        exact h2
      · rw [h3, hrem]
        simp only [List.map_cons, quantity_mkTrade, List.sum_cons]
        ring
      · simp only [List.length_cons, h4 h]
    · refine ⟨[mkTrade side tid inc r (min inc.remaining r.remaining) (clk trades.length)], rfl,
        ⟨by simp, by simp, trivial⟩, ?_, fun h => by simp at h⟩
      simp only [fill, Order.remaining, List.map_cons, quantity_mkTrade, List.map_nil,
        List.sum_cons, List.sum_nil]
      ring

theorem levelsRun_minFills (side : OrderType) (clk : Nat → Int) (book : PriceMap) :
    ∀ (inc : Order) (tid : Int) (trades : List Trade),
      ∃ new, (levelsRun side clk inc tid trades book).trades = trades ++ new ∧
        MinFills side inc.remaining new (restingOrders book) := by
  induction book with
  | nil => intro inc tid trades; exact ⟨[], by simp [levelsRun], trivial⟩
  | cons l0 rest ih =>
    intro inc tid trades
    obtain ⟨p, q⟩ := l0
    obtain ⟨new1, h1, h2, h3, h4⟩ := levelRun_minFills side clk q inc tid trades
    simp only [levelsRun, restingOrders]
    split_ifs with hf hp hq
    · exact ⟨[], by simp, trivial⟩
    · exact ⟨[], by simp, trivial⟩
    · obtain ⟨new2, k1, k2⟩ := ih (levelRun side clk inc tid trades q).order
        (levelRun side clk inc tid trades q).tradeId (levelRun side clk inc tid trades q).trades
      refine ⟨new1 ++ new2, by rw [k1, h1, List.append_assoc], ?_⟩
      rw [h3] at k2
      exact minFills_append side new1 _ q new2 _ h2
        (h4 (by simpa [List.isEmpty_iff] using hq)) k2
    · have hq1 : (levelRun side clk inc tid trades q).queue ≠ [] := by
        simpa [List.isEmpty_iff] using hq
      rw [levelsRun_of_filled _ _ _ _ _ _ (levelRun_queue_filled side clk q inc tid trades hq1)]
      exact ⟨new1, h1, minFills_extend side new1 _ q _ h2⟩

/-- Claim C24 (trade quantities). For every state reached from a fresh engine and
every valid `placeOrder`, the trade at position `i` of the result is struck against
the order at position `i` of the opposite side in priority order, and its quantity
is strictly positive and equal to the minimum of what remains of the incoming order
immediately before that trade (its quantity less the quantities of the earlier
trades of the call) and what remains of that resting order. -/
theorem trade_quantity_rule (cs : List Command) (side : OrderType)
    (price quantity now : Int) (clk : Nat → Int) (hv : 0 < price ∧ 0 < quantity)
    (i : Nat) (t : Trade)
    (ht : (placeOrder (run cs).1 side price quantity now clk).trades[i]? = some t) :
    0 < t.quantity ∧
    ∃ r, (restingOrders (oppSide (run cs).1 side))[i]? = some r ∧ restingId side t = r.id ∧
      t.quantity =
        min (quantity - (((placeOrder (run cs).1 side price quantity now clk).trades.take
          i).map Trade.quantity).sum) r.remaining := by
  have h := engineInv_run cs
  have hv1 : ¬ (price ≤ 0 ∨ quantity ≤ 0) := by omega
  have htr := placeOrder_ok_trades (run cs).1 (run cs).2 side price quantity now clk h hv1
  rw [htr] at ht ⊢
  have hwithin : (newOrder (run cs).1 side price quantity now).within := by
    simp only [Order.within, newOrder]
    omega
  have hopen : ∀ o ∈ restingOrders (oppSide (run cs).1 side), o.isOpen := by
    intro o ho
    rw [oppSide_eq] at ho
    exact h.isOpen side.other o ho
  obtain ⟨_, _, hpos⟩ := levelsRun_bounds side clk (oppSide (run cs).1 side)
    (newOrder (run cs).1 side price quantity now) (run cs).1.nextTradeId [] hwithin hopen
  obtain ⟨new, h1, h2⟩ := levelsRun_minFills side clk (oppSide (run cs).1 side)
    (newOrder (run cs).1 side price quantity now) (run cs).1.nextTradeId []
  have hmem : t ∈ (matchOrder side clk (newOrder (run cs).1 side price quantity now)
      (oppSide (run cs).1 side) (run cs).1.nextTradeId).trades := List.getElem?_mem ht
  refine ⟨(hpos t hmem).resolve_left (by simp), ?_⟩
  have h3 : (matchOrder side clk (newOrder (run cs).1 side price quantity now)
      (oppSide (run cs).1 side) (run cs).1.nextTradeId).trades = new := by
    unfold matchOrder
    rw [h1, List.nil_append]
  rw [h3] at ht ⊢
  have hrem : (newOrder (run cs).1 side price quantity now).remaining = quantity := by
    simp [newOrder, Order.remaining]
  rw [hrem] at h2
  exact minFills_get side new quantity _ h2 i t ht

/-- Scenario S3: the second trade of BID(100, 9) against the asks of 5 and 7 is
struck against order 2 for min(9 - 5, 7) = 4. -/
theorem trade_quantity_rule_witness :
    (placeOrder (run [.place .SELL 100 5 0 clock0, .place .SELL 100 7 0 clock0]).1 .BUY 100 9 0
      clock0).trades = [⟨1, 3, 1, 100, 5, 0⟩, ⟨2, 3, 2, 100, 4, 0⟩] ∧
    0 < (⟨2, 3, 2, 100, 4, 0⟩ : Trade).quantity ∧
    ∃ r, (restingOrders (oppSide (run [.place .SELL 100 5 0 clock0,
        .place .SELL 100 7 0 clock0]).1 .BUY))[1]? = some r ∧
      restingId .BUY (⟨2, 3, 2, 100, 4, 0⟩ : Trade) = r.id ∧
      (⟨2, 3, 2, 100, 4, 0⟩ : Trade).quantity =
        min (9 - (((placeOrder (run [.place .SELL 100 5 0 clock0,
          .place .SELL 100 7 0 clock0]).1 .BUY 100 9 0 clock0).trades.take 1).map
            Trade.quantity).sum) r.remaining :=
  ⟨by decide,
    trade_quantity_rule [.place .SELL 100 5 0 clock0, .place .SELL 100 7 0 clock0] .BUY 100 9 0
      clock0 (by decide) 1 ⟨2, 3, 2, 100, 4, 0⟩ (by decide)⟩

/-! ## Orders that stay in the book -/

theorem levelRun_exit (side : OrderType) (clk : Nat → Int) (q : List Order) (inc : Order)
    (tid : Int) (trades : List Trade) :
    (levelRun side clk inc tid trades q).queue = [] ∨
      (levelRun side clk inc tid trades q).order.is_filled = true := by
  by_cases h : (levelRun side clk inc tid trades q).queue = []
  · exact Or.inl h
  · exact Or.inr (levelRun_queue_filled side clk q inc tid trades h)

/-- Claim C28 (matching terminates with a bounded trade list). For every book,
orders with nothing remaining included, and every incoming order: the inner loop
of `matchBuyOrder` and of `matchSellOrder` run on any level leaves the loop after
at most as many iterations as the level has orders (with that much fuel or more
the model returns the same state, and in that state the loop condition is false:
the queue is empty or the incoming order is filled), the outer loop visits each
level at most once, the resting ids named by the trades, in output order, are a
leading segment of the ids of the opposite side in priority order, so the trade at
each position names the order at that position and no order is named twice when
the ids are distinct, and the number of trades is at most the number of orders
resting on the opposite side at entry. -/
theorem matching_terminates (clk : Nat → Int) (inc : Order) (book : PriceMap) (tid : Int)
    (st : LevelState) (extra : Nat) :
    (matchBuyLevelLoop clk (st.queue.length + extra) st = matchBuyLevel clk st ∧
      ((matchBuyLevel clk st).queue = [] ∨ (matchBuyLevel clk st).order.is_filled = true)) ∧
    (matchSellLevelLoop clk (st.queue.length + extra) st = matchSellLevel clk st ∧
      ((matchSellLevel clk st).queue = [] ∨ (matchSellLevel clk st).order.is_filled = true)) ∧
    ((matchBuyOrder clk inc book tid).trades.map Trade.sellOrderId <+:
      (restingOrders book).map Order.id) ∧
    ((matchSellOrder clk inc book tid).trades.map Trade.buyOrderId <+:
      (restingOrders book).map Order.id) ∧
    (matchBuyOrder clk inc book tid).trades.length ≤ (restingOrders book).length ∧
    (matchSellOrder clk inc book tid).trades.length ≤ (restingOrders book).length ∧
    (((restingOrders book).map Order.id).Nodup →
      ((matchBuyOrder clk inc book tid).trades.map Trade.sellOrderId).Nodup ∧
      ((matchSellOrder clk inc book tid).trades.map Trade.buyOrderId).Nodup) := by
  have hb : (matchBuyOrder clk inc book tid).trades.map Trade.sellOrderId <+:
      (restingOrders book).map Order.id := by
    rw [matchBuyOrder_eq]
    exact consumes_ids .BUY (matchOrder_consumes .BUY clk inc book tid)
  have hs : (matchSellOrder clk inc book tid).trades.map Trade.buyOrderId <+:
      (restingOrders book).map Order.id := by
    rw [matchSellOrder_eq]
    exact consumes_ids .SELL (matchOrder_consumes .SELL clk inc book tid)
  have hbl := hb.length_le
  have hsl := hs.length_le
  simp only [List.length_map] at hbl hsl
  refine ⟨⟨matchBuyLevel_loop clk st extra, ?_⟩, ⟨matchSellLevel_loop clk st extra, ?_⟩, hb, hs,
    hbl, hsl, fun hnd => ⟨hnd.sublist hb.sublist, hnd.sublist hs.sublist⟩⟩
  · unfold matchBuyLevel
    rw [matchBuyLevelLoop_eq clk _ st.queue st.order st.tradeId st.trades (Nat.le_refl _)]
    exact levelRun_exit .BUY clk st.queue st.order st.tradeId st.trades
  · unfold matchSellLevel
    rw [matchSellLevelLoop_eq clk _ st.queue st.order st.tradeId st.trades (Nat.le_refl _)]
    exact levelRun_exit .SELL clk st.queue st.order st.tradeId st.trades

/-- A level loaded from a file holds ask 1 with nothing remaining in front of ask 2:
BID(100, 3) strikes a trade of quantity 0 against ask 1, which is popped, and then
3 against ask 2; two trades for two resting orders, each named once. -/
theorem matching_terminates_witness :
    (matchBuyOrder clock0 ⟨3, .BUY, 100, 3, 0, 0⟩
      [(100, [⟨1, .SELL, 100, 5, 5, 0⟩, ⟨2, .SELL, 100, 5, 0, 0⟩])] 1).trades =
      [⟨1, 3, 1, 100, 0, 0⟩, ⟨2, 3, 2, 100, 3, 0⟩] ∧
    (matchBuyOrder clock0 ⟨3, .BUY, 100, 3, 0, 0⟩
      [(100, [⟨1, .SELL, 100, 5, 5, 0⟩, ⟨2, .SELL, 100, 5, 0, 0⟩])] 1).trades.length ≤
      (restingOrders [(100, [⟨1, .SELL, 100, 5, 5, 0⟩, ⟨2, .SELL, 100, 5, 0, 0⟩])]).length ∧
    ((matchBuyOrder clock0 ⟨3, .BUY, 100, 3, 0, 0⟩
      [(100, [⟨1, .SELL, 100, 5, 5, 0⟩, ⟨2, .SELL, 100, 5, 0, 0⟩])] 1).trades.map
        Trade.sellOrderId).Nodup :=
  ⟨by decide,
    (matching_terminates clock0 ⟨3, .BUY, 100, 3, 0, 0⟩
      [(100, [⟨1, .SELL, 100, 5, 5, 0⟩, ⟨2, .SELL, 100, 5, 0, 0⟩])] 1
      ⟨⟨3, .BUY, 100, 3, 0, 0⟩, [], 1, []⟩ 0).2.2.2.2.1,
    ((matching_terminates clock0 ⟨3, .BUY, 100, 3, 0, 0⟩
      [(100, [⟨1, .SELL, 100, 5, 5, 0⟩, ⟨2, .SELL, 100, 5, 0, 0⟩])] 1
      ⟨⟨3, .BUY, 100, 3, 0, 0⟩, [], 1, []⟩ 0).2.2.2.2.2.2 (by decide)).1⟩

/-! ## random_order_generator.cpp -/

/-- Source: `int randomPrice() { return 750 + rand() % 551; }`, as a function of the
value `r` that `rand()` returns; `%` of C++ truncates towards zero. -/
def randomPrice (r : Int) : Int := 750 + r.tmod 551

/-- Claim C30 (range of `randomPrice`), evaluated on the code: when `rand()` returns
0 the price is 750 and when it returns 550 the price is 1300, both outside the
range 950 to 1049 of the comment; the prices the code returns range from 750 to
1300. -/
theorem randomPrice_outside_comment_range :
    randomPrice 0 = 750 ∧ randomPrice 550 = 1300 ∧
      ¬ (950 ≤ randomPrice 0 ∧ randomPrice 0 ≤ 1049) ∧
      ¬ (950 ≤ randomPrice 550 ∧ randomPrice 550 ≤ 1049) := by
  decide

/-! ## engine.cpp: the monolithic engine

The class `OrderBook` of `engine.cpp` keeps the two maps, the counters `orderId`
(the id given last, initially 0) and `tradeId`, and the index `idToPriceAndType`.
Its members `orderStatus`, `idToOrderQueue` and `time` are written by the two
operations and read by neither, and the files it writes are not read back during a
run; they are left out, and the trades written to the trade log by `executeTrade`
are returned instead. -/

/-- The `std::unordered_map<int, pair<int, OrderType>>` named `idToPriceAndType`. -/
abbrev PairIndex := List (Int × (Int × OrderType))

/-- Source: `idToPriceAndType.count(id)` and `idToPriceAndType[id]` on a present key. -/
def PairIndex.find : PairIndex → Int → Option (Int × OrderType)
  | [], _ => none
  | (k, v) :: rest, id => if k = id then some v else PairIndex.find rest id

/-- Source: `idToPriceAndType[id] = v`. -/
def PairIndex.assign : PairIndex → Int → Int × OrderType → PairIndex
  | [], id, v => [(id, v)]
  | (k, w) :: rest, id, v =>
    if k = id then (k, v) :: rest else (k, w) :: PairIndex.assign rest id v

/-- Source: `idToPriceAndType.erase(id)`. -/
def PairIndex.erase (m : PairIndex) (id : Int) : PairIndex :=
  m.filter (fun e => !(e.1 == id))

/-- The map with an empty queue inserted under the absent key `price`, at its place
in the iteration order. -/
def PriceMap.insertLevel (before : Int → Int → Bool) : PriceMap → Int → PriceMap
  | [], price => [(price, [])]
  | (k, q) :: rest, price =>
    if before price k then (price, []) :: (k, q) :: rest
    else (k, q) :: PriceMap.insertLevel before rest price

/-- Source: `m[price]` taken as a reference: `operator[]` leaves the map as it is when
the key is present and creates the level with an empty queue when it is absent. -/
def PriceMap.touch (before : Int → Int → Bool) (m : PriceMap) (price : Int) : PriceMap :=
  if m.count price then m else m.insertLevel before price

/-- The data members of the monolithic `OrderBook` that its operations read. -/
structure Mono where
  orderId : Int
  tradeId : Int
  buyOrders : PriceMap
  sellOrders : PriceMap
  idToPriceAndType : PairIndex
deriving DecidableEq, Repr

/-- What a call of the monolithic engine leaves behind. -/
structure MonoOutcome where
  state : Mono
  trades : List Trade
  error : Option Error
deriving DecidableEq, Repr

/-- The monolithic engine constructed with no order files to load. -/
def Mono.fresh : Mono := ⟨0, 1, [], [], []⟩

/-- Source: `matchBuy`, the loop `while (!q.empty() && !buy.is_filled())`, with the
record `executeTrade` writes to the trade log and its `tradeId++`. -/
def Mono.matchBuyLevelLoop (clk : Nat → Int) : Nat → LevelState → LevelState
  | 0, st => st
  | fuel + 1, st =>
    match st.queue with
    | [] => st
    | sell :: rest =>
      if st.order.is_filled then st
      else
        let buy := st.order
        let tradedQty := min buy.remaining sell.remaining
        let logged := st.trades ++
          [⟨st.tradeId, buy.id, sell.id, sell.price, tradedQty, clk st.trades.length⟩]
        let buy1 := { buy with filled_quantity := buy.filled_quantity + tradedQty }
        let sell1 := { sell with filled_quantity := sell.filled_quantity + tradedQty }
        if sell1.is_filled then
          Mono.matchBuyLevelLoop clk fuel ⟨buy1, rest, st.tradeId + 1, logged⟩
        else
          Mono.matchBuyLevelLoop clk fuel ⟨buy1, sell1 :: rest, st.tradeId + 1, logged⟩

/-- Source: `matchBuy`, the loop over `sellOrders`, started at the level `it` points to. -/
def Mono.matchBuyLevels (clk : Nat → Int) (buy : Order) (tradeId : Int) (trades : List Trade) :
    PriceMap → MatchState
  | [] => ⟨buy, [], tradeId, trades⟩
  | (price, q) :: rest =>
    if buy.is_filled then ⟨buy, (price, q) :: rest, tradeId, trades⟩
    else if buy.price < price then ⟨buy, (price, q) :: rest, tradeId, trades⟩
    else
      let r := Mono.matchBuyLevelLoop clk q.length ⟨buy, q, tradeId, trades⟩
      if r.queue.isEmpty then
        Mono.matchBuyLevels clk r.order r.tradeId r.trades rest
      else
        let m := Mono.matchBuyLevels clk r.order r.tradeId r.trades rest
        { m with book := (price, r.queue) :: m.book }

/-- Source: `void matchBuy(Order& buy)`: the walk over the asks, then the push of what
is left of the order, or the erasure of its index entry when nothing is left. -/
def Mono.matchBuy (clk : Nat → Int) (s : Mono) (buy : Order) : MonoOutcome :=
  let m := Mono.matchBuyLevels clk buy s.tradeId [] s.sellOrders
  if !m.order.is_filled then
    ⟨{ s with
        tradeId := m.tradeId
        sellOrders := m.book
        buyOrders := s.buyOrders.pushAt buyBefore m.order.price m.order }, m.trades, none⟩
  else
    ⟨{ s with
        tradeId := m.tradeId
        sellOrders := m.book
        idToPriceAndType := s.idToPriceAndType.erase m.order.id }, m.trades, none⟩

/-- Source: `matchSell`, the loop `while (!q.empty() && !sell.is_filled())`. -/
def Mono.matchSellLevelLoop (clk : Nat → Int) : Nat → LevelState → LevelState
  | 0, st => st
  | fuel + 1, st =>
    match st.queue with
    | [] => st
    | buy :: rest =>
      if st.order.is_filled then st
      else
        let sell := st.order
        let tradedQty := min sell.remaining buy.remaining
        let logged := st.trades ++
          [⟨st.tradeId, buy.id, sell.id, buy.price, tradedQty, clk st.trades.length⟩]
        let sell1 := { sell with filled_quantity := sell.filled_quantity + tradedQty }
        let buy1 := { buy with filled_quantity := buy.filled_quantity + tradedQty }
        if buy1.is_filled then
          Mono.matchSellLevelLoop clk fuel ⟨sell1, rest, st.tradeId + 1, logged⟩
        else
          Mono.matchSellLevelLoop clk fuel ⟨sell1, buy1 :: rest, st.tradeId + 1, logged⟩

/-- Source: `matchSell`, the loop over `buyOrders`. -/
def Mono.matchSellLevels (clk : Nat → Int) (sell : Order) (tradeId : Int)
    (trades : List Trade) : PriceMap → MatchState
  | [] => ⟨sell, [], tradeId, trades⟩
  | (price, q) :: rest =>
    if sell.is_filled then ⟨sell, (price, q) :: rest, tradeId, trades⟩
    else if sell.price > price then ⟨sell, (price, q) :: rest, tradeId, trades⟩
    else
      let r := Mono.matchSellLevelLoop clk q.length ⟨sell, q, tradeId, trades⟩
      if r.queue.isEmpty then
        Mono.matchSellLevels clk r.order r.tradeId r.trades rest
      else
        let m := Mono.matchSellLevels clk r.order r.tradeId r.trades rest
        { m with book := (price, r.queue) :: m.book }

/-- Source: `void matchSell(Order& sell)`. -/
def Mono.matchSell (clk : Nat → Int) (s : Mono) (sell : Order) : MonoOutcome :=
  let m := Mono.matchSellLevels clk sell s.tradeId [] s.buyOrders
  if !m.order.is_filled then
    ⟨{ s with
        tradeId := m.tradeId
        buyOrders := m.book
        sellOrders := s.sellOrders.pushAt sellBefore m.order.price m.order }, m.trades, none⟩
  else
    ⟨{ s with
        tradeId := m.tradeId
        buyOrders := m.book
        idToPriceAndType := s.idToPriceAndType.erase m.order.id }, m.trades, none⟩

/-- Source: `void placeOrder(OrderType type, int price, int quantity)` of `engine.cpp`;
nothing in `matchBuy` and `matchSell` throws, so the `catch` is never entered. -/
def Mono.placeOrder (s : Mono) (type : OrderType) (price quantity : Int) (now : Int)
    (clk : Nat → Int) : MonoOutcome :=
  if price ≤ 0 ∨ quantity ≤ 0 then ⟨s, [], some .invalid_argument⟩
  else
    let order : Order := ⟨s.orderId + 1, type, price, quantity, 0, now⟩
    let s1 : Mono := { s with
      orderId := s.orderId + 1
      idToPriceAndType := s.idToPriceAndType.assign order.id (price, type) }
    match type with
    | .BUY => Mono.matchBuy clk s1 order
    | .SELL => Mono.matchSell clk s1 order

/-- Source: `bool removeOrderFromQueue(queue<Order>& q, int id)`: the loop empties `q`
and `newQ` is moved into it only when `newQ` is not empty. -/
def Mono.removeOrderFromQueue (q : List Order) (id : Int) : List Order × Bool :=
  let newQ := q.filter (fun o => !(o.id == id))
  let found := q.any (fun o => o.id == id)
  (if !newQ.isEmpty then newQ else [], found)

/-- Source: `cancelOrder` of `engine.cpp`, the block run on the map of the order's
side: `auto& q = m[price]; removed = removeOrderFromQueue(q, id);
if (q.empty()) m.erase(price);`. -/
def Mono.cancelInSide (before : Int → Int → Bool) (m : PriceMap) (price id : Int) :
    PriceMap × Bool :=
  let m0 := m.touch before price
  let r := Mono.removeOrderFromQueue (m0.get price) id
  let m1 := m0.setAt price r.1
  (if (m1.get price).isEmpty then m1.erase price else m1, r.2)

/-- Source: `void cancelOrder(int id)` of `engine.cpp`. -/
def Mono.cancelOrder (s : Mono) (id : Int) : MonoOutcome :=
  match s.idToPriceAndType.find id with
  | none => ⟨s, [], some .not_found⟩
  | some (price, type) =>
    match type with
    | .BUY =>
      let r := Mono.cancelInSide buyBefore s.buyOrders price id
      if r.2 then
        ⟨{ s with buyOrders := r.1, idToPriceAndType := s.idToPriceAndType.erase id }, [], none⟩
      else ⟨{ s with buyOrders := r.1 }, [], some .not_in_book⟩
    | .SELL =>
      let r := Mono.cancelInSide sellBefore s.sellOrders price id
      if r.2 then
        ⟨{ s with sellOrders := r.1, idToPriceAndType := s.idToPriceAndType.erase id }, [], none⟩
      else ⟨{ s with sellOrders := r.1 }, [], some .not_in_book⟩

/-- The outcome of one command given to the monolithic engine. -/
def Mono.step (s : Mono) : Command → MonoOutcome
  | .place type price quantity now clk => Mono.placeOrder s type price quantity now clk
  | .cancel id => Mono.cancelOrder s id

/-- The monolithic engine and its trade log after a sequence of commands; the
console loop of `engine.cpp` catches what a command throws and goes on. -/
def Mono.runFrom (s : Mono) (log : List Trade) : List Command → Mono × List Trade
  | [] => (s, log)
  | c :: cs => Mono.runFrom (Mono.step s c).state (log ++ (Mono.step s c).trades) cs

/-- Which commands of a run of the monolithic engine throw, in order. -/
def Mono.runErrors (s : Mono) : List Command → List Bool
  | [] => []
  | c :: cs => (Mono.step s c).error.isSome :: Mono.runErrors (Mono.step s c).state cs

/-! ### The loops of the monolithic engine compute the generic view -/

theorem pairIndex_find_erase_self (m : PairIndex) (id : Int) :
    (m.erase id).find id = none := by
  induction m with
  | nil => rfl
  | cons e rest ih =>
    obtain ⟨k, w⟩ := e
    by_cases hk : k = id
    · simpa [PairIndex.erase, List.filter, hk] using ih
    · have : (PairIndex.erase ((k, w) :: rest) id) = (k, w) :: PairIndex.erase rest id := by
        simp [PairIndex.erase, List.filter_cons, hk]
      rw [this]
      simp [PairIndex.find, hk, ih]

/-- The counters and the two maps of the monolithic engine, laid out as those of the
modular engine: `orderId` is the id given last, `nextOrderId` the id given next. -/
def Mono.book (sm : Mono) : OrderBook :=
  ⟨sm.orderId + 1, sm.tradeId, sm.buyOrders, sm.sellOrders, []⟩

/-- The counters and the two maps of the modular engine, without its index. -/
def forgetIndex (s : OrderBook) : OrderBook := { s with allOrders := [] }

theorem forgetIndex_idem (s : OrderBook) : forgetIndex (forgetIndex s) = forgetIndex s := rfl

/-- Source: `matchBuyOrder`, the loop `while (!q.empty() && !buy.is_filled())`, with
`tradeId++` on a 32-bit `int`. -/
def I32.matchBuyLevelLoop (clk : Nat → Int) : Nat → LevelState → LevelState
  | 0, st => st
  | fuel + 1, st =>
    match st.queue with
    | [] => st
    | sell :: rest =>
      if st.order.is_filled then st
      else
        let buy := st.order
        let tradedQty := min buy.remaining sell.remaining
        let trades := st.trades ++
          [⟨st.tradeId, buy.id, sell.id, sell.price, tradedQty, clk st.trades.length⟩]
        let buy1 := { buy with filled_quantity := buy.filled_quantity + tradedQty }
        let sell1 := { sell with filled_quantity := sell.filled_quantity + tradedQty }
        if sell1.is_filled then
          I32.matchBuyLevelLoop clk fuel ⟨buy1, rest, wrapInt (st.tradeId + 1), trades⟩
        else
          I32.matchBuyLevelLoop clk fuel ⟨buy1, sell1 :: rest, wrapInt (st.tradeId + 1), trades⟩

/-- The inner loop of `matchBuyOrder` run on one level. -/
def I32.matchBuyLevel (clk : Nat → Int) (st : LevelState) : LevelState :=
  I32.matchBuyLevelLoop clk st.queue.length st

/-- Source: `matchBuyOrder`, the loop over the levels of `sellOrders`. -/
def I32.matchBuyLevels (clk : Nat → Int) (buy : Order) (tradeId : Int) (trades : List Trade) :
    PriceMap → MatchState
  | [] => ⟨buy, [], tradeId, trades⟩
  | (price, q) :: rest =>
    if buy.is_filled then ⟨buy, (price, q) :: rest, tradeId, trades⟩
    else if buy.price < price then ⟨buy, (price, q) :: rest, tradeId, trades⟩
    else
      let r := I32.matchBuyLevel clk ⟨buy, q, tradeId, trades⟩
      if r.queue.isEmpty then
        I32.matchBuyLevels clk r.order r.tradeId r.trades rest
      else
        let m := I32.matchBuyLevels clk r.order r.tradeId r.trades rest
        { m with book := (price, r.queue) :: m.book }

/-- Source: `MatchingEngine::matchBuyOrder(Order& buy, sellOrders, int& tradeId)`. -/
def I32.matchBuyOrder (clk : Nat → Int) (buy : Order) (sellOrders : PriceMap) (tradeId : Int) :
    MatchState :=
  I32.matchBuyLevels clk buy tradeId [] sellOrders

/-- Source: `matchSellOrder`, the loop `while (!q.empty() && !sell.is_filled())`,
with `tradeId++` on a 32-bit `int`. -/
def I32.matchSellLevelLoop (clk : Nat → Int) : Nat → LevelState → LevelState
  | 0, st => st
  | fuel + 1, st =>
    match st.queue with
    | [] => st
    | buy :: rest =>
      if st.order.is_filled then st
      else
        let sell := st.order
        let tradedQty := min sell.remaining buy.remaining
        let trades := st.trades ++
          [⟨st.tradeId, buy.id, sell.id, buy.price, tradedQty, clk st.trades.length⟩]
        let sell1 := { sell with filled_quantity := sell.filled_quantity + tradedQty }
        let buy1 := { buy with filled_quantity := buy.filled_quantity + tradedQty }
        if buy1.is_filled then
          I32.matchSellLevelLoop clk fuel ⟨sell1, rest, wrapInt (st.tradeId + 1), trades⟩
        else
          I32.matchSellLevelLoop clk fuel ⟨sell1, buy1 :: rest, wrapInt (st.tradeId + 1), trades⟩

/-- The inner loop of `matchSellOrder` run on one level. -/
def I32.matchSellLevel (clk : Nat → Int) (st : LevelState) : LevelState :=
  I32.matchSellLevelLoop clk st.queue.length st

/-- Source: `matchSellOrder`, the loop over the levels of `buyOrders`. -/
def I32.matchSellLevels (clk : Nat → Int) (sell : Order) (tradeId : Int)
    (trades : List Trade) : PriceMap → MatchState
  | [] => ⟨sell, [], tradeId, trades⟩
  | (price, q) :: rest =>
    if sell.is_filled then ⟨sell, (price, q) :: rest, tradeId, trades⟩
    else if sell.price > price then ⟨sell, (price, q) :: rest, tradeId, trades⟩
    else
      let r := I32.matchSellLevel clk ⟨sell, q, tradeId, trades⟩
      if r.queue.isEmpty then
        I32.matchSellLevels clk r.order r.tradeId r.trades rest
      else
        let m := I32.matchSellLevels clk r.order r.tradeId r.trades rest
        { m with book := (price, r.queue) :: m.book }

/-- Source: `MatchingEngine::matchSellOrder(Order& sell, buyOrders, int& tradeId)`. -/
def I32.matchSellOrder (clk : Nat → Int) (sell : Order) (buyOrders : PriceMap)
    (tradeId : Int) : MatchState :=
  I32.matchSellLevels clk sell tradeId [] buyOrders

/-- Source: `OrderBook::placeOrder(OrderType type, int price, int quantity)`, with
`nextOrderId++` on a 32-bit `int`. -/
def I32.placeOrder (s : OrderBook) (type : OrderType) (price quantity : Int)
    (now : Int) (clk : Nat → Int) : Outcome :=
  if price ≤ 0 ∨ quantity ≤ 0 then ⟨s, [], some .invalid_argument⟩
  else
    let order : Order := ⟨s.nextOrderId, type, price, quantity, 0, now⟩
    let all1 := s.allOrders.assign order.id order
    match all1.find order.id with
    | none => ⟨{ s with nextOrderId := wrapInt (s.nextOrderId + 1), allOrders := all1 }, [],
        some .out_of_range⟩
    | some incoming =>
      let s2 : OrderBook :=
        match type with
        | .BUY =>
          let m := I32.matchBuyOrder clk incoming s.sellOrders s.nextTradeId
          ⟨wrapInt (s.nextOrderId + 1), m.tradeId, s.buyOrders, m.book,
            all1.assign order.id m.order⟩
        | .SELL =>
          let m := I32.matchSellOrder clk incoming s.buyOrders s.nextTradeId
          ⟨wrapInt (s.nextOrderId + 1), m.tradeId, m.book, s.sellOrders,
            all1.assign order.id m.order⟩
      let trades : List Trade :=
        match type with
        | .BUY => (I32.matchBuyOrder clk incoming s.sellOrders s.nextTradeId).trades
        | .SELL => (I32.matchSellOrder clk incoming s.buyOrders s.nextTradeId).trades
      if processTrades s2.allOrders trades then
        match s2.allOrders.find order.id with
        | none => ⟨s2, trades, some .out_of_range⟩
        | some o =>
          if !o.is_filled then
            match order.type with
            | .BUY =>
              ⟨{ s2 with buyOrders := s2.buyOrders.pushAt buyBefore order.price o }, trades, none⟩
            | .SELL =>
              ⟨{ s2 with sellOrders := s2.sellOrders.pushAt sellBefore order.price o }, trades,
                none⟩
          else ⟨s2, trades, none⟩
      else ⟨s2, trades, some .out_of_range⟩

/-- The outcome of one command; `cancelOrder` touches neither counter. -/
def I32.step (s : OrderBook) : Command → Outcome
  | .place type price quantity now clk => I32.placeOrder s type price quantity now clk
  | .cancel id => cancelOrder s id

/-- The engine and the whole trade log after a sequence of commands. -/
def I32.runFrom (s : OrderBook) (log : List Trade) : List Command → OrderBook × List Trade
  | [] => (s, log)
  | c :: cs => I32.runFrom (I32.step s c).state (log ++ (I32.step s c).trades) cs

/-- A run from a fresh engine. -/
def I32.run (cs : List Command) : OrderBook × List Trade := I32.runFrom fresh [] cs

/-- Whether each command of a run threw. -/
def I32.runErrors (s : OrderBook) : List Command → List Bool
  | [] => []
  | c :: cs => (I32.step s c).error.isSome :: I32.runErrors (I32.step s c).state cs

/-- A trade with its id brought into the 32-bit range. -/
def wrapTrade (t : Trade) : Trade := { t with tradeId := wrapInt t.tradeId }

/-- A state of the inner loop with the trade ids brought into the 32-bit range. -/
def wrapLevel (st : LevelState) : LevelState :=
  ⟨st.order, st.queue, wrapInt st.tradeId, st.trades.map wrapTrade⟩

/-- A result of the matcher with the trade ids brought into the 32-bit range. -/
def wrapMatch (m : MatchState) : MatchState :=
  ⟨m.order, m.book, wrapInt m.tradeId, m.trades.map wrapTrade⟩

/-- An engine with its two counters brought into the 32-bit range. -/
def wrapState (s : OrderBook) : OrderBook :=
  { s with
    nextOrderId := wrapInt s.nextOrderId
    nextTradeId := wrapInt s.nextTradeId }

/-- An outcome with the counters and the trade ids brought into the 32-bit range. -/
def wrapOutcome (o : Outcome) : Outcome :=
  ⟨wrapState o.state, o.trades.map wrapTrade, o.error⟩

theorem i32_matchBuyLevelLoop (clk : Nat → Int) (fuel : Nat) :
    ∀ st : LevelState,
      I32.matchBuyLevelLoop clk fuel (wrapLevel st) = wrapLevel (matchBuyLevelLoop clk fuel st) := by
  induction fuel with
  | zero => intro st; rfl
  | succ n ih =>
    intro st
    obtain ⟨inc, q, tid, trades⟩ := st
    cases q with
    | nil => rfl
    | cons r rest =>
      have e : wrapLevel ⟨inc, r :: rest, tid, trades⟩ =
          ⟨inc, r :: rest, wrapInt tid, trades.map wrapTrade⟩ := rfl
      rw [e]
      simp only [I32.matchBuyLevelLoop, matchBuyLevelLoop]
      split_ifs with hf hr
      · rfl
      · rw [← ih]
        simp only [wrapLevel, List.map_append, List.map_cons, List.map_nil, List.length_map,
          wrapTrade, wrapInt_add]
      · rw [← ih]
        simp only [wrapLevel, List.map_append, List.map_cons, List.map_nil, List.length_map,
          wrapTrade, wrapInt_add]

theorem i32_matchSellLevelLoop (clk : Nat → Int) (fuel : Nat) :
    ∀ st : LevelState,
      I32.matchSellLevelLoop clk fuel (wrapLevel st) =
        wrapLevel (matchSellLevelLoop clk fuel st) := by
  induction fuel with
  | zero => intro st; rfl
  | succ n ih =>
    intro st
    obtain ⟨inc, q, tid, trades⟩ := st
    cases q with
    | nil => rfl
    | cons r rest =>
      have e : wrapLevel ⟨inc, r :: rest, tid, trades⟩ =
          ⟨inc, r :: rest, wrapInt tid, trades.map wrapTrade⟩ := rfl
      rw [e]
      simp only [I32.matchSellLevelLoop, matchSellLevelLoop]
      split_ifs with hf hr
      · rfl
      · rw [← ih]
        simp only [wrapLevel, List.map_append, List.map_cons, List.map_nil, List.length_map,
          wrapTrade, wrapInt_add]
      · rw [← ih]
        simp only [wrapLevel, List.map_append, List.map_cons, List.map_nil, List.length_map,
          wrapTrade, wrapInt_add]

theorem i32_matchBuyLevels (clk : Nat → Int) (book : PriceMap) :
    ∀ (buy : Order) (tid : Int) (trades : List Trade),
      I32.matchBuyLevels clk buy (wrapInt tid) (trades.map wrapTrade) book =
        wrapMatch (matchBuyLevels clk buy tid trades book) := by
  induction book with
  | nil => intro buy tid trades; rfl
  | cons l rest ih =>
    intro buy tid trades
    obtain ⟨p, q⟩ := l
    have hl : I32.matchBuyLevel clk ⟨buy, q, wrapInt tid, trades.map wrapTrade⟩ =
        wrapLevel (matchBuyLevel clk ⟨buy, q, tid, trades⟩) :=
      i32_matchBuyLevelLoop clk q.length ⟨buy, q, tid, trades⟩
    simp only [I32.matchBuyLevels, matchBuyLevels, hl]
    split_ifs with hf hp hq hq2 hq3
    · rfl
    · rfl
    · exact ih _ _ _
    · exact absurd hq hq2
    · exact absurd hq3 hq
    · have := ih (matchBuyLevel clk ⟨buy, q, tid, trades⟩).order
        (matchBuyLevel clk ⟨buy, q, tid, trades⟩).tradeId
        (matchBuyLevel clk ⟨buy, q, tid, trades⟩).trades
      simp only [wrapLevel] at this ⊢
      rw [this]
      rfl

theorem i32_matchSellLevels (clk : Nat → Int) (book : PriceMap) :
    ∀ (sell : Order) (tid : Int) (trades : List Trade),
      I32.matchSellLevels clk sell (wrapInt tid) (trades.map wrapTrade) book =
        wrapMatch (matchSellLevels clk sell tid trades book) := by
  induction book with
  | nil => intro sell tid trades; rfl
  | cons l rest ih =>
    intro sell tid trades
    obtain ⟨p, q⟩ := l
    have hl : I32.matchSellLevel clk ⟨sell, q, wrapInt tid, trades.map wrapTrade⟩ =
        wrapLevel (matchSellLevel clk ⟨sell, q, tid, trades⟩) :=
      i32_matchSellLevelLoop clk q.length ⟨sell, q, tid, trades⟩
    simp only [I32.matchSellLevels, matchSellLevels, hl]
    split_ifs with hf hp hq hq2 hq3
    · rfl
    · rfl
    · exact ih _ _ _
    · exact absurd hq hq2
    · exact absurd hq3 hq
    · have := ih (matchSellLevel clk ⟨sell, q, tid, trades⟩).order
        (matchSellLevel clk ⟨sell, q, tid, trades⟩).tradeId
        (matchSellLevel clk ⟨sell, q, tid, trades⟩).trades
      simp only [wrapLevel] at this ⊢
      rw [this]
      rfl

/-- The matcher of a buy order with the 32-bit counter, entered with a counter that
is the 32-bit value of `tid`, returns what the matcher over the integers returns,
with the trade ids and the counter brought into the 32-bit range. -/
theorem i32_matchBuyOrder (clk : Nat → Int) (buy : Order) (book : PriceMap) (tid : Int) :
    I32.matchBuyOrder clk buy book (wrapInt tid) =
      wrapMatch (matchOrder .BUY clk buy book tid) := by
  rw [← matchBuyOrder_eq]
  exact i32_matchBuyLevels clk book buy tid []

theorem i32_matchSellOrder (clk : Nat → Int) (sell : Order) (book : PriceMap) (tid : Int) :
    I32.matchSellOrder clk sell book (wrapInt tid) =
      wrapMatch (matchOrder .SELL clk sell book tid) := by
  rw [← matchSellOrder_eq]
  exact i32_matchSellLevels clk book sell tid []

theorem processTrades_wrap (all : OrderIndex) (trades : List Trade) :
    processTrades all (trades.map wrapTrade) = processTrades all trades := by
  simp only [processTrades, List.all_map]
  rfl

theorem wrapState_of_inInt (s : OrderBook) (h1 : InInt s.nextOrderId)
    (h2 : InInt s.nextTradeId) : wrapState s = s := by
  simp only [wrapState, wrapInt_of_inInt _ h1, wrapInt_of_inInt _ h2]

/-- One call of `placeOrder` with the 32-bit counters, on an engine whose order
counter is in range, is the call over the integers followed by the reduction of
the two counters and of the trade ids to 32 bits. -/
theorem i32_placeOrder (s : OrderBook) (side : OrderType) (price quantity now : Int)
    (clk : Nat → Int) (h : InInt s.nextOrderId) :
    I32.placeOrder (wrapState s) side price quantity now clk =
      wrapOutcome (placeOrder s side price quantity now clk) := by
  have hs : wrapState s =
      ⟨s.nextOrderId, wrapInt s.nextTradeId, s.buyOrders, s.sellOrders, s.allOrders⟩ := by
    simp only [wrapState, wrapInt_of_inInt _ h]
  by_cases hv : price ≤ 0 ∨ quantity ≤ 0
  · rw [placeOrder_invalid _ _ _ _ _ _ hv]
    simp only [I32.placeOrder, hv, ↓reduceIte, wrapOutcome, List.map_nil]
  · rw [placeOrder_valid _ _ _ _ _ _ hv, hs]
    cases side <;>
      simp only [I32.placeOrder, hv, ↓reduceIte, OrderIndex.find_assign_self,
        OrderIndex.assign_assign, i32_matchBuyOrder, i32_matchSellOrder, afterMatch, restOrder,
        newOrder, oppSide, wrapMatch, processTrades_wrap, wrapOutcome, wrapState] <;>
      split_ifs <;> simp_all [wrapState]

theorem cancelOrder_wrapState (s : OrderBook) (id : Int) :
    cancelOrder (wrapState s) id = wrapOutcome (cancelOrder s id) := by
  simp only [cancelOrder, wrapState, wrapOutcome]
  cases s.allOrders.find id with
  | none => rfl
  | some e =>
    simp only []
    cases e.type <;> split_ifs <;> rfl

/-- One command on the engine with the 32-bit counters, whose order counter is in
range, is the command on the engine over the integers followed by the reduction of
the two counters and of the trade ids to 32 bits. -/
theorem i32_step (s : OrderBook) (c : Command) (h : InInt s.nextOrderId) :
    I32.step (wrapState s) c = wrapOutcome (step s c) := by
  cases c with
  | place side price quantity now clk => exact i32_placeOrder s side price quantity now clk h
  | cancel id => exact cancelOrder_wrapState s id

theorem step_nextOrderId_le (s : OrderBook) (c : Command) :
    s.nextOrderId ≤ (step s c).state.nextOrderId := by
  rw [step_nextOrderId]
  split_ifs <;> omega

/-- While the order counter stays in the 32-bit range, the engine with the 32-bit
counters and the engine over the integers run alike: same books, same index, same
order counter, and the same trades up to the reduction of the trade ids. -/
theorem i32_runFrom (cs : List Command) :
    ∀ (s : OrderBook) (log : List Trade), -2147483648 ≤ s.nextOrderId →
      s.nextOrderId + ((cs.filter Command.accepted).length : Int) ≤ 2147483647 →
      I32.runFrom (wrapState s) (log.map wrapTrade) cs =
          (wrapState (runFrom s log cs).1, (runFrom s log cs).2.map wrapTrade) ∧
        I32.runErrors (wrapState s) cs = runErrors s cs := by
  induction cs with
  | nil => intro s log _ _; exact ⟨rfl, rfl⟩
  | cons c cs ih =>
    intro s log h1 h2
    have hlen : (0 : Int) ≤ ((cs.filter Command.accepted).length : Int) := Int.natCast_nonneg _
    have hacc : ((List.filter Command.accepted (c :: cs)).length : Int) =
        (if c.accepted then 1 else 0) + ((cs.filter Command.accepted).length : Int) := by
      rw [List.filter_cons]
      split_ifs
      · simp only [List.length_cons, Nat.cast_add, Nat.cast_one]
        ring
      · simp
    rw [hacc] at h2
    have hin : InInt s.nextOrderId := ⟨h1, by split_ifs at h2 <;> omega⟩
    have hst := i32_step s c hin
    have hn := step_nextOrderId s c
    have hih := ih (step s c).state (log ++ (step s c).trades) (by rw [hn]; split_ifs <;> omega)
      (by rw [hn]; omega)
    have e1 : (I32.step (wrapState s) c).state = wrapState (step s c).state := by rw [hst]; rfl
    have e2 : (I32.step (wrapState s) c).trades = (step s c).trades.map wrapTrade := by
      rw [hst]; rfl
    have e3 : (I32.step (wrapState s) c).error = (step s c).error := by rw [hst]; rfl
    constructor
    · show I32.runFrom (I32.step (wrapState s) c).state
          (log.map wrapTrade ++ (I32.step (wrapState s) c).trades) cs = _
      rw [e1, e2, ← List.map_append]
      exact hih.1
    · show (I32.step (wrapState s) c).error.isSome ::
          I32.runErrors (I32.step (wrapState s) c).state cs = _
      rw [e1, e3, hih.2]
      rfl

theorem map_wrapTrade_of_inInt (l : List Trade) (h : ∀ t ∈ l, InInt t.tradeId) :
    l.map wrapTrade = l := by
  induction l with
  | nil => rfl
  | cons t tl ih =>
    rw [List.map_cons, ih (fun x hx => h x (List.mem_cons_of_mem _ hx))]
    have : wrapTrade t = t := by
      simp only [wrapTrade, wrapInt_of_inInt _ (h t (List.mem_cons_self _ _))]
    rw [this]

theorem map_wrapInt_idsFrom (t : Int) (n : Nat) (h1 : -2147483648 ≤ t)
    (h2 : t + n ≤ 2147483648) : (idsFrom t n).map wrapInt = idsFrom t n := by
  induction n generalizing t with
  | zero => rfl
  | succ n ih =>
    simp only [Nat.cast_add, Nat.cast_one] at h2
    have hn : (0 : Int) ≤ (n : Int) := Int.natCast_nonneg _
    simp only [idsFrom, List.map_cons]
    rw [ih (t + 1) (by omega) (by omega), wrapInt_of_inInt t ⟨h1, by omega⟩]

theorem map_wrapInt_idsFrom_wrap (t : Int) (n : Nat) :
    (idsFrom (wrapInt t) n).map wrapInt = (idsFrom t n).map wrapInt := by
  induction n generalizing t with
  | zero => rfl
  | succ n ih =>
    simp only [idsFrom, List.map_cons, wrapInt_idem]
    rw [← ih (t + 1), ← ih (wrapInt t + 1), wrapInt_add]

theorem runFrom_tradeIds_from (cs : List Command) :
    ∀ (s : OrderBook) (log : List Trade) (t0 : Int),
      log.map Trade.tradeId = idsFrom t0 log.length → s.nextTradeId = t0 + log.length →
      (runFrom s log cs).2.map Trade.tradeId = idsFrom t0 (runFrom s log cs).2.length ∧
        (runFrom s log cs).1.nextTradeId = t0 + (runFrom s log cs).2.length := by
  induction cs with
  | nil => intro s log t0 h1 h2; exact ⟨h1, h2⟩
  | cons c cs ih =>
    intro s log t0 h1 h2
    have hs := step_tradeIds s c
    refine ih _ _ t0 ?_ ?_
    · rw [List.map_append, List.length_append, idsFrom_append, h1, hs.1, h2]
    · rw [hs.2, h2]
      simp only [List.length_append, Nat.cast_add]
      ring

/-- While both counters stay in the 32-bit range, the engine with the 32-bit
counters and the engine over the integers are one and the same. -/
theorem i32_runFrom_eq (s : OrderBook) (cs : List Command) (h1 : InInt s.nextOrderId)
    (h2 : s.nextOrderId + ((cs.filter Command.accepted).length : Int) ≤ 2147483647)
    (h3 : InInt s.nextTradeId)
    (h4 : s.nextTradeId + ((I32.runFrom s [] cs).2.length : Int) ≤ 2147483647) :
    I32.runFrom s [] cs = runFrom s [] cs ∧ I32.runErrors s cs = runErrors s cs := by
  have hw := wrapState_of_inInt s h1 h3
  have hr := i32_runFrom cs s [] h1.1 h2
  rw [hw, List.map_nil] at hr
  refine ⟨?_, hr.2⟩
  have hlen : (I32.runFrom s [] cs).2.length = (runFrom s [] cs).2.length := by
    rw [hr.1, List.length_map]
  rw [hlen] at h4
  have hids := runFrom_tradeIds_from cs s [] s.nextTradeId rfl (by simp)
  have hno := runFrom_nextOrderId cs s []
  have hacc : (0 : Int) ≤ ((cs.filter Command.accepted).length : Int) := Int.natCast_nonneg _
  have hl : (0 : Int) ≤ ((runFrom s [] cs).2.length : Int) := Int.natCast_nonneg _
  rw [hr.1, wrapState_of_inInt _ ⟨by rw [hno]; omega, by rw [hno]; omega⟩
    ⟨by rw [hids.2]; omega, by rw [hids.2]; omega⟩, map_wrapTrade_of_inInt]
  intro t ht
  have hm : t.tradeId ∈ idsFrom s.nextTradeId (runFrom s [] cs).2.length := by
    rw [← hids.1]
    exact List.mem_map_of_mem _ ht
  rw [mem_idsFrom] at hm
  exact ⟨by omega, by omega⟩

/-- The counters of the engine with the 32-bit counters after one command. -/
theorem i32_step_counters (s : OrderBook) (c : Command) (h1 : InInt s.nextOrderId)
    (h2 : InInt s.nextTradeId) :
    (I32.step s c).trades.map Trade.tradeId =
        (idsFrom s.nextTradeId (I32.step s c).trades.length).map wrapInt ∧
      (I32.step s c).state.nextTradeId =
        wrapInt (s.nextTradeId + (I32.step s c).trades.length) ∧
      (I32.step s c).state.nextOrderId =
        wrapInt (s.nextOrderId + (if c.accepted then 1 else 0)) := by
  have hst := i32_step s c h1
  rw [wrapState_of_inInt s h1 h2] at hst
  have hs := step_tradeIds s c
  rw [hst]
  simp only [wrapOutcome, wrapState, List.length_map]
  refine ⟨?_, ?_, ?_⟩
  · rw [← hs.1, List.map_map, List.map_map]
    rfl
  · rw [hs.2]
  · rw [step_nextOrderId]

theorem i32_step_inInt (s : OrderBook) (c : Command) (h1 : InInt s.nextOrderId)
    (h2 : InInt s.nextTradeId) :
    InInt (I32.step s c).state.nextOrderId ∧ InInt (I32.step s c).state.nextTradeId := by
  have h := i32_step_counters s c h1 h2
  rw [h.2.1, h.2.2]
  exact ⟨wrapInt_inInt _, wrapInt_inInt _⟩

/-- The counters of the engine with the 32-bit counters over a run: the trade ids
of the log are 1, 2, 3, ... reduced to 32 bits, `nextTradeId` is one more than the
number of trades and `nextOrderId` one more than the number of accepted orders,
both reduced to 32 bits. -/
theorem i32_runFrom_counters (cs : List Command) :
    ∀ (s : OrderBook) (log : List Trade) (a : Nat), InInt s.nextOrderId → InInt s.nextTradeId →
      log.map Trade.tradeId = (idsFrom 1 log.length).map wrapInt →
      s.nextTradeId = wrapInt (1 + log.length) → s.nextOrderId = wrapInt (1 + a) →
      (I32.runFrom s log cs).2.map Trade.tradeId =
          (idsFrom 1 (I32.runFrom s log cs).2.length).map wrapInt ∧
        (I32.runFrom s log cs).1.nextTradeId = wrapInt (1 + (I32.runFrom s log cs).2.length) ∧
        (I32.runFrom s log cs).1.nextOrderId =
          wrapInt (1 + ((a + (cs.filter Command.accepted).length : Nat) : Int)) ∧
        InInt (I32.runFrom s log cs).1.nextOrderId ∧
        InInt (I32.runFrom s log cs).1.nextTradeId := by
  induction cs with
  | nil => intro s log a h1 h2 h3 h4 h5; exact ⟨h3, h4, by simpa using h5, h1, h2⟩
  | cons c cs ih =>
    intro s log a h1 h2 h3 h4 h5
    have hc := i32_step_counters s c h1 h2
    have hi := i32_step_inInt s c h1 h2
    have key := ih (I32.step s c).state (log ++ (I32.step s c).trades)
      (a + (if c.accepted then 1 else 0)) hi.1 hi.2 ?_ ?_ ?_
    · refine ⟨key.1, key.2.1, ?_, key.2.2.2⟩
      have := key.2.2.1
      show (I32.runFrom (I32.step s c).state (log ++ (I32.step s c).trades) cs).1.nextOrderId = _
      rw [this, List.filter_cons]
      congr 2
      split_ifs
      · simp only [List.length_cons]
        omega
      · simp
    · rw [List.map_append, List.length_append, idsFrom_append, List.map_append, h3, hc.1, h4,
        map_wrapInt_idsFrom_wrap]
    · rw [hc.2.1, h4, wrapInt_add, List.length_append]
      congr 1
      push_cast
      ring
    · rw [hc.2.2, h5, wrapInt_add]
      congr 1
      split_ifs
      · simp only [Nat.cast_add, Nat.cast_one]
        ring
      · simp

theorem i32_run_counters (cs : List Command) :
    (I32.run cs).2.map Trade.tradeId = (idsFrom 1 (I32.run cs).2.length).map wrapInt ∧
      (I32.run cs).1.nextTradeId = wrapInt (1 + (I32.run cs).2.length) ∧
      (I32.run cs).1.nextOrderId = wrapInt (1 + ((cs.filter Command.accepted).length : Int)) ∧
      InInt (I32.run cs).1.nextOrderId ∧ InInt (I32.run cs).1.nextTradeId := by
  have h := i32_runFrom_counters cs fresh [] 0 (by decide) (by decide) rfl (by decide)
    (by decide)
  simpa [I32.run] using h

/-! ### The two id counters of the engine with 32-bit counters -/

theorem placeOrder_stored (s : OrderBook) (side : OrderType) (price quantity now : Int)
    (clk : Nat → Int) (hv : ¬ (price ≤ 0 ∨ quantity ≤ 0)) :
    ∃ e, (placeOrder s side price quantity now clk).state.allOrders.find s.nextOrderId =
        some e ∧
      e.id = s.nextOrderId ∧ e.type = side ∧ e.price = price ∧ e.quantity = quantity := by
  have hord := matchOrder_order side clk s price quantity now (oppSide s side) s.nextTradeId
  rw [placeOrder_valid _ _ _ _ _ _ hv]
  simp only []
  split_ifs
  · refine ⟨_, by rw [allOrders_afterMatch, OrderIndex.find_assign_self], ?_⟩
    rw [hord]
    exact ⟨rfl, rfl, rfl, rfl⟩
  · refine ⟨_, by rw [allOrders_restOrder, allOrders_afterMatch,
      OrderIndex.find_assign_self], ?_⟩
    rw [hord]
    exact ⟨rfl, rfl, rfl, rfl⟩
  · refine ⟨_, by rw [allOrders_afterMatch, OrderIndex.find_assign_self], ?_⟩
    rw [hord]
    exact ⟨rfl, rfl, rfl, rfl⟩

theorem placeOrder_incoming (s : OrderBook) (side : OrderType) (price quantity now : Int)
    (clk : Nat → Int) :
    ∀ t ∈ (placeOrder s side price quantity now clk).trades,
      incomingId side t = s.nextOrderId := by
  by_cases hv : price ≤ 0 ∨ quantity ≤ 0
  · rw [placeOrder_invalid _ _ _ _ _ _ hv]
    intro t ht
    cases ht
  · obtain ⟨new, hnew, hnames, -, -⟩ := levelsRun_new side clk (oppSide s side)
      (newOrder s side price quantity now) s.nextTradeId []
    rw [List.nil_append] at hnew
    have htr : (placeOrder s side price quantity now clk).trades = new := by
      rw [placeOrder_valid _ _ _ _ _ _ hv, ← hnew]
      simp only []
      split_ifs <;> rfl
    rw [htr]
    exact fun t ht => (hnames t ht).1

theorem incomingId_wrapTrade (side : OrderType) (t : Trade) :
    incomingId side (wrapTrade t) = incomingId side t := by
  cases side <;> rfl

theorem wrapState_fresh : wrapState fresh = fresh := by decide

/-- A run of the engine with the 32-bit counters from a fresh engine, of fewer than
2^31 - 1 accepted orders, against the run over the integers. -/
theorem i32_run (cs : List Command)
    (h : (cs.filter Command.accepted).length < 2147483647) :
    I32.run cs = (wrapState (run cs).1, (run cs).2.map wrapTrade) ∧
      (I32.run cs).1.nextOrderId = (run cs).1.nextOrderId ∧
      (I32.run cs).1.buyOrders = (run cs).1.buyOrders ∧
      (I32.run cs).1.sellOrders = (run cs).1.sellOrders ∧
      (I32.run cs).1.allOrders = (run cs).1.allOrders := by
  have hb : fresh.nextOrderId + ((cs.filter Command.accepted).length : Int) ≤ 2147483647 := by
    show (1 : Int) + _ ≤ _
    omega
  have hr := (i32_runFrom cs fresh [] (by decide) hb).1
  rw [wrapState_fresh, List.map_nil] at hr
  have e : I32.run cs = (wrapState (run cs).1, (run cs).2.map wrapTrade) := hr
  have hno : (run cs).1.nextOrderId = 1 + ((cs.filter Command.accepted).length : Int) :=
    runFrom_nextOrderId cs fresh []
  refine ⟨e, ?_, ?_, ?_, ?_⟩
  · rw [e]
    show wrapInt (run cs).1.nextOrderId = _
    exact wrapInt_of_inInt _ ⟨by rw [hno]; omega, by rw [hno]; omega⟩
  · rw [e]; rfl
  · rw [e]; rfl
  · rw [e]; rfl

/-- One call of `placeOrder` on a state reached by the engine with the 32-bit
counters, against the call over the integers on the same state. -/
theorem i32_placeOrder_run (cs : List Command) (side : OrderType) (price quantity now : Int)
    (clk : Nat → Int) :
    I32.placeOrder (I32.run cs).1 side price quantity now clk =
      wrapOutcome (placeOrder (I32.run cs).1 side price quantity now clk) := by
  have hc := i32_run_counters cs
  have := i32_placeOrder (I32.run cs).1 side price quantity now clk hc.2.2.2.1
  rwa [wrapState_of_inInt _ hc.2.2.2.1 hc.2.2.2.2] at this

/-- Claim C13 (order-id monotonicity, as the code has it). `nextOrderId` is a 32-bit
`int`.  After any run from a fresh engine it is one more than the number of
`placeOrder` calls that passed the argument check, reduced to 32 bits.  A rejected
call leaves it as it is.  An accepted call stores its record in `allOrders` under
the value of `nextOrderId` at the call, with the requested side, price and
quantity, every trade of the call names that id for the incoming order, and the
counter becomes the 32-bit value of its successor.  While fewer than 2^31 - 1
calls have been accepted, the counter is one more than their number without any
reduction, so the k-th accepted call is given id k, every resting order has an id
from 1 up to, but excluding, `nextOrderId`, and one more accepted call raises the
counter by one unless it is the call number 2^31 - 1. -/
theorem order_id_monotone (cs : List Command) (side : OrderType) (price quantity now : Int)
    (clk : Nat → Int) :
    (I32.run cs).1.nextOrderId = wrapInt (1 + ((cs.filter Command.accepted).length : Int)) ∧
    ((price ≤ 0 ∨ quantity ≤ 0) →
      (I32.placeOrder (I32.run cs).1 side price quantity now clk).state.nextOrderId =
        (I32.run cs).1.nextOrderId) ∧
    (¬ (price ≤ 0 ∨ quantity ≤ 0) →
      (∃ e, (I32.placeOrder (I32.run cs).1 side price quantity now clk).state.allOrders.find
          (I32.run cs).1.nextOrderId = some e ∧
        e.id = (I32.run cs).1.nextOrderId ∧ e.type = side ∧ e.price = price ∧
        e.quantity = quantity) ∧
      (∀ t ∈ (I32.placeOrder (I32.run cs).1 side price quantity now clk).trades,
        incomingId side t = (I32.run cs).1.nextOrderId) ∧
      (I32.placeOrder (I32.run cs).1 side price quantity now clk).state.nextOrderId =
        wrapInt ((I32.run cs).1.nextOrderId + 1)) ∧
    ((cs.filter Command.accepted).length < 2147483647 →
      (I32.run cs).1.nextOrderId = 1 + ((cs.filter Command.accepted).length : Int) ∧
      (∀ l, l ∈ (I32.run cs).1.buyOrders ∨ l ∈ (I32.run cs).1.sellOrders → ∀ o ∈ l.2,
        1 ≤ o.id ∧ o.id < (I32.run cs).1.nextOrderId) ∧
      (¬ (price ≤ 0 ∨ quantity ≤ 0) → (cs.filter Command.accepted).length + 1 < 2147483647 →
        (I32.placeOrder (I32.run cs).1 side price quantity now clk).state.nextOrderId =
          (I32.run cs).1.nextOrderId + 1)) := by
  have hc := i32_run_counters cs
  have hp := i32_placeOrder_run cs side price quantity now clk
  have hnext : (I32.placeOrder (I32.run cs).1 side price quantity now clk).state.nextOrderId =
      wrapInt ((I32.run cs).1.nextOrderId + (if price ≤ 0 ∨ quantity ≤ 0 then 0 else 1)) := by
    rw [hp]
    show wrapInt (placeOrder (I32.run cs).1 side price quantity now clk).state.nextOrderId = _
    rw [placeOrder_nextOrderId]
  refine ⟨hc.2.2.1, fun hv => ?_, fun hv => ⟨?_, ?_, ?_⟩, fun hb => ?_⟩
  · rw [hnext, if_pos hv, add_zero]
    exact wrapInt_of_inInt _ hc.2.2.2.1
  · rw [hp]
    exact placeOrder_stored (I32.run cs).1 side price quantity now clk hv
  · rw [hp]
    intro t ht
    obtain ⟨t0, ht0, rfl⟩ := List.mem_map.mp ht
    rw [incomingId_wrapTrade]
    exact placeOrder_incoming (I32.run cs).1 side price quantity now clk t0 ht0
  · rw [hnext, if_neg hv]
  · obtain ⟨-, h1, h2, h3, -⟩ := i32_run cs hb
    have hinv := engineInv_run cs
    have hno : (run cs).1.nextOrderId = 1 + ((cs.filter Command.accepted).length : Int) :=
      runFrom_nextOrderId cs fresh []
    refine ⟨by rw [h1, hno], fun l hl o ho => ?_, fun hv hb2 => ?_⟩
    · rw [h1]
      rw [h2, h3] at hl
      rcases hl with hl | hl
      · exact hinv.idRange .BUY o (mem_restingOrders.mpr ⟨l, hl, ho⟩)
      · exact hinv.idRange .SELL o (mem_restingOrders.mpr ⟨l, hl, ho⟩)
    · rw [hnext, if_neg hv, h1, hno]
      exact wrapInt_of_inInt _ ⟨by omega, by omega⟩

/-- After ASK(100, 5), a rejected BID with quantity 0 and BID(100, 5), two calls were
accepted and `nextOrderId` is 3.  In the state after ASK(100, 5) alone: the resting
order has id 1 below `nextOrderId = 2`, the rejected BID leaves the counter at 2,
and BID(100, 5) raises it to 3 with every trade naming id 2 as the buyer. -/
theorem order_id_monotone_witness :
    (I32.run [.place .SELL 100 5 0 clock0, .place .BUY 100 0 0 clock0,
      .place .BUY 100 5 0 clock0]).1.nextOrderId = 3 ∧
    (1 ≤ (⟨1, .SELL, 100, 5, 0, 0⟩ : Order).id ∧
      (⟨1, .SELL, 100, 5, 0, 0⟩ : Order).id <
        (I32.run [.place .SELL 100 5 0 clock0]).1.nextOrderId) ∧
    (I32.placeOrder (I32.run [.place .SELL 100 5 0 clock0]).1 .BUY 100 0 0 clock0).state.nextOrderId =
      (I32.run [.place .SELL 100 5 0 clock0]).1.nextOrderId ∧
    (I32.placeOrder (I32.run [.place .SELL 100 5 0 clock0]).1 .BUY 100 5 0 clock0).state.nextOrderId =
      (I32.run [.place .SELL 100 5 0 clock0]).1.nextOrderId + 1 ∧
    (∀ t ∈ (I32.placeOrder (I32.run [.place .SELL 100 5 0 clock0]).1 .BUY 100 5 0 clock0).trades,
      incomingId .BUY t = (I32.run [.place .SELL 100 5 0 clock0]).1.nextOrderId) :=
  ⟨by decide,
    ((order_id_monotone [.place .SELL 100 5 0 clock0] .BUY 100 0 0 clock0).2.2.2
      (by decide)).2.1 (100, [⟨1, .SELL, 100, 5, 0, 0⟩]) (Or.inr (by decide))
      ⟨1, .SELL, 100, 5, 0, 0⟩ (by decide),
    (order_id_monotone [.place .SELL 100 5 0 clock0] .BUY 100 0 0 clock0).2.1
      (Or.inr (by decide)),
    ((order_id_monotone [.place .SELL 100 5 0 clock0] .BUY 100 5 0 clock0).2.2.2
      (by decide)).2.2 (by decide) (by decide),
    ((order_id_monotone [.place .SELL 100 5 0 clock0] .BUY 100 5 0 clock0).2.2.1
      (by decide)).2.1⟩

theorem filter_accepted_replicate (n : Nat) (c : Command) (h : c.accepted = true) :
    ((List.replicate n c).filter Command.accepted).length = n := by
  induction n with
  | zero => rfl
  | succ n ih => rw [List.replicate_succ, List.filter_cons_of_pos h, List.length_cons, ih]

/-- The order counter after `n` accepted bids of one unit at price 1 on a fresh
engine, and the id given to one more of them. -/
theorem i32_replicate_bids (n : Nat) :
    ((List.replicate n (Command.place .BUY 1 1 0 clock0)).filter Command.accepted).length = n ∧
      (I32.run (List.replicate n (Command.place .BUY 1 1 0 clock0))).1.nextOrderId =
        wrapInt (1 + (n : Int)) ∧
      ∃ e, (I32.placeOrder (I32.run (List.replicate n (Command.place .BUY 1 1 0 clock0))).1
          .BUY 1 1 0 clock0).state.allOrders.find (wrapInt (1 + (n : Int))) = some e ∧
        e.id = wrapInt (1 + (n : Int)) := by
  have hlen := filter_accepted_replicate n (Command.place .BUY 1 1 0 clock0) rfl
  have hc := (i32_run_counters (List.replicate n (Command.place .BUY 1 1 0 clock0))).2.2.1
  rw [hlen] at hc
  refine ⟨hlen, hc, ?_⟩
  obtain ⟨e, he, hid, -⟩ := placeOrder_stored
    (I32.run (List.replicate n (Command.place .BUY 1 1 0 clock0))).1
    .BUY 1 1 0 clock0 (by decide)
  rw [hc] at he hid
  refine ⟨e, ?_, hid⟩
  rw [i32_placeOrder_run]
  exact he

/-- The claim of C13 at the end of the 32-bit range. After 2147483647 accepted
orders, each a BID of one unit at price 1, `nextOrderId` is -2147483648 and not
2147483648, below the id 1 of the first order; the next accepted call, the one
number 2147483648, is given the id -2147483648. -/
theorem order_id_monotone_counterexample :
    ((List.replicate 2147483647 (Command.place .BUY 1 1 0 clock0)).filter
        Command.accepted).length = 2147483647 ∧
      (I32.run (List.replicate 2147483647 (Command.place .BUY 1 1 0 clock0))).1.nextOrderId =
        -2147483648 ∧
      ∃ e, (I32.placeOrder
          (I32.run (List.replicate 2147483647 (Command.place .BUY 1 1 0 clock0))).1
          .BUY 1 1 0 clock0).state.allOrders.find (-2147483648) = some e ∧
        e.id = -2147483648 := by
  have h := i32_replicate_bids 2147483647
  have hw : wrapInt (1 + ((2147483647 : Nat) : Int)) = -2147483648 := by decide
  rw [hw] at h
  exact h

/-- Claim C14 (trade-id monotonicity, as the code has it). The trade-id counter is a
32-bit `int`.  The trades returned by one call of `matchBuyOrder` or
`matchSellOrder` entered with counter `t` carry the ids `t, t + 1, ..., t + n - 1`
reduced to 32 bits, and the counter at exit is `t + n` reduced to 32 bits; when
`t + n` does not exceed 2147483647 there is no reduction: the ids are
`t, ..., t + n - 1` and the counter at exit is `t + n`.  Over a run from a fresh
engine the ids of the trade log are `1, 2, 3, ...` reduced to 32 bits and
`nextTradeId` is one more than the number of trades, reduced to 32 bits; while
fewer than 2^31 - 1 trades have been emitted the ids are `1, 2, 3, ...` themselves,
without gap or repetition, and `nextTradeId` is one more than their number, so
that it exceeds the id of every emitted trade. -/
theorem trade_id_monotone (clk : Nat → Int) (inc : Order) (book : PriceMap) (t : Int)
    (cs : List Command) :
    (InInt t →
      ((I32.matchBuyOrder clk inc book t).trades.map Trade.tradeId =
          (idsFrom t (I32.matchBuyOrder clk inc book t).trades.length).map wrapInt ∧
        (I32.matchBuyOrder clk inc book t).tradeId =
          wrapInt (t + (I32.matchBuyOrder clk inc book t).trades.length)) ∧
      ((I32.matchSellOrder clk inc book t).trades.map Trade.tradeId =
          (idsFrom t (I32.matchSellOrder clk inc book t).trades.length).map wrapInt ∧
        (I32.matchSellOrder clk inc book t).tradeId =
          wrapInt (t + (I32.matchSellOrder clk inc book t).trades.length))) ∧
    (InInt t → t + (I32.matchBuyOrder clk inc book t).trades.length ≤ 2147483647 →
      (I32.matchBuyOrder clk inc book t).trades.map Trade.tradeId =
          idsFrom t (I32.matchBuyOrder clk inc book t).trades.length ∧
        (I32.matchBuyOrder clk inc book t).tradeId =
          t + (I32.matchBuyOrder clk inc book t).trades.length) ∧
    (InInt t → t + (I32.matchSellOrder clk inc book t).trades.length ≤ 2147483647 →
      (I32.matchSellOrder clk inc book t).trades.map Trade.tradeId =
          idsFrom t (I32.matchSellOrder clk inc book t).trades.length ∧
        (I32.matchSellOrder clk inc book t).tradeId =
          t + (I32.matchSellOrder clk inc book t).trades.length) ∧
    ((I32.run cs).2.map Trade.tradeId = (idsFrom 1 (I32.run cs).2.length).map wrapInt ∧
      (I32.run cs).1.nextTradeId = wrapInt (1 + (I32.run cs).2.length)) ∧
    ((I32.run cs).2.length < 2147483647 →
      (I32.run cs).2.map Trade.tradeId = idsFrom 1 (I32.run cs).2.length ∧
      ((I32.run cs).2.map Trade.tradeId).Nodup ∧
      (I32.run cs).1.nextTradeId = 1 + (I32.run cs).2.length ∧
      (∀ tr ∈ (I32.run cs).2, 1 ≤ tr.tradeId ∧ tr.tradeId < (I32.run cs).1.nextTradeId)) := by
  have key : ∀ side : OrderType, ∀ m : MatchState,
      m = wrapMatch (matchOrder side clk inc book t) →
      m.trades.map Trade.tradeId = (idsFrom t m.trades.length).map wrapInt ∧
        m.tradeId = wrapInt (t + m.trades.length) := by
    intro side m hm
    have h := matchOrder_tradeIds side clk inc book t
    subst hm
    simp only [wrapMatch, List.length_map, List.map_map]
    refine ⟨?_, by rw [h.2]⟩
    rw [← h.1, List.map_map]
    rfl
  have hbuy : InInt t → (I32.matchBuyOrder clk inc book t).trades.map Trade.tradeId =
        (idsFrom t (I32.matchBuyOrder clk inc book t).trades.length).map wrapInt ∧
      (I32.matchBuyOrder clk inc book t).tradeId =
        wrapInt (t + (I32.matchBuyOrder clk inc book t).trades.length) := by
    intro ht
    have e := i32_matchBuyOrder clk inc book t
    rw [wrapInt_of_inInt t ht] at e
    exact key .BUY _ e
  have hsell : InInt t → (I32.matchSellOrder clk inc book t).trades.map Trade.tradeId =
        (idsFrom t (I32.matchSellOrder clk inc book t).trades.length).map wrapInt ∧
      (I32.matchSellOrder clk inc book t).tradeId =
        wrapInt (t + (I32.matchSellOrder clk inc book t).trades.length) := by
    intro ht
    have e := i32_matchSellOrder clk inc book t
    rw [wrapInt_of_inInt t ht] at e
    exact key .SELL _ e
  have hrun := i32_run_counters cs
  refine ⟨fun ht => ⟨hbuy ht, hsell ht⟩, fun ht hb => ?_, fun ht hb => ?_, ⟨hrun.1, hrun.2.1⟩,
    fun hb => ?_⟩
  · have h := hbuy ht
    have hn : (0 : Int) ≤ ((I32.matchBuyOrder clk inc book t).trades.length : Int) :=
      Int.natCast_nonneg _
    rw [map_wrapInt_idsFrom t _ ht.1 (by omega)] at h
    rw [wrapInt_of_inInt _ ⟨by have := ht.1; omega, hb⟩] at h
    exact h
  · have h := hsell ht
    have hn : (0 : Int) ≤ ((I32.matchSellOrder clk inc book t).trades.length : Int) :=
      Int.natCast_nonneg _
    rw [map_wrapInt_idsFrom t _ ht.1 (by omega)] at h
    rw [wrapInt_of_inInt _ ⟨by have := ht.1; omega, hb⟩] at h
    exact h
  · have h1 := hrun.1
    have h2 := hrun.2.1
    rw [map_wrapInt_idsFrom 1 _ (by decide) (by omega)] at h1
    rw [wrapInt_of_inInt _ ⟨by omega, by omega⟩] at h2
    refine ⟨h1, by rw [h1]; exact idsFrom_nodup _ _, h2, fun tr htr => ?_⟩
    have hm : tr.tradeId ∈ idsFrom 1 (I32.run cs).2.length := by
      rw [← h1]
      exact List.mem_map_of_mem _ htr
    rw [mem_idsFrom] at hm
    rw [h2]
    exact hm

/-- Scenario S5: three asks, then BID(101, 7) trades twice; the log has ids 1, 2 and
`nextTradeId` is 3.  A `matchBuyOrder` call entered with counter 5 against two asks
at 100 returns trades with the ids 5 and 6 and leaves the counter at 7. -/
theorem trade_id_monotone_witness :
    ((I32.matchBuyOrder clock0 ⟨3, .BUY, 100, 9, 0, 0⟩
        [(100, [⟨1, .SELL, 100, 5, 0, 0⟩, ⟨2, .SELL, 100, 7, 0, 0⟩])] 5).trades.map
        Trade.tradeId =
      idsFrom 5 (I32.matchBuyOrder clock0 ⟨3, .BUY, 100, 9, 0, 0⟩
        [(100, [⟨1, .SELL, 100, 5, 0, 0⟩, ⟨2, .SELL, 100, 7, 0, 0⟩])] 5).trades.length ∧
      (I32.matchBuyOrder clock0 ⟨3, .BUY, 100, 9, 0, 0⟩
        [(100, [⟨1, .SELL, 100, 5, 0, 0⟩, ⟨2, .SELL, 100, 7, 0, 0⟩])] 5).tradeId =
      5 + (I32.matchBuyOrder clock0 ⟨3, .BUY, 100, 9, 0, 0⟩
        [(100, [⟨1, .SELL, 100, 5, 0, 0⟩, ⟨2, .SELL, 100, 7, 0, 0⟩])] 5).trades.length) ∧
    (I32.matchBuyOrder clock0 ⟨3, .BUY, 100, 9, 0, 0⟩
        [(100, [⟨1, .SELL, 100, 5, 0, 0⟩, ⟨2, .SELL, 100, 7, 0, 0⟩])] 5).trades.map
        Trade.tradeId = [5, 6] ∧
    (I32.run [.place .SELL 100 3 0 clock0, .place .SELL 101 3 0 clock0,
      .place .SELL 102 3 0 clock0, .place .BUY 101 7 0 clock0]).2.map Trade.tradeId = [1, 2] ∧
    (I32.run [.place .SELL 100 3 0 clock0, .place .SELL 101 3 0 clock0,
      .place .SELL 102 3 0 clock0, .place .BUY 101 7 0 clock0]).1.nextTradeId = 3 ∧
    (1 ≤ (⟨2, 4, 2, 101, 3, 0⟩ : Trade).tradeId ∧
      (⟨2, 4, 2, 101, 3, 0⟩ : Trade).tradeId <
        (I32.run [.place .SELL 100 3 0 clock0, .place .SELL 101 3 0 clock0,
          .place .SELL 102 3 0 clock0, .place .BUY 101 7 0 clock0]).1.nextTradeId) :=
  ⟨(trade_id_monotone clock0 ⟨3, .BUY, 100, 9, 0, 0⟩
      [(100, [⟨1, .SELL, 100, 5, 0, 0⟩, ⟨2, .SELL, 100, 7, 0, 0⟩])] 5 []).2.1
      (by decide) (by decide),
    by decide, by decide, by decide,
    ((trade_id_monotone clock0 ⟨4, .BUY, 101, 7, 0, 0⟩ [] 1
      [.place .SELL 100 3 0 clock0, .place .SELL 101 3 0 clock0,
        .place .SELL 102 3 0 clock0, .place .BUY 101 7 0 clock0]).2.2.2.2 (by decide)).2.2.2
      ⟨2, 4, 2, 101, 3, 0⟩ (by decide)⟩

/-- The claim of C14 at the end of the 32-bit range. A `matchBuyOrder` call entered
with the counter at 2147483647 against two asks at 100 returns two trades with the
ids 2147483647 and -2147483648, not 2147483647 and 2147483648, and leaves the
counter at -2147483647, not at 2147483649. -/
theorem trade_id_monotone_counterexample :
    (I32.matchBuyOrder clock0 ⟨3, .BUY, 100, 9, 0, 0⟩
        [(100, [⟨1, .SELL, 100, 5, 0, 0⟩, ⟨2, .SELL, 100, 7, 0, 0⟩])] 2147483647).trades.map
        Trade.tradeId = [2147483647, -2147483648] ∧
      (I32.matchBuyOrder clock0 ⟨3, .BUY, 100, 9, 0, 0⟩
        [(100, [⟨1, .SELL, 100, 5, 0, 0⟩, ⟨2, .SELL, 100, 7, 0, 0⟩])] 2147483647).trades.map
        Trade.tradeId ≠ idsFrom 2147483647 2 ∧
      (I32.matchBuyOrder clock0 ⟨3, .BUY, 100, 9, 0, 0⟩
        [(100, [⟨1, .SELL, 100, 5, 0, 0⟩, ⟨2, .SELL, 100, 7, 0, 0⟩])] 2147483647).tradeId =
        -2147483647 := by
  decide

/-! ### The constructor and the first order after a restart -/

theorem construct_counter_inInt (buyFile sellFile : Option (List Char)) :
    InInt (OrderBook.construct buyFile sellFile).nextOrderId ∧
      1 ≤ (OrderBook.construct buyFile sellFile).nextOrderId := by
  obtain ⟨m1, -, m3⟩ := foldl_max_spec
    ((restingOrders (OrderBook.construct buyFile sellFile).buyOrders ++
      restingOrders (OrderBook.construct buyFile sellFile).sellOrders).map
        (fun o => wrapInt (o.id + 1))) 1
  rw [← construct_counter] at m1 m3
  refine ⟨?_, m1⟩
  rcases m3 with m3 | m3
  · rw [m3]; decide
  · obtain ⟨o, -, ho⟩ := List.mem_map.mp m3
    rw [← ho]
    exact wrapInt_inInt _

theorem construct_nextTradeId (buyFile sellFile : Option (List Char)) :
    (OrderBook.construct buyFile sellFile).nextTradeId = 1 := rfl

/-- Claim C20 (startup reconstruction, as the code has it). For any two active-order
files (missing ones included), in the engine the constructor builds every order in
a queue of `buyOrders` or `sellOrders` has an entry in `allOrders` under its id,
and `nextOrderId` is the maximum of 1 and of the 32-bit sums `id + 1` over the
loaded orders, which is at least 1.  When no loaded id is 2147483647, the largest
`int`, the sums are exact: `nextOrderId` is the maximum of 1 and of `id + 1` over
the loaded orders, it is above the id of every loaded order, and it is 1 or one
more than the id of a loaded order.  The first valid order placed is stored under
`nextOrderId`, with that id. -/
theorem startup_reconstruction (buyFile sellFile : Option (List Char)) (side : OrderType)
    (price quantity now : Int) (clk : Nat → Int) :
    (∀ l ∈ (OrderBook.construct buyFile sellFile).buyOrders ++
        (OrderBook.construct buyFile sellFile).sellOrders, ∀ o ∈ l.2,
      ∃ e, (OrderBook.construct buyFile sellFile).allOrders.find o.id = some e ∧ e.id = o.id) ∧
    (OrderBook.construct buyFile sellFile).nextOrderId =
      ((restingOrders (OrderBook.construct buyFile sellFile).buyOrders ++
        restingOrders (OrderBook.construct buyFile sellFile).sellOrders).map
          (fun o => wrapInt (o.id + 1))).foldl max 1 ∧
    1 ≤ (OrderBook.construct buyFile sellFile).nextOrderId ∧
    ((∀ l ∈ (OrderBook.construct buyFile sellFile).buyOrders ++
        (OrderBook.construct buyFile sellFile).sellOrders, ∀ o ∈ l.2, o.id < 2147483647) →
      (OrderBook.construct buyFile sellFile).nextOrderId =
        ((restingOrders (OrderBook.construct buyFile sellFile).buyOrders ++
          restingOrders (OrderBook.construct buyFile sellFile).sellOrders).map
            (fun o => o.id + 1)).foldl max 1 ∧
      (∀ l ∈ (OrderBook.construct buyFile sellFile).buyOrders ++
          (OrderBook.construct buyFile sellFile).sellOrders, ∀ o ∈ l.2,
        o.id < (OrderBook.construct buyFile sellFile).nextOrderId) ∧
      ((OrderBook.construct buyFile sellFile).nextOrderId = 1 ∨
        ∃ l ∈ (OrderBook.construct buyFile sellFile).buyOrders ++
          (OrderBook.construct buyFile sellFile).sellOrders, ∃ o ∈ l.2,
          (OrderBook.construct buyFile sellFile).nextOrderId = o.id + 1)) ∧
    (¬ (price ≤ 0 ∨ quantity ≤ 0) →
      ∃ e, (I32.placeOrder (OrderBook.construct buyFile sellFile) side price quantity now
          clk).state.allOrders.find (OrderBook.construct buyFile sellFile).nextOrderId =
            some e ∧
        e.id = (OrderBook.construct buyFile sellFile).nextOrderId ∧ e.type = side ∧
        e.price = price ∧ e.quantity = quantity) := by
  obtain ⟨hk, hcov, _⟩ := construct_index buyFile sellFile
  have hcount := construct_counter buyFile sellFile
  have hplain := construct_counter_of_lt buyFile sellFile
  have hids := construct_ids_inInt buyFile sellFile
  obtain ⟨hin, hone⟩ := construct_counter_inInt buyFile sellFile
  have htid := construct_nextTradeId buyFile sellFile
  generalize OrderBook.construct buyFile sellFile = s at *
  have hmem : ∀ l ∈ s.buyOrders ++ s.sellOrders, ∀ o ∈ l.2,
      o ∈ restingOrders s.buyOrders ++ restingOrders s.sellOrders := by
    intro l hl o ho
    rcases List.mem_append.mp hl with hl | hl
    · exact List.mem_append_left _ (mem_restingOrders.mpr ⟨l, hl, ho⟩)
    · exact List.mem_append_right _ (mem_restingOrders.mpr ⟨l, hl, ho⟩)
  have hlev : ∀ o ∈ restingOrders s.buyOrders ++ restingOrders s.sellOrders,
      ∃ l ∈ s.buyOrders ++ s.sellOrders, o ∈ l.2 := by
    intro o ho
    rcases List.mem_append.mp ho with ho | ho
    · obtain ⟨l, hl, hol⟩ := mem_restingOrders.mp ho
      exact ⟨l, List.mem_append_left _ hl, hol⟩
    · obtain ⟨l, hl, hol⟩ := mem_restingOrders.mp ho
      exact ⟨l, List.mem_append_right _ hl, hol⟩
  refine ⟨fun l hl o ho => ?_, hcount, hone, fun hlt => ?_, fun hv => ?_⟩
  · have := hcov o (hmem l hl o ho)
    obtain ⟨e, he⟩ := Option.isSome_iff_exists.mp this
    exact ⟨e, he, hk _ e he⟩
  · have hp := hplain (fun o ho => by
      obtain ⟨l, hl, hol⟩ := hlev o ho
      exact ⟨(hids o ho).1, hlt l hl o hol⟩)
    obtain ⟨-, m2, m3⟩ := foldl_max_spec
      ((restingOrders s.buyOrders ++ restingOrders s.sellOrders).map (fun o => o.id + 1)) 1
    rw [← hp] at m2 m3
    refine ⟨hp, fun l hl o ho => ?_, ?_⟩
    · have := m2 (o.id + 1) (List.mem_map_of_mem _ (hmem l hl o ho))
      omega
    · rcases m3 with m3 | m3
      · exact Or.inl m3
      · obtain ⟨o, ho, hid⟩ := List.mem_map.mp m3
        obtain ⟨l, hl, hol⟩ := hlev o ho
        exact Or.inr ⟨l, hl, o, hol, hid.symm⟩
  · have h := i32_placeOrder s side price quantity now clk hin
    rw [wrapState_of_inInt s hin (by rw [htid]; decide)] at h
    rw [h]
    exact placeOrder_stored s side price quantity now clk hv

/-- The bids file holds ids 1 and 4 at 100 and id 2 at 99, the asks file is missing:
the constructed engine indexes order 4, has `nextOrderId = 5`, above the loaded id
4, and stores the first order placed under the id 5. -/
theorem startup_reconstruction_witness :
    (OrderBook.construct
      (some "OrderID,Price,Quantity,FilledQuantity,Timestamp\n1,100,10,3,17\n4,100,5,0,18\n2,99,7,0,17\n".toList)
      none).nextOrderId = 5 ∧
    (⟨4, .BUY, 100, 5, 0, 18⟩ : Order).id < (OrderBook.construct
      (some "OrderID,Price,Quantity,FilledQuantity,Timestamp\n1,100,10,3,17\n4,100,5,0,18\n2,99,7,0,17\n".toList)
      none).nextOrderId ∧
    ∃ e, (I32.placeOrder (OrderBook.construct
        (some "OrderID,Price,Quantity,FilledQuantity,Timestamp\n1,100,10,3,17\n4,100,5,0,18\n2,99,7,0,17\n".toList)
        none) .BUY 1 1 0 clock0).state.allOrders.find (OrderBook.construct
          (some "OrderID,Price,Quantity,FilledQuantity,Timestamp\n1,100,10,3,17\n4,100,5,0,18\n2,99,7,0,17\n".toList)
          none).nextOrderId = some e ∧
      e.id = (OrderBook.construct
        (some "OrderID,Price,Quantity,FilledQuantity,Timestamp\n1,100,10,3,17\n4,100,5,0,18\n2,99,7,0,17\n".toList)
        none).nextOrderId ∧ e.type = .BUY ∧ e.price = 1 ∧ e.quantity = 1 :=
  ⟨by decide,
    ((startup_reconstruction
      (some "OrderID,Price,Quantity,FilledQuantity,Timestamp\n1,100,10,3,17\n4,100,5,0,18\n2,99,7,0,17\n".toList)
      none .BUY 1 1 0 clock0).2.2.2.1 (by decide)).2.1
      (100, [⟨1, .BUY, 100, 10, 3, 17⟩, ⟨4, .BUY, 100, 5, 0, 18⟩]) (by decide)
      ⟨4, .BUY, 100, 5, 0, 18⟩ (by decide),
    (startup_reconstruction
      (some "OrderID,Price,Quantity,FilledQuantity,Timestamp\n1,100,10,3,17\n4,100,5,0,18\n2,99,7,0,17\n".toList)
      none .BUY 1 1 0 clock0).2.2.2.2 (by decide)⟩

/-- The claim of C20 at a file that holds the largest `int` as an id. The bids file
has the single row `2147483647,100,10,0,7`: the order is loaded and indexed, the
32-bit sum `id + 1` is -2147483648, `nextOrderId` stays 1, which is neither
`1 + 2147483647` nor above the loaded id, and the first order placed after the
restart is given the id 1. -/
theorem startup_reconstruction_counterexample :
    (OrderBook.construct
        (some "OrderID,Price,Quantity,FilledQuantity,Timestamp\n2147483647,100,10,0,7\n".toList)
        none).buyOrders = [(100, [⟨2147483647, .BUY, 100, 10, 0, 7⟩])] ∧
      (OrderBook.construct
        (some "OrderID,Price,Quantity,FilledQuantity,Timestamp\n2147483647,100,10,0,7\n".toList)
        none).nextOrderId = 1 ∧
      (OrderBook.construct
        (some "OrderID,Price,Quantity,FilledQuantity,Timestamp\n2147483647,100,10,0,7\n".toList)
        none).nextOrderId ≠ max 1 (1 + 2147483647) ∧
      ¬ (⟨2147483647, .BUY, 100, 10, 0, 7⟩ : Order).id < (OrderBook.construct
        (some "OrderID,Price,Quantity,FilledQuantity,Timestamp\n2147483647,100,10,0,7\n".toList)
        none).nextOrderId ∧
      (I32.placeOrder (OrderBook.construct
        (some "OrderID,Price,Quantity,FilledQuantity,Timestamp\n2147483647,100,10,0,7\n".toList)
        none) .BUY 99 1 0 clock0).state.allOrders.find 1 = some ⟨1, .BUY, 99, 1, 0, 0⟩ := by
  decide

/-! ### The live engine against the restarted one -/

theorem accepted_shiftCommand (b d : Int) (c : Command) :
    (shiftCommand b d c).accepted = c.accepted := by
  cases c <;> rfl

theorem filter_accepted_shift (b d : Int) (cs : List Command) :
    ((cs.map (shiftCommand b d)).filter Command.accepted).length =
      (cs.filter Command.accepted).length := by
  induction cs with
  | nil => rfl
  | cons c cs ih =>
    simp only [List.map_cons, List.filter_cons, accepted_shiftCommand]
    split_ifs
    · simp only [List.length_cons, ih]
    · exact ih

/-- The live engine over the integers, in a state reached from a fresh engine with
its order counter in the 32-bit range, against the engine restarted from its two
files. -/
theorem restart_replay (cs cs' : List Command)
    (hfit : ∀ l ∈ (run cs).1.buyOrders ++ (run cs).1.sellOrders, ∀ o ∈ l.2, o.fits)
    (hmax : (run cs).1.nextOrderId ≤ 2147483647) :
    (restart (run cs).1).buyOrders = (run cs).1.buyOrders ∧
    (restart (run cs).1).sellOrders = (run cs).1.sellOrders ∧
    (restart (run cs).1).nextOrderId =
      ((restingOrders (run cs).1.buyOrders ++ restingOrders (run cs).1.sellOrders).map
        (fun o => o.id + 1)).foldl max 1 ∧
    1 ≤ (restart (run cs).1).nextOrderId ∧
    (restart (run cs).1).nextOrderId ≤ (run cs).1.nextOrderId ∧
    (run cs).1.nextTradeId = 1 + ((run cs).2.length : Int) ∧
    (runFrom (run cs).1 [] (cs'.map (liveCommand (run cs).1))).2 =
      (runFrom (restart (run cs).1) [] cs').2.map (liveTrade (run cs).1) ∧
    runErrors (run cs).1 (cs'.map (liveCommand (run cs).1)) =
      runErrors (restart (run cs).1) cs' := by
  have hL := engineInv_run cs
  obtain ⟨hR, hle, htwin⟩ := twin_restart (run cs).1 (run cs).2 hL hfit hmax
  obtain ⟨hb, hs⟩ := restart_sides (run cs).1 (run cs).2 hL hfit
  have htid := (runFrom_tradeIds cs fresh [] rfl rfl).2
  have hd : 0 ≤ orderIdGap (run cs).1 := by
    simp only [orderIdGap]
    omega
  obtain ⟨k1, k2, _⟩ := twin_run (restart (run cs).1).nextOrderId (orderIdGap (run cs).1)
    ((run cs).1.nextTradeId - 1) hd cs' (run cs).1 (restart (run cs).1) (run cs).2
    (ghostLog (restart (run cs).1)) [] [] hL hR htwin rfl
  have hcount := construct_counter_of_lt
    (some (exportActiveOrders (run cs).1.buyOrders (run cs).1.sellOrders).buyFile)
    (some (exportActiveOrders (run cs).1.buyOrders (run cs).1.sellOrders).sellFile)
    (fun o ho => by
      obtain ⟨t, hot⟩ := mem_resting_side (restart (run cs).1) o ho
      have hside : ownSide (restart (run cs).1) t = ownSide (run cs).1 t := by
        cases t
        · exact hb
        · exact hs
      rw [hside] at hot
      have := hL.idRange t o hot
      omega)
  have hcount2 : (restart (run cs).1).nextOrderId =
      ((restingOrders (restart (run cs).1).buyOrders ++
        restingOrders (restart (run cs).1).sellOrders).map (fun o => o.id + 1)).foldl max 1 :=
    hcount
  rw [hb, hs] at hcount2
  exact ⟨hb, hs, hcount2, hR.counters, hle, htid, k1, k2⟩

/-- Claim C16 (replay round-trip, as the code has it). Let the live engine be in a
state reached from a fresh engine in which the fields of every resting order lie
in the ranges of their C++ types, let the restarted engine be the one the
constructor builds from the two files `exportActiveOrders` writes, and let the two
counters of the live engine stay in the 32-bit range: fewer than 2^31 - 1 orders are
accepted and fewer than 2^31 - 1 trades are emitted, the commands after the restart
included.  The restarted engine holds the same two books, its `nextTradeId` is 1
and its `nextOrderId` is the maximum of 1 and of `id + 1` over the resting orders,
which is at most the live `nextOrderId`; the live trade counter is ahead by the
number of trades emitted so far.  For every subsequent sequence of commands given
to the restarted engine, the live engine given the same commands with the
cancelled ids translated emits the same trades with the order ids translated and
the trade ids raised by the gap of the trade counters, prices, quantities and
timestamps being equal, and the same commands throw.  For a sequence of
`placeOrder` commands alone, and for every sequence when the two order counters
agree, this holds for the same commands untranslated; when moreover no trade had
been emitted before the restart, the two trade logs are identical. -/
theorem replay_roundtrip (cs cs' : List Command)
    (hfit : ∀ l ∈ (I32.run cs).1.buyOrders ++ (I32.run cs).1.sellOrders, ∀ o ∈ l.2, o.fits)
    (hord : ((cs ++ cs').filter Command.accepted).length < 2147483647)
    (htr : (I32.run cs).2.length +
      (I32.runFrom (I32.run cs).1 [] (cs'.map (liveCommand (I32.run cs).1))).2.length <
        2147483647) :
    (restart (I32.run cs).1).buyOrders = (I32.run cs).1.buyOrders ∧
    (restart (I32.run cs).1).sellOrders = (I32.run cs).1.sellOrders ∧
    (restart (I32.run cs).1).nextTradeId = 1 ∧
    (restart (I32.run cs).1).nextOrderId =
      ((restingOrders (I32.run cs).1.buyOrders ++ restingOrders (I32.run cs).1.sellOrders).map
        (fun o => o.id + 1)).foldl max 1 ∧
    (restart (I32.run cs).1).nextOrderId ≤ (I32.run cs).1.nextOrderId ∧
    0 ≤ orderIdGap (I32.run cs).1 ∧
    tradeIdGap (I32.run cs).1 = (I32.run cs).2.length ∧
    (I32.runFrom (I32.run cs).1 [] (cs'.map (liveCommand (I32.run cs).1))).2 =
      (I32.runFrom (restart (I32.run cs).1) [] cs').2.map (liveTrade (I32.run cs).1) ∧
    I32.runErrors (I32.run cs).1 (cs'.map (liveCommand (I32.run cs).1)) =
      I32.runErrors (restart (I32.run cs).1) cs' ∧
    ((∀ c ∈ cs', c.isPlace = true) →
      (I32.runFrom (I32.run cs).1 [] cs').2 =
        (I32.runFrom (restart (I32.run cs).1) [] cs').2.map (liveTrade (I32.run cs).1)) ∧
    (orderIdGap (I32.run cs).1 = 0 →
      (I32.runFrom (I32.run cs).1 [] cs').2 =
          (I32.runFrom (restart (I32.run cs).1) [] cs').2.map (liveTrade (I32.run cs).1) ∧
        I32.runErrors (I32.run cs).1 cs' = I32.runErrors (restart (I32.run cs).1) cs' ∧
        (tradeIdGap (I32.run cs).1 = 0 →
          (I32.runFrom (I32.run cs).1 [] cs').2 =
            (I32.runFrom (restart (I32.run cs).1) [] cs').2)) := by
  have hacc : (((cs ++ cs').filter Command.accepted).length : Int) =
      ((cs.filter Command.accepted).length : Int) + ((cs'.filter Command.accepted).length : Int) := by
    rw [List.filter_append, List.length_append, Nat.cast_add]
  have hord2 : (((cs ++ cs').filter Command.accepted).length : Int) < 2147483647 := by
    exact_mod_cast hord
  rw [hacc] at hord2
  have ha1 : (0 : Int) ≤ ((cs.filter Command.accepted).length : Int) := Int.natCast_nonneg _
  have ha2 : (0 : Int) ≤ ((cs'.filter Command.accepted).length : Int) := Int.natCast_nonneg _
  have htr2 : ((I32.run cs).2.length : Int) +
      ((I32.runFrom (I32.run cs).1 [] (cs'.map (liveCommand (I32.run cs).1))).2.length : Int) <
        2147483647 := by
    exact_mod_cast htr
  clear htr hord hacc
  -- the run before the restart
  have hrun : I32.run cs = run cs :=
    (i32_runFrom_eq fresh cs (by decide)
      (by show (1 : Int) + _ ≤ _; omega) (by decide)
      (by
        have hn1 : (0 : Int) ≤ ((I32.runFrom (I32.run cs).1 []
            (cs'.map (liveCommand (I32.run cs).1))).2.length : Int) := Int.natCast_nonneg _
        show (1 : Int) + (((I32.run cs).2.length : Nat) : Int) ≤ _
        omega)).1
  rw [hrun] at hfit htr2 ⊢
  have hno : (run cs).1.nextOrderId = 1 + ((cs.filter Command.accepted).length : Int) :=
    runFrom_nextOrderId cs fresh []
  have hmax : (run cs).1.nextOrderId ≤ 2147483647 := by rw [hno]; omega
  obtain ⟨hb, hs, hcount, hone, hle, htid, k1, k2⟩ := restart_replay cs cs' hfit hmax
  have hn0 : (0 : Int) ≤ ((run cs).2.length : Int) := Int.natCast_nonneg _
  -- the live engine after the restart
  have hacc2 : ((cs'.map (liveCommand (run cs).1)).filter Command.accepted).length =
      (cs'.filter Command.accepted).length :=
    filter_accepted_shift (restart (run cs).1).nextOrderId (orderIdGap (run cs).1) cs'
  have hlive := i32_runFrom_eq (run cs).1 (cs'.map (liveCommand (run cs).1))
    ⟨by rw [hno]; omega, hmax⟩ (by rw [hacc2, hno]; omega)
    ⟨by rw [htid]; omega, by rw [htid]; omega⟩
    (by
      have hn2 : (0 : Int) ≤ ((I32.runFrom (run cs).1 []
          (cs'.map (liveCommand (run cs).1))).2.length : Int) := Int.natCast_nonneg _
      rw [htid]
      omega)
  have hl1 := hlive.1
  have hl2 := hlive.2
  rw [hl1] at htr2
  -- the restarted engine
  have hlen : (runFrom (restart (run cs).1) [] cs').2.length =
      (runFrom (run cs).1 [] (cs'.map (liveCommand (run cs).1))).2.length := by
    rw [k1, List.length_map]
  have hRin : InInt (restart (run cs).1).nextOrderId := ⟨by omega, by omega⟩
  have hRt : InInt (restart (run cs).1).nextTradeId := by
    show InInt 1
    decide
  have hRord : (restart (run cs).1).nextOrderId +
      ((cs'.filter Command.accepted).length : Int) ≤ 2147483647 := by omega
  have hRlen : (I32.runFrom (restart (run cs).1) [] cs').2.length =
      (runFrom (restart (run cs).1) [] cs').2.length := by
    have h := (i32_runFrom cs' (restart (run cs).1) [] hRin.1 hRord).1
    rw [wrapState_of_inInt _ hRin hRt, List.map_nil] at h
    rw [h, List.length_map]
  have hrest := i32_runFrom_eq (restart (run cs).1) cs' hRin hRord hRt
    (by
      rw [hRlen, hlen]
      show (1 : Int) + _ ≤ _
      omega)
  have hr1 := hrest.1
  have hr2 := hrest.2
  rw [hl1, hl2, hr1, hr2]
  have hd : 0 ≤ orderIdGap (run cs).1 := by
    simp only [orderIdGap]
    omega
  have hgap : tradeIdGap (run cs).1 = (run cs).2.length := by
    simp only [tradeIdGap, htid]
    ring
  refine ⟨hb, hs, rfl, hcount, hle, hd, hgap, k1, k2, fun hp => ?_, fun h0 => ?_⟩
  · have e : cs'.map (liveCommand (run cs).1) = cs' :=
      map_shiftCommand_place _ _ cs' hp
    rw [e] at hl1 k1
    rw [hl1]
    exact k1
  · have e : cs'.map (liveCommand (run cs).1) = cs' := by
      show cs'.map (shiftCommand (restart (run cs).1).nextOrderId (orderIdGap (run cs).1)) = cs'
      rw [h0]
      exact map_shiftCommand_zero _ _
    rw [e] at hl1 hl2 k1 k2
    rw [hl1, hl2]
    refine ⟨k1, k2, fun he => ?_⟩
    have k5 : (runFrom (run cs).1 [] cs').2 =
        (runFrom (restart (run cs).1) [] cs').2.map
          (renTrade (shiftId (restart (run cs).1).nextOrderId (orderIdGap (run cs).1))
            (tradeIdGap (run cs).1)) := k1
    rw [h0, he, map_renTrade_zero] at k5
    exact k5

/-- After ASK(100, 5), ASK(101, 5), BID(100, 5) the ask with id 2 rests at 101, one
trade has been emitted and the live counters are 4 and 2.  The fields of the
resting order fit their types and the counters are far from the end of their
range; the restarted engine has `nextOrderId = 3`, and for the subsequent
BID(101, 5) the live log is the log of the restarted engine with the buyer id 3
translated to 4 and the trade id raised by 1. -/
theorem replay_roundtrip_witness :
    (∀ l ∈ (I32.run [.place .SELL 100 5 0 clock0, .place .SELL 101 5 0 clock0,
        .place .BUY 100 5 0 clock0]).1.buyOrders ++
      (I32.run [.place .SELL 100 5 0 clock0, .place .SELL 101 5 0 clock0,
        .place .BUY 100 5 0 clock0]).1.sellOrders, ∀ o ∈ l.2, o.fits) ∧
    (restart (I32.run [.place .SELL 100 5 0 clock0, .place .SELL 101 5 0 clock0,
        .place .BUY 100 5 0 clock0]).1).nextOrderId = 3 ∧
    (I32.runFrom (I32.run [.place .SELL 100 5 0 clock0, .place .SELL 101 5 0 clock0,
        .place .BUY 100 5 0 clock0]).1 [] [.place .BUY 101 5 0 clock0]).2 =
      (I32.runFrom (restart (I32.run [.place .SELL 100 5 0 clock0, .place .SELL 101 5 0 clock0,
        .place .BUY 100 5 0 clock0]).1) [] [.place .BUY 101 5 0 clock0]).2.map
        (liveTrade (I32.run [.place .SELL 100 5 0 clock0, .place .SELL 101 5 0 clock0,
          .place .BUY 100 5 0 clock0]).1) :=
  ⟨by decide, by decide,
    (replay_roundtrip [.place .SELL 100 5 0 clock0, .place .SELL 101 5 0 clock0,
      .place .BUY 100 5 0 clock0] [.place .BUY 101 5 0 clock0] (by decide) (by decide)
      (by decide)).2.2.2.2.2.2.2.2.2.1 (by decide)⟩

/-- After ASK(100, 5), ASK(101, 5), BID(100, 5) the live engine has the ask with
id 2 resting at 101 and the counters 4 and 2; the restarted engine holds the same
book with the counters 3 and 1.  For the same subsequent command BID(101, 5) the
live engine emits trade 2 with buyer 4 and the restarted engine emits trade 1 with
buyer 3: the two logs differ in the trade id and in the buy order id. -/
theorem replay_roundtrip_counterexample :
    (I32.run [.place .SELL 100 5 0 clock0, .place .SELL 101 5 0 clock0,
        .place .BUY 100 5 0 clock0]).1 =
      ⟨4, 2, [], [(101, [⟨2, .SELL, 101, 5, 0, 0⟩])],
        [(1, ⟨1, .SELL, 100, 5, 0, 0⟩), (2, ⟨2, .SELL, 101, 5, 0, 0⟩),
          (3, ⟨3, .BUY, 100, 5, 5, 0⟩)]⟩ ∧
    restart (I32.run [.place .SELL 100 5 0 clock0, .place .SELL 101 5 0 clock0,
        .place .BUY 100 5 0 clock0]).1 =
      ⟨3, 1, [], [(101, [⟨2, .SELL, 101, 5, 0, 0⟩])], [(2, ⟨2, .SELL, 101, 5, 0, 0⟩)]⟩ ∧
    (I32.runFrom (I32.run [.place .SELL 100 5 0 clock0, .place .SELL 101 5 0 clock0,
        .place .BUY 100 5 0 clock0]).1 [] [.place .BUY 101 5 0 clock0]).2 =
      [⟨2, 4, 2, 101, 5, 0⟩] ∧
    (I32.runFrom (restart (I32.run [.place .SELL 100 5 0 clock0, .place .SELL 101 5 0 clock0,
        .place .BUY 100 5 0 clock0]).1) [] [.place .BUY 101 5 0 clock0]).2 =
      [⟨1, 3, 2, 101, 5, 0⟩] ∧
    (I32.runFrom (I32.run [.place .SELL 100 5 0 clock0, .place .SELL 101 5 0 clock0,
        .place .BUY 100 5 0 clock0]).1 [] [.place .BUY 101 5 0 clock0]).2 ≠
      (I32.runFrom (restart (I32.run [.place .SELL 100 5 0 clock0, .place .SELL 101 5 0 clock0,
        .place .BUY 100 5 0 clock0]).1) [] [.place .BUY 101 5 0 clock0]).2 := by
  decide

end OME
